import Mathlib

/-!
Verification of `sanitize.py` (clawback configuration sanitizer).

The Python source is shallowly embedded here.  Strings are modelled as
`List Char` (Python `str` is a sequence of Unicode code points).  The
regular expressions used by the source are fixed, so each one is
compiled by hand into an executable matcher whose semantics follow
Python's `re` module (leftmost match, greedy quantifiers with
backtracking, `re.match` anchored at the start, `$` matching at the end
of the string or just before a single trailing newline, `.` not
matching a newline, `re.IGNORECASE` as case folding).  Console output
(`print` calls) has no effect on any returned value and is elided; the
`quiet` parameters are dropped for the same reason.

Recursive functions whose termination is not structural are defined
with an explicit fuel argument (structural in the fuel) together with a
proof that any sufficient fuel gives the same result; the fuel-free
wrappers carry the source names and satisfy the expected recursion
equations, proved below each definition.  This keeps every definition
computable by kernel reduction.
-/

set_option maxHeartbeats 1000000

namespace Clawback

abbrev Str := List Char

/-- `PLACEHOLDER = "PLACEHOLDER"` (sanitize.py line 21). -/
def PLACEHOLDER : Str := "PLACEHOLDER".toList

/-- The prefixed placeholder `f"Bearer {PLACEHOLDER}"` used in
`is_already_placeholder` and `sanitize_value`. -/
def bearerPlaceholder : Str := "Bearer PLACEHOLDER".toList

/-- The auth-scheme prefix `"Bearer "` tested by `value.startswith` in
`sanitize_value`. -/
def bearerPfx : Str := "Bearer ".toList

/-- The set of characters matched by Python's `\s` (for `str` patterns)
and stripped by `str.strip()`: Unicode whitespace. -/
def pyWhitespace : Str :=
  [' ', '\t', '\n', '\r', '\u000B', '\u000C',
   '\u001C', '\u001D', '\u001E', '\u001F', '\u0085', '\u00A0',
   '\u1680', '\u2000', '\u2001', '\u2002', '\u2003', '\u2004', '\u2005',
   '\u2006', '\u2007', '\u2008', '\u2009', '\u200A',
   '\u2028', '\u2029', '\u202F', '\u205F', '\u3000']

def isWS (c : Char) : Bool := pyWhitespace.contains c

/-- Case folding used by `re.IGNORECASE` on the ASCII pattern letters of
`SENSITIVE_KEY_PATTERNS`: ASCII upper case folds to lower case, and the
Unicode characters that `re.IGNORECASE` treats as equivalent to ASCII
letters fold onto them: U+017F LATIN SMALL LETTER LONG S to `s`,
U+212A KELVIN SIGN to `k`, and U+0130 LATIN CAPITAL LETTER I WITH DOT
ABOVE and U+0131 LATIN SMALL LETTER DOTLESS I to `i`. -/
def foldCase (c : Char) : Char :=
  if 'A' ≤ c ∧ c ≤ 'Z' then Char.ofNat (c.toNat + 32)
  else if c = '\u017F' then 's'
  else if c = '\u212A' then 'k'
  else if c = '\u0130' then 'i'
  else if c = '\u0131' then 'i'
  else c

/-- Drop a literal (case-sensitive) prefix, returning the rest. -/
def dropPfx : Str → Str → Option Str
  | [], s => some s
  | _ :: _, [] => none
  | p :: ps, c :: cs => if c = p then dropPfx ps cs else none

/-- Drop a case-insensitive literal prefix (the literal is given in
folded, lower-case form), returning the rest. -/
def dropPfxCI : Str → Str → Option Str
  | [], s => some s
  | _ :: _, [] => none
  | p :: ps, c :: cs => if foldCase c = p then dropPfxCI ps cs else none

/-- Python's `$` (without `re.MULTILINE`): matches at the end of the
string, or just before a newline that ends the string. -/
def dollarEnd (r : Str) : Bool :=
  decide (r = []) || decide (r = ['\n'])

/-- Compiled `re.match` of an anchored case-insensitive literal pattern
`^lit$` (`re.match` is itself anchored at the start, so the leading `^`
in `^Authorization$` and `^token$` is redundant). -/
def litDollar (lit : Str) (s : Str) : Bool :=
  match dropPfxCI lit s with
  | some r => dollarEnd r
  | none => false

/-- Compiled `re.match` of a pattern `.*lit$` under `re.IGNORECASE`:
either `lit$` matches here, or the first character is consumed by `.*`
(which cannot match a newline) and the search continues.  Only the
existence of a match matters for `is_sensitive_key`, so greedy order is
irrelevant. -/
def matchDotStarLit (lit : Str) : Str → Bool
  | [] => litDollar lit []
  | c :: t => litDollar lit (c :: t) || (decide (c ≠ '\n') && matchDotStarLit lit t)

/-- Compiled `re.match` of `^api[_-]?key$` under `re.IGNORECASE`: after
`api`, the separator branch and the empty branch of `[_-]?` are both
tried. -/
def apiKeyDollar (s : Str) : Bool :=
  match dropPfxCI "api".toList s with
  | none => false
  | some r =>
    (match r with
     | c :: t => (c = '_' || c = '-') && litDollar "key".toList t
     | [] => false)
    || litDollar "key".toList r

/-- `is_sensitive_key` (sanitize.py lines 64-69): first match of
`SENSITIVE_KEY_PATTERNS` (lines 36-46) with `re.match` and
`re.IGNORECASE` wins; compiled pattern by pattern in source order. -/
def is_sensitive_key (k : Str) : Bool :=
  matchDotStarLit "_token".toList k ||
  matchDotStarLit "_api_key".toList k ||
  matchDotStarLit "_app_key".toList k ||
  matchDotStarLit "_password".toList k ||
  matchDotStarLit "_secret".toList k ||
  matchDotStarLit "_pat".toList k ||
  litDollar "authorization".toList k ||
  litDollar "token".toList k ||
  apiKeyDollar k

/-! ## The configuration tree

JSON values as loaded by `json.load`: objects are insertion-ordered
associative lists; numbers are never inspected by any code path under
verification and are modelled as `Int`. -/

inductive JValue where
  | str (s : Str)
  | num (n : Int)
  | bool (b : Bool)
  | null
  | obj (fields : List (Str × JValue))
  | arr (items : List JValue)

compile_inductive% JValue

/-- `is_already_placeholder` (sanitize.py lines 72-76). -/
def is_already_placeholder : JValue → Bool
  | .str s => s = PLACEHOLDER || s = bearerPlaceholder
  | _ => false

/-- Truthiness of Python's `value.strip()`: nonempty after removing
leading and trailing whitespace, i.e. some character is not whitespace. -/
def strip_truthy (s : Str) : Bool := s.any (fun c => !(isWS c))

/-- Literal prefix test (Python `str.startswith`). -/
def hasPfx (p s : Str) : Bool := (dropPfx p s).isSome

/-- `sanitize_value` (sanitize.py lines 88-106).  The `print` diagnostics
(and with them `detect_token_type`, whose result is only printed) do
not affect the returned pair and are elided, as is `quiet`. -/
def sanitize_value (v : JValue) (_key_path : Str) : JValue × Bool :=
  if is_already_placeholder v then (v, false)
  else match v with
    | .str s =>
      if hasPfx bearerPfx s then (.str bearerPlaceholder, true)
      else if strip_truthy s then (.str PLACEHOLDER, true)
      else (.str s, false)
    | w => (w, false)

/-! ## Decimal rendering of sequence indices (Python `f"{idx}"`) -/

def natToCharsF : Nat → Nat → Str → Str
  | 0, _, acc => acc
  | fuel + 1, n, acc =>
    let d := Char.ofNat (48 + n % 10)
    if n < 10 then d :: acc
    else natToCharsF fuel (n / 10) (d :: acc)

theorem natToCharsF_congr : ∀ f1 f2 n acc, n < f1 → n < f2 →
    natToCharsF f1 n acc = natToCharsF f2 n acc := by
  intro f1
  induction f1 with
  | zero => omega
  | succ f1 ih =>
    intro f2 n acc h1 h2
    cases f2 with
    | zero => omega
    | succ f2 =>
      simp only [natToCharsF]
      split
      · rfl
      · exact ih f2 (n / 10) _ (by omega) (by omega)

/-- Decimal digits of a natural number (Python `f"{idx}"` for a
non-negative int). -/
def natToChars (n : Nat) : Str := natToCharsF (n + 1) n []

/-- Path extension for mapping descent: `f"{path}.{key}" if path else
key` (sanitize.py lines 115 and 164). -/
def extKey (path k : Str) : Str := if path = [] then k else path ++ '.' :: k

/-- Path extension for sequence descent: `f"{path}[{idx}]"` (sanitize.py
lines 142 and 173). -/
def extIdx (path : Str) (idx : Nat) : Str := path ++ '[' :: natToChars idx ++ [']']

/-! ## Compiled `VALUE_SCAN_PATTERNS` (sanitize.py lines 50-61)

Rule 1 is
`((?:postgres|postgresql|mongodb|mongodb+srv|mysql|redis|amqp|rabbitmq)://)[^\s"]+`
replaced by group 1 followed by `PLACEHOLDER`; rule 2 is
`(https?://[^"]*[?&](?:token|key|api_key|apikey|access_token|secret)=)[^"&]+`
with the same replacement shape.  `re.sub` replaces every
non-overlapping leftmost match, scanning left to right and resuming
after each match. -/

/-- First entry of a list of literal alternatives that is a prefix of
`s`, with the rest of `s`; this realises an ordered regex alternation
each of whose branches is a literal.  For both alternations below no
two combined literals can be prefixes of the same string
simultaneously, so ordered backtracking never revisits a later
alternative after a subsequent failure. -/
def firstPfx : List Str → Str → Option (Str × Str)
  | [], _ => none
  | g :: gs, s =>
    match dropPfx g s with
    | some r => some (g, r)
    | none => firstPfx gs s

/-- The scheme alternation of rule 1 with the following `://` attached:
backtracking over `(?:postgres|...)://` tries each scheme in written
order and then requires `://`, which is the same as trying the combined
literals in order. -/
def schemeList : List Str :=
  ["postgres://".toList, "postgresql://".toList, "mongodb://".toList,
   "mongodb+srv://".toList, "mysql://".toList, "redis://".toList,
   "amqp://".toList, "rabbitmq://".toList]

/-- Character class `[^\s"]` of rule 1. -/
def cred1Char (c : Char) : Bool := !(isWS c) && c ≠ '"'

/-- Anchored match attempt of rule 1.  Returns the text of group 1 (the
scheme with `://`) and the rest of the string after the whole match;
the credential segment is the maximal nonempty run of `[^\s"]`
characters (greedy `+`; shortening the run cannot help, because the
character after any shorter run still satisfies the class). -/
def try1 (s : Str) : Option (Str × Str) :=
  match firstPfx schemeList s with
  | none => none
  | some (g, after) =>
    if after.takeWhile cred1Char = [] then none
    else some (g, after.dropWhile cred1Char)

/-- The name alternation of rule 2 with the following `=` attached: no
alternative is a prefix of another, so ordered backtracking over
`(?:token|key|api_key|apikey|access_token|secret)=` equals trying the
combined literals in order. -/
def nameList : List Str :=
  ["token=".toList, "key=".toList, "api_key=".toList, "apikey=".toList,
   "access_token=".toList, "secret=".toList]

/-- Character class `[^"&]` of rule 2. -/
def cred2Char (c : Char) : Bool := c ≠ '"' && c ≠ '&'

/-- Greedy search for `[^"]*[?&](?:...)=[^"&]+` inside the body of a
rule-2 match: the greedy `[^"]*` makes the regex prefer the **last**
position at which the remainder matches, and it can never cross a `"`.
Returns the consumed text through the `=` (the tail of group 1), the
credential run, and the rest. -/
def scan2 : Str → Option (Str × Str × Str)
  | [] => none
  | c :: t =>
    if c = '"' then none
    else
      match scan2 t with
      | some (m, cr, r) => some (c :: m, cr, r)
      | none =>
        if c = '?' || c = '&' then
          match firstPfx nameList t with
          | some (ne, after) =>
            if after.takeWhile cred2Char = [] then none
            else some (c :: ne, after.takeWhile cred2Char, after.dropWhile cred2Char)
          | none => none
        else none

/-- Anchored match attempt of rule 2.  `https?://` is deterministic:
when the text starts with `https://` the optional `s` must be taken
(the branch skipping it would need `:` to equal `s`), and otherwise
only `http://` can match; so the compiled form tries the two literals
in that order.  Returns group 1 and the rest after the whole match. -/
def try2core (sch body : Str) : Option (Str × Str) :=
  match scan2 body with
  | some (m, _, rest) => some (sch ++ m, rest)
  | none => none

def try2 (s : Str) : Option (Str × Str) :=
  match dropPfx "https://".toList s with
  | some body => try2core "https://".toList body
  | none =>
    match dropPfx "http://".toList s with
    | some body => try2core "http://".toList body
    | none => none

/-! ## The generic `re.sub` scanner

`tryM s` returns the replacement text and the rest of the string after
a match anchored at the current position, or `none`.  The scan emits
the replacement and resumes after the match, or copies one character. -/

def Shrinks (tryM : Str → Option (Str × Str)) : Prop :=
  ∀ s r rest, tryM s = some (r, rest) → rest.length < s.length

def scanSubF (tryM : Str → Option (Str × Str)) : Nat → Str → Str
  | 0, _ => []
  | fuel + 1, s =>
    match tryM s with
    | some (r, rest) => r ++ scanSubF tryM fuel rest
    | none =>
      match s with
      | [] => []
      | c :: t => c :: scanSubF tryM fuel t

def scanSub (tryM : Str → Option (Str × Str)) (s : Str) : Str :=
  scanSubF tryM s.length s

theorem dropWhile_length_le (p : Char → Bool) :
    ∀ l : Str, (l.dropWhile p).length ≤ l.length := by
  intro l
  induction l with
  | nil => simp [List.dropWhile]
  | cons c t ih =>
    by_cases h : p c
    · simp only [List.dropWhile, h, List.length_cons]
      omega
    · simp [List.dropWhile, h]

theorem scanSubF_nil (tryM) (hs : Shrinks tryM) :
    ∀ fuel, scanSubF tryM fuel [] = [] := by
  intro fuel
  cases fuel with
  | zero => rfl
  | succ fuel =>
    simp only [scanSubF]
    cases h : tryM [] with
    | some r =>
      have := hs [] r.1 r.2 (by rw [h])
      simp at this
    | none => rfl

theorem scanSubF_congr {tryM} (hs : Shrinks tryM) :
    ∀ f1 f2 s, s.length ≤ f1 → s.length ≤ f2 →
      scanSubF tryM f1 s = scanSubF tryM f2 s := by
  intro f1
  induction f1 with
  | zero =>
    intro f2 s h1 _
    have hnil : s = [] := List.length_eq_zero.mp (by omega)
    subst hnil
    rw [scanSubF_nil tryM hs, scanSubF_nil tryM hs]
  | succ f1 ih =>
    intro f2 s h1 h2
    cases s with
    | nil => rw [scanSubF_nil tryM hs, scanSubF_nil tryM hs]
    | cons c t =>
      cases f2 with
      | zero => simp at h2
      | succ f2 =>
        simp only [scanSubF]
        cases h : tryM (c :: t) with
        | some r =>
          obtain ⟨rr, rest⟩ := r
          have hlt := hs _ rr rest h
          simp only [List.length_cons] at h1 h2 hlt
          dsimp only
          rw [ih f2 rest (by omega) (by omega)]
        | none =>
          simp only [List.length_cons] at h1 h2
          dsimp only
          rw [ih f2 t (by omega) (by omega)]

theorem scanSub_eq {tryM} (hs : Shrinks tryM) (s : Str) :
    scanSub tryM s =
      match tryM s with
      | some (r, rest) => r ++ scanSub tryM rest
      | none =>
        match s with
        | [] => []
        | c :: t => c :: scanSub tryM t := by
  unfold scanSub
  cases s with
  | nil =>
    rw [scanSubF_nil tryM hs]
    cases h : tryM [] with
    | some r =>
      have := hs [] r.1 r.2 (by rw [h])
      simp at this
    | none => rfl
  | cons c t =>
    simp only [List.length_cons, scanSubF]
    cases h : tryM (c :: t) with
    | some r =>
      obtain ⟨rr, rest⟩ := r
      have hlt := hs _ rr rest h
      simp only [List.length_cons] at hlt
      dsimp only
      rw [scanSubF_congr hs t.length rest.length rest (by omega) (by omega)]
    | none => dsimp only

/-! ### Facts about the two match attempts -/

theorem dropPfx_eq (p : Str) : ∀ s r, dropPfx p s = some r → s = p ++ r := by
  induction p with
  | nil =>
    intro s r h
    simp only [dropPfx, Option.some.injEq] at h
    simp [h]
  | cons c cs ih =>
    intro s r h
    cases s with
    | nil => simp [dropPfx] at h
    | cons x xs =>
      simp only [dropPfx] at h
      split at h
      · next heq => simpa [heq] using ih xs r h
      · exact absurd h (by simp)

theorem dropPfx_length {p s r : Str} (h : dropPfx p s = some r) :
    s.length = p.length + r.length := by
  rw [dropPfx_eq p s r h, List.length_append]

theorem dropPfx_of_append (p r : Str) : dropPfx p (p ++ r) = some r := by
  induction p with
  | nil => simp [dropPfx]
  | cons c cs ih => simp [dropPfx, ih]

theorem firstPfx_eq : ∀ {L : List Str} {s g r : Str},
    firstPfx L s = some (g, r) → g ∈ L ∧ s = g ++ r := by
  intro L
  induction L with
  | nil => intro s g r h; simp [firstPfx] at h
  | cons p ps ih =>
    intro s g r h
    simp only [firstPfx] at h
    cases hd : dropPfx p s with
    | some q =>
      rw [hd] at h
      dsimp only at h
      have h1 : p = g := congrArg Prod.fst (Option.some.inj h)
      have h2 : q = r := congrArg Prod.snd (Option.some.inj h)
      subst h1; subst h2
      exact ⟨List.mem_cons_self _ _, dropPfx_eq _ _ _ hd⟩
    | none =>
      rw [hd] at h
      obtain ⟨hm, hs⟩ := ih h
      exact ⟨List.mem_cons_of_mem _ hm, hs⟩

theorem try1_eq {s g rest : Str} (h : try1 s = some (g, rest)) :
    ∃ after, g ∈ schemeList ∧ s = g ++ after ∧
      after.takeWhile cred1Char ≠ [] ∧ rest = after.dropWhile cred1Char := by
  unfold try1 at h
  cases hf : firstPfx schemeList s with
  | none => rw [hf] at h; exact absurd h (by simp)
  | some ga =>
    obtain ⟨g', after⟩ := ga
    rw [hf] at h
    dsimp only at h
    obtain ⟨hmem, hs⟩ := firstPfx_eq hf
    split at h
    · exact absurd h (by simp)
    · next hne =>
      have h1 : g' = g := congrArg Prod.fst (Option.some.inj h)
      have h2 : after.dropWhile cred1Char = rest := congrArg Prod.snd (Option.some.inj h)
      subst h1
      exact ⟨after, hmem, hs, hne, h2.symm⟩

theorem try1_shrinks {s g rest : Str} (h : try1 s = some (g, rest)) :
    rest.length + 1 ≤ s.length := by
  obtain ⟨after, hmem, hs, hne, hrest⟩ := try1_eq h
  have hg : g ≠ [] := by
    have hne' : ∀ x ∈ schemeList, x ≠ ([] : Str) := by decide
    exact hne' g hmem
  have h1 := List.length_pos.mpr hg
  have h2 : rest.length < after.length := by
    rw [hrest]
    rcases after with _ | ⟨a, as⟩
    · simp [List.takeWhile] at hne
    · by_cases hc : cred1Char a
      · have he : (a :: as).dropWhile cred1Char = as.dropWhile cred1Char := by
          simp [List.dropWhile, hc]
        rw [he]
        have := dropWhile_length_le cred1Char as
        simp only [List.length_cons]
        omega
      · simp [List.takeWhile, hc] at hne
  rw [hs]
  simp only [List.length_append]
  omega

theorem scan2_eq : ∀ {s m cr r : Str}, scan2 s = some (m, cr, r) →
    s = m ++ cr ++ r ∧ m ≠ [] ∧ cr ≠ [] := by
  intro s
  induction s with
  | nil => intro m cr r h; simp [scan2] at h
  | cons c t ih =>
    intro m cr r h
    simp only [scan2] at h
    split at h
    · exact absurd h (by simp)
    · cases hs : scan2 t with
      | some mcr =>
        obtain ⟨m', cr', r'⟩ := mcr
        rw [hs] at h
        dsimp only at h
        have h1 : c :: m' = m := congrArg Prod.fst (Option.some.inj h)
        have h2 : cr' = cr := congrArg (Prod.fst ∘ Prod.snd) (Option.some.inj h)
        have h3 : r' = r := congrArg (Prod.snd ∘ Prod.snd) (Option.some.inj h)
        obtain ⟨ht, _, hcr⟩ := ih hs
        subst h1; subst h2; subst h3
        exact ⟨by simp [ht], by simp, hcr⟩
      | none =>
        rw [hs] at h
        dsimp only at h
        split at h
        · cases hf : firstPfx nameList t with
          | some na =>
            obtain ⟨ne, after⟩ := na
            rw [hf] at h
            dsimp only at h
            split at h
            · exact absurd h (by simp)
            · next hne =>
              have h1 : c :: ne = m := congrArg Prod.fst (Option.some.inj h)
              have h2 : after.takeWhile cred2Char = cr :=
                congrArg (Prod.fst ∘ Prod.snd) (Option.some.inj h)
              have h3 : after.dropWhile cred2Char = r :=
                congrArg (Prod.snd ∘ Prod.snd) (Option.some.inj h)
              obtain ⟨_, hta⟩ := firstPfx_eq hf
              subst h1
              refine ⟨?_, by simp, h2 ▸ hne⟩
              have hca : cr ++ r = after := by
                rw [← h2, ← h3, List.takeWhile_append_dropWhile]
              simp only [List.cons_append, List.append_assoc]
              rw [hca, hta]
          | none => rw [hf] at h; exact absurd h (by simp)
        · exact absurd h (by simp)

theorem try2core_eq {sch body g rest : Str} (h : try2core sch body = some (g, rest)) :
    ∃ m cr, body = m ++ cr ++ rest ∧ g = sch ++ m ∧ m ≠ [] ∧ cr ≠ [] ∧
      scan2 body = some (m, cr, rest) := by
  unfold try2core at h
  cases h6 : scan2 body with
  | none => rw [h6] at h; exact absurd h (by simp)
  | some mcr =>
    obtain ⟨m, cr, r⟩ := mcr
    rw [h6] at h
    dsimp only at h
    have h7 : sch ++ m = g := congrArg Prod.fst (Option.some.inj h)
    have h8 : r = rest := congrArg Prod.snd (Option.some.inj h)
    obtain ⟨hb, hm, hcr⟩ := scan2_eq h6
    exact ⟨m, cr, hb.trans (by rw [h8]), h7.symm, hm, hcr, by rw [h8]⟩

theorem try2_eq {s g rest : Str} (h : try2 s = some (g, rest)) :
    ∃ sch m cr, (sch = "https://".toList ∨ sch = "http://".toList) ∧
      s = sch ++ (m ++ cr ++ rest) ∧ g = sch ++ m ∧ m ≠ [] ∧ cr ≠ [] ∧
      scan2 (m ++ cr ++ rest) = some (m, cr, rest) := by
  unfold try2 at h
  cases h4 : dropPfx "https://".toList s with
  | some body =>
    rw [h4] at h
    dsimp only at h
    obtain ⟨m, cr, hb, hg, hm, hcr, hs2⟩ := try2core_eq h
    exact ⟨_, m, cr, Or.inl rfl, by rw [dropPfx_eq _ _ _ h4, hb], hg, hm, hcr, hb ▸ hs2⟩
  | none =>
    rw [h4] at h
    dsimp only at h
    cases h5 : dropPfx "http://".toList s with
    | some body =>
      rw [h5] at h
      dsimp only at h
      obtain ⟨m, cr, hb, hg, hm, hcr, hs2⟩ := try2core_eq h
      exact ⟨_, m, cr, Or.inr rfl, by rw [dropPfx_eq _ _ _ h5, hb], hg, hm, hcr, hb ▸ hs2⟩
    | none => rw [h5] at h; exact absurd h (by simp)

theorem try2_shrinks {s g rest : Str} (h : try2 s = some (g, rest)) :
    rest.length + 1 ≤ s.length := by
  obtain ⟨sch, m, cr, hsch, hs, _, hm, hcr, _⟩ := try2_eq h
  have h1 := List.length_pos.mpr hm
  have h2 := List.length_pos.mpr hcr
  have h3 : 0 < sch.length := by rcases hsch with h | h <;> subst h <;> decide
  rw [hs]
  simp only [List.length_append]
  omega

/-- Rule 1 as a scanner step: replacement is group 1 then
`PLACEHOLDER`. -/
def try1R (s : Str) : Option (Str × Str) :=
  (try1 s).map (fun p => (p.1 ++ PLACEHOLDER, p.2))

/-- Rule 2 as a scanner step. -/
def try2R (s : Str) : Option (Str × Str) :=
  (try2 s).map (fun p => (p.1 ++ PLACEHOLDER, p.2))

theorem try1R_shrinks : Shrinks try1R := by
  intro s r rest h
  unfold try1R at h
  cases h1 : try1 s with
  | none => rw [h1] at h; simp at h
  | some p =>
    rw [h1] at h
    simp only [Option.map_some'] at h
    have h2 : p.2 = rest := congrArg Prod.snd (Option.some.inj h)
    have h3 := @try1_shrinks s p.1 p.2 (by rw [h1])
    have h4 : p.2.length = rest.length := by rw [h2]
    omega

theorem try2R_shrinks : Shrinks try2R := by
  intro s r rest h
  unfold try2R at h
  cases h1 : try2 s with
  | none => rw [h1] at h; simp at h
  | some p =>
    rw [h1] at h
    simp only [Option.map_some'] at h
    have h2 : p.2 = rest := congrArg Prod.snd (Option.some.inj h)
    have h3 := @try2_shrinks s p.1 p.2 (by rw [h1])
    have h4 : p.2.length = rest.length := by rw [h2]
    omega

/-- `re.sub` with rule 1 of `VALUE_SCAN_PATTERNS`. -/
def sub1 : Str → Str := scanSub try1R

/-- `re.sub` with rule 2 of `VALUE_SCAN_PATTERNS`. -/
def sub2 : Str → Str := scanSub try2R

theorem sub1_eq (s : Str) : sub1 s =
    match try1 s with
    | some (g, rest) => g ++ PLACEHOLDER ++ sub1 rest
    | none =>
      match s with
      | [] => []
      | c :: t => c :: sub1 t := by
  show scanSub try1R s = _
  rw [scanSub_eq try1R_shrinks]
  unfold try1R
  cases h : try1 s with
  | none => rfl
  | some p =>
    obtain ⟨g, rest⟩ := p
    simp only [Option.map_some']
    rfl

theorem sub2_eq (s : Str) : sub2 s =
    match try2 s with
    | some (g, rest) => g ++ PLACEHOLDER ++ sub2 rest
    | none =>
      match s with
      | [] => []
      | c :: t => c :: sub2 t := by
  show scanSub try2R s = _
  rw [scanSub_eq try2R_shrinks]
  unfold try2R
  cases h : try2 s with
  | none => rfl
  | some p =>
    obtain ⟨g, rest⟩ := p
    simp only [Option.map_some']
    rfl

/-- The per-string body of `scan_values` (sanitize.py lines 179-188):
the two rules applied in order, each counting 1 when it changed the
string. -/
def scanString (s : Str) : Str × Nat :=
  let a := sub1 s
  let c1 : Nat := if a = s then 0 else 1
  let b := sub2 a
  let c2 : Nat := if b = a then 0 else 1
  (b, c1 + c2)

theorem one_le_sizeOf_list {A : Type} [SizeOf A] (l : List A) : 1 ≤ sizeOf l := by
  cases l with
  | nil => simp
  | cons a t =>
    simp only [List.cons.sizeOf_spec]
    omega

theorem one_le_sizeOf_jvalue (v : JValue) : 1 ≤ sizeOf v := by
  cases v <;> simp_arith

theorem sizeOf_fields_cons (k : Str) (v : JValue) (rest : List (Str × JValue)) :
    sizeOf ((k, v) :: rest) = 1 + (1 + sizeOf k + sizeOf v) + sizeOf rest := by
  simp [Prod.mk.sizeOf_spec]

theorem sizeOf_obj (fs : List (Str × JValue)) : sizeOf (JValue.obj fs) = 1 + sizeOf fs := by
  simp

theorem sizeOf_arr (xs : List JValue) : sizeOf (JValue.arr xs) = 1 + sizeOf xs := by
  simp

/-! ## The key-driven pass (`sanitize_dict` / `sanitize_list`)

The mutual recursion of sanitize.py lines 109-154, fuelled.  Each
recursive call decreases the fuel by one; any fuel of at least the
`sizeOf` of the argument gives the same result. -/

mutual

def sanitize_dictF : Nat → List (Str × JValue) → Str → List (Str × JValue) × Nat
  | 0, _, _ => ([], 0)
  | _ + 1, [], _ => ([], 0)
  | fuel + 1, (k, v) :: rest, path =>
    let current := extKey path k
    let pv : JValue × Nat :=
      match v with
      | .obj fs => let r := sanitize_dictF fuel fs current; (.obj r.1, r.2)
      | .arr xs => let r := sanitize_listF fuel xs current 0; (.arr r.1, r.2)
      | x =>
        if is_sensitive_key k then
          let r := sanitize_value x current
          (r.1, if r.2 then 1 else 0)
        else (x, 0)
    let tail := sanitize_dictF fuel rest path
    ((k, pv.1) :: tail.1, pv.2 + tail.2)

def sanitize_listF : Nat → List JValue → Str → Nat → List JValue × Nat
  | 0, _, _, _ => ([], 0)
  | _ + 1, [], _, _ => ([], 0)
  | fuel + 1, item :: rest, path, idx =>
    let current := extIdx path idx
    let pv : JValue × Nat :=
      match item with
      | .obj fs => let r := sanitize_dictF fuel fs current; (.obj r.1, r.2)
      | .arr xs => let r := sanitize_listF fuel xs current 0; (.arr r.1, r.2)
      | x => (x, 0)
    let tail := sanitize_listF fuel rest path (idx + 1)
    (pv.1 :: tail.1, pv.2 + tail.2)

end

theorem sanitize_congr : ∀ f1 : Nat,
    (∀ f2 data path, sizeOf data ≤ f1 → sizeOf data ≤ f2 →
      sanitize_dictF f1 data path = sanitize_dictF f2 data path) ∧
    (∀ f2 items path idx, sizeOf items ≤ f1 → sizeOf items ≤ f2 →
      sanitize_listF f1 items path idx = sanitize_listF f2 items path idx) := by
  intro f1
  induction f1 with
  | zero =>
    constructor
    · intro f2 data _ h1 _
      exact absurd h1 (by have := one_le_sizeOf_list data; omega)
    · intro f2 items _ _ h1 _
      exact absurd h1 (by have := one_le_sizeOf_list items; omega)
  | succ f1 ih =>
    constructor
    · intro f2 data path h1 h2
      cases data with
      | nil =>
        cases f2 with
        | zero => exact absurd h2 (by have := one_le_sizeOf_list ([] : List (Str × JValue)); omega)
        | succ f2 => rfl
      | cons kv rest =>
        obtain ⟨k, v⟩ := kv
        cases f2 with
        | zero =>
          exact absurd h2 (by have := one_le_sizeOf_list ((k, v) :: rest); omega)
        | succ f2 =>
          rw [sizeOf_fields_cons] at h1 h2
          have hrest := one_le_sizeOf_list rest
          cases v with
          | obj fs =>
            have hfs := sizeOf_obj fs
            simp only [sanitize_dictF]
            rw [ih.1 f2 fs (extKey path k) (by omega) (by omega),
                ih.1 f2 rest path (by omega) (by omega)]
          | arr xs =>
            have hxs := sizeOf_arr xs
            simp only [sanitize_dictF]
            rw [ih.2 f2 xs (extKey path k) 0 (by omega) (by omega),
                ih.1 f2 rest path (by omega) (by omega)]
          | str s =>
            simp only [sanitize_dictF]
            rw [ih.1 f2 rest path (by omega) (by omega)]
          | num n =>
            simp only [sanitize_dictF]
            rw [ih.1 f2 rest path (by omega) (by omega)]
          | bool b =>
            simp only [sanitize_dictF]
            rw [ih.1 f2 rest path (by omega) (by omega)]
          | null =>
            simp only [sanitize_dictF]
            rw [ih.1 f2 rest path (by omega) (by omega)]
    · intro f2 items path idx h1 h2
      cases items with
      | nil =>
        cases f2 with
        | zero => exact absurd h2 (by have := one_le_sizeOf_list ([] : List JValue); omega)
        | succ f2 => rfl
      | cons v rest =>
        cases f2 with
        | zero =>
          exact absurd h2 (by have := one_le_sizeOf_list (v :: rest); omega)
        | succ f2 =>
          simp only [List.cons.sizeOf_spec] at h1 h2
          have hrest := one_le_sizeOf_list rest
          cases v with
          | obj fs =>
            have hfs := sizeOf_obj fs
            simp only [sanitize_listF]
            rw [ih.1 f2 fs (extIdx path idx) (by omega) (by omega),
                ih.2 f2 rest path (idx + 1) (by omega) (by omega)]
          | arr xs =>
            have hxs := sizeOf_arr xs
            simp only [sanitize_listF]
            rw [ih.2 f2 xs (extIdx path idx) 0 (by omega) (by omega),
                ih.2 f2 rest path (idx + 1) (by omega) (by omega)]
          | str s =>
            simp only [sanitize_listF]
            rw [ih.2 f2 rest path (idx + 1) (by omega) (by omega)]
          | num n =>
            simp only [sanitize_listF]
            rw [ih.2 f2 rest path (idx + 1) (by omega) (by omega)]
          | bool b =>
            simp only [sanitize_listF]
            rw [ih.2 f2 rest path (idx + 1) (by omega) (by omega)]
          | null =>
            simp only [sanitize_listF]
            rw [ih.2 f2 rest path (idx + 1) (by omega) (by omega)]

/-- `sanitize_dict` (sanitize.py lines 109-133). -/
def sanitize_dict (data : List (Str × JValue)) (path : Str) : List (Str × JValue) × Nat :=
  sanitize_dictF (sizeOf data) data path

/-- `sanitize_list` (sanitize.py lines 136-154); `idx` carries the
position of the first element of `data` in the enclosing `enumerate`,
always 0 at the call sites. -/
def sanitize_list (data : List JValue) (path : Str) (idx : Nat) : List JValue × Nat :=
  sanitize_listF (sizeOf data) data path idx

theorem sanitize_dictF_suff {fuel : Nat} {data : List (Str × JValue)} {path : Str}
    (h : sizeOf data ≤ fuel) : sanitize_dictF fuel data path = sanitize_dict data path :=
  (sanitize_congr fuel).1 (sizeOf data) data path h (le_refl _)

theorem sanitize_listF_suff {fuel : Nat} {items : List JValue} {path : Str} {idx : Nat}
    (h : sizeOf items ≤ fuel) : sanitize_listF fuel items path idx = sanitize_list items path idx :=
  (sanitize_congr fuel).2 (sizeOf items) items path idx h (le_refl _)

theorem sanitize_dict_nil (path : Str) : sanitize_dict [] path = ([], 0) := rfl

theorem sanitize_list_nil (path : Str) (idx : Nat) : sanitize_list [] path idx = ([], 0) := rfl

theorem sanitize_dict_cons (k : Str) (v : JValue) (rest : List (Str × JValue)) (path : Str) :
    sanitize_dict ((k, v) :: rest) path =
      ((k, (match v with
            | .obj fs => ((.obj (sanitize_dict fs (extKey path k)).1 : JValue),
                (sanitize_dict fs (extKey path k)).2)
            | .arr xs => ((.arr (sanitize_list xs (extKey path k) 0).1 : JValue),
                (sanitize_list xs (extKey path k) 0).2)
            | x =>
              if is_sensitive_key k then
                ((sanitize_value x (extKey path k)).1,
                  if (sanitize_value x (extKey path k)).2 then 1 else 0)
              else (x, 0)).1) :: (sanitize_dict rest path).1,
        (match v with
          | .obj fs => ((.obj (sanitize_dict fs (extKey path k)).1 : JValue),
              (sanitize_dict fs (extKey path k)).2)
          | .arr xs => ((.arr (sanitize_list xs (extKey path k) 0).1 : JValue),
              (sanitize_list xs (extKey path k) 0).2)
          | x =>
            if is_sensitive_key k then
              ((sanitize_value x (extKey path k)).1,
                if (sanitize_value x (extKey path k)).2 then 1 else 0)
            else (x, 0)).2 + (sanitize_dict rest path).2) := by
  show sanitize_dictF (sizeOf ((k, v) :: rest)) ((k, v) :: rest) path = _
  rw [sizeOf_fields_cons]
  have hrest := one_le_sizeOf_list rest
  have hv := one_le_sizeOf_jvalue v
  have hstep : 1 + (1 + sizeOf k + sizeOf v) + sizeOf rest =
      (sizeOf k + sizeOf v + sizeOf rest + 1) + 1 := by omega
  rw [hstep]
  cases v with
  | obj fs =>
    have hfs := sizeOf_obj fs
    simp only [sanitize_dictF]
    rw [sanitize_dictF_suff (by omega), sanitize_dictF_suff (by omega)]
  | arr xs =>
    have hxs := sizeOf_arr xs
    simp only [sanitize_dictF]
    rw [sanitize_listF_suff (by omega), sanitize_dictF_suff (by omega)]
  | str s =>
    simp only [sanitize_dictF]
    rw [sanitize_dictF_suff (by omega)]
  | num n =>
    simp only [sanitize_dictF]
    rw [sanitize_dictF_suff (by omega)]
  | bool b =>
    simp only [sanitize_dictF]
    rw [sanitize_dictF_suff (by omega)]
  | null =>
    simp only [sanitize_dictF]
    rw [sanitize_dictF_suff (by omega)]

theorem sanitize_list_cons (v : JValue) (rest : List JValue) (path : Str) (idx : Nat) :
    sanitize_list (v :: rest) path idx =
      ((match v with
        | .obj fs => ((.obj (sanitize_dict fs (extIdx path idx)).1 : JValue),
            (sanitize_dict fs (extIdx path idx)).2)
        | .arr xs => ((.arr (sanitize_list xs (extIdx path idx) 0).1 : JValue),
            (sanitize_list xs (extIdx path idx) 0).2)
        | x => (x, 0)).1 :: (sanitize_list rest path (idx + 1)).1,
      (match v with
        | .obj fs => ((.obj (sanitize_dict fs (extIdx path idx)).1 : JValue),
            (sanitize_dict fs (extIdx path idx)).2)
        | .arr xs => ((.arr (sanitize_list xs (extIdx path idx) 0).1 : JValue),
            (sanitize_list xs (extIdx path idx) 0).2)
        | x => (x, 0)).2 + (sanitize_list rest path (idx + 1)).2) := by
  show sanitize_listF (sizeOf (v :: rest)) (v :: rest) path idx = _
  have hrest := one_le_sizeOf_list rest
  have hv := one_le_sizeOf_jvalue v
  have hstep : sizeOf (v :: rest) = (sizeOf v + sizeOf rest) + 1 := by
    simp only [List.cons.sizeOf_spec]
    omega
  rw [hstep]
  cases v with
  | obj fs =>
    have hfs := sizeOf_obj fs
    simp only [sanitize_listF]
    rw [sanitize_dictF_suff (by omega), sanitize_listF_suff (by omega)]
  | arr xs =>
    have hxs := sizeOf_arr xs
    simp only [sanitize_listF]
    rw [sanitize_listF_suff (by omega), sanitize_listF_suff (by omega)]
  | str s =>
    simp only [sanitize_listF]
    rw [sanitize_listF_suff (by omega)]
  | num n =>
    simp only [sanitize_listF]
    rw [sanitize_listF_suff (by omega)]
  | bool b =>
    simp only [sanitize_listF]
    rw [sanitize_listF_suff (by omega)]
  | null =>
    simp only [sanitize_listF]
    rw [sanitize_listF_suff (by omega)]

/-! ## The value-scan pass (`scan_values`), fuelled the same way -/

mutual

def scan_valuesF : Nat → JValue → Str → JValue × Nat
  | 0, v, _ => (v, 0)
  | fuel + 1, .obj fields, path =>
    let r := scan_values_fieldsF fuel fields path
    (.obj r.1, r.2)
  | fuel + 1, .arr items, path =>
    let r := scan_values_itemsF fuel items path 0
    (.arr r.1, r.2)
  | _ + 1, .str s, _ =>
    if is_already_placeholder (.str s) then (.str s, 0)
    else
      let r := scanString s
      (.str r.1, r.2)
  | _ + 1, v, _ => (v, 0)

def scan_values_fieldsF : Nat → List (Str × JValue) → Str → List (Str × JValue) × Nat
  | 0, _, _ => ([], 0)
  | _ + 1, [], _ => ([], 0)
  | fuel + 1, (k, v) :: rest, path =>
    let r := scan_valuesF fuel v (extKey path k)
    let tail := scan_values_fieldsF fuel rest path
    ((k, r.1) :: tail.1, r.2 + tail.2)

def scan_values_itemsF : Nat → List JValue → Str → Nat → List JValue × Nat
  | 0, _, _, _ => ([], 0)
  | _ + 1, [], _, _ => ([], 0)
  | fuel + 1, item :: rest, path, idx =>
    let r := scan_valuesF fuel item (extIdx path idx)
    let tail := scan_values_itemsF fuel rest path (idx + 1)
    (r.1 :: tail.1, r.2 + tail.2)

end

theorem scan_congr : ∀ f1 : Nat,
    (∀ f2 v path, sizeOf v ≤ f1 → sizeOf v ≤ f2 →
      scan_valuesF f1 v path = scan_valuesF f2 v path) ∧
    (∀ f2 fields path, sizeOf fields ≤ f1 → sizeOf fields ≤ f2 →
      scan_values_fieldsF f1 fields path = scan_values_fieldsF f2 fields path) ∧
    (∀ f2 items path idx, sizeOf items ≤ f1 → sizeOf items ≤ f2 →
      scan_values_itemsF f1 items path idx = scan_values_itemsF f2 items path idx) := by
  intro f1
  induction f1 with
  | zero =>
    refine ⟨?_, ?_, ?_⟩
    · intro f2 v _ h1 _
      exact absurd h1 (by have := one_le_sizeOf_jvalue v; omega)
    · intro f2 fields _ h1 _
      exact absurd h1 (by have := one_le_sizeOf_list fields; omega)
    · intro f2 items _ _ h1 _
      exact absurd h1 (by have := one_le_sizeOf_list items; omega)
  | succ f1 ih =>
    refine ⟨?_, ?_, ?_⟩
    · intro f2 v path h1 h2
      cases f2 with
      | zero => exact absurd h2 (by have := one_le_sizeOf_jvalue v; omega)
      | succ f2 =>
        cases v with
        | obj fs =>
          have hfs := sizeOf_obj fs
          simp only [scan_valuesF]
          rw [ih.2.1 f2 fs path (by omega) (by omega)]
        | arr xs =>
          have hxs := sizeOf_arr xs
          simp only [scan_valuesF]
          rw [ih.2.2 f2 xs path 0 (by omega) (by omega)]
        | str s => rfl
        | num n => rfl
        | bool b => rfl
        | null => rfl
    · intro f2 fields path h1 h2
      cases fields with
      | nil =>
        cases f2 with
        | zero => exact absurd h2 (by have := one_le_sizeOf_list ([] : List (Str × JValue)); omega)
        | succ f2 => rfl
      | cons kv rest =>
        obtain ⟨k, v⟩ := kv
        cases f2 with
        | zero => exact absurd h2 (by have := one_le_sizeOf_list ((k, v) :: rest); omega)
        | succ f2 =>
          rw [sizeOf_fields_cons] at h1 h2
          have hrest := one_le_sizeOf_list rest
          have hv := one_le_sizeOf_jvalue v
          simp only [scan_values_fieldsF]
          rw [ih.1 f2 v (extKey path k) (by omega) (by omega),
              ih.2.1 f2 rest path (by omega) (by omega)]
    · intro f2 items path idx h1 h2
      cases items with
      | nil =>
        cases f2 with
        | zero => exact absurd h2 (by have := one_le_sizeOf_list ([] : List JValue); omega)
        | succ f2 => rfl
      | cons v rest =>
        cases f2 with
        | zero => exact absurd h2 (by have := one_le_sizeOf_list (v :: rest); omega)
        | succ f2 =>
          simp only [List.cons.sizeOf_spec] at h1 h2
          have hrest := one_le_sizeOf_list rest
          have hv := one_le_sizeOf_jvalue v
          simp only [scan_values_itemsF]
          rw [ih.1 f2 v (extIdx path idx) (by omega) (by omega),
              ih.2.2 f2 rest path (idx + 1) (by omega) (by omega)]

/-- `scan_values` (sanitize.py lines 157-190). -/
def scan_values (v : JValue) (path : Str) : JValue × Nat :=
  scan_valuesF (sizeOf v) v path

def scan_values_fields (fields : List (Str × JValue)) (path : Str) :
    List (Str × JValue) × Nat :=
  scan_values_fieldsF (sizeOf fields) fields path

def scan_values_items (items : List JValue) (path : Str) (idx : Nat) :
    List JValue × Nat :=
  scan_values_itemsF (sizeOf items) items path idx

theorem scan_valuesF_suff {fuel : Nat} {v : JValue} {path : Str}
    (h : sizeOf v ≤ fuel) : scan_valuesF fuel v path = scan_values v path :=
  (scan_congr fuel).1 (sizeOf v) v path h (le_refl _)

theorem scan_values_fieldsF_suff {fuel : Nat} {fields : List (Str × JValue)} {path : Str}
    (h : sizeOf fields ≤ fuel) :
    scan_values_fieldsF fuel fields path = scan_values_fields fields path :=
  (scan_congr fuel).2.1 (sizeOf fields) fields path h (le_refl _)

theorem scan_values_itemsF_suff {fuel : Nat} {items : List JValue} {path : Str} {idx : Nat}
    (h : sizeOf items ≤ fuel) :
    scan_values_itemsF fuel items path idx = scan_values_items items path idx :=
  (scan_congr fuel).2.2 (sizeOf items) items path idx h (le_refl _)

theorem scan_values_obj (fields : List (Str × JValue)) (path : Str) :
    scan_values (.obj fields) path =
      ((.obj (scan_values_fields fields path).1 : JValue),
        (scan_values_fields fields path).2) := by
  show scan_valuesF (sizeOf (JValue.obj fields)) (.obj fields) path = _
  rw [sizeOf_obj, Nat.add_comm]
  simp only [scan_valuesF]
  rw [scan_values_fieldsF_suff (by omega)]

theorem scan_values_arr (items : List JValue) (path : Str) :
    scan_values (.arr items) path =
      ((.arr (scan_values_items items path 0).1 : JValue),
        (scan_values_items items path 0).2) := by
  show scan_valuesF (sizeOf (JValue.arr items)) (.arr items) path = _
  rw [sizeOf_arr, Nat.add_comm]
  simp only [scan_valuesF]
  rw [scan_values_itemsF_suff (by omega)]

theorem scan_values_str (s : Str) (path : Str) :
    scan_values (.str s) path =
      if is_already_placeholder (.str s) then ((.str s : JValue), 0)
      else ((.str (scanString s).1 : JValue), (scanString s).2) := by
  show scan_valuesF (sizeOf (JValue.str s)) (.str s) path = _
  have h : sizeOf (JValue.str s) = sizeOf s + 1 := by simp; omega
  rw [h]
  simp only [scan_valuesF]

theorem scan_values_num (n : Int) (path : Str) :
    scan_values (.num n) path = ((.num n : JValue), 0) := by
  show scan_valuesF (sizeOf (JValue.num n)) (.num n) path = _
  have h : sizeOf (JValue.num n) = sizeOf n + 1 := by simp; omega
  rw [h]
  simp only [scan_valuesF]

theorem scan_values_bool (b : Bool) (path : Str) :
    scan_values (.bool b) path = ((.bool b : JValue), 0) := by
  show scan_valuesF (sizeOf (JValue.bool b)) (.bool b) path = _
  have h : sizeOf (JValue.bool b) = sizeOf b + 1 := by simp
  rw [h]
  simp only [scan_valuesF]

theorem scan_values_null (path : Str) :
    scan_values .null path = ((.null : JValue), 0) := by
  show scan_valuesF (sizeOf JValue.null) .null path = _
  have h : sizeOf JValue.null = 0 + 1 := by simp
  rw [h]
  simp only [scan_valuesF]

theorem scan_values_fields_nil (path : Str) : scan_values_fields [] path = ([], 0) := rfl

theorem scan_values_items_nil (path : Str) (idx : Nat) :
    scan_values_items [] path idx = ([], 0) := rfl

theorem scan_values_fields_cons (k : Str) (v : JValue) (rest : List (Str × JValue))
    (path : Str) :
    scan_values_fields ((k, v) :: rest) path =
      ((k, (scan_values v (extKey path k)).1) :: (scan_values_fields rest path).1,
        (scan_values v (extKey path k)).2 + (scan_values_fields rest path).2) := by
  show scan_values_fieldsF (sizeOf ((k, v) :: rest)) ((k, v) :: rest) path = _
  rw [sizeOf_fields_cons]
  have hrest := one_le_sizeOf_list rest
  have hv := one_le_sizeOf_jvalue v
  have hstep : 1 + (1 + sizeOf k + sizeOf v) + sizeOf rest =
      (sizeOf k + sizeOf v + sizeOf rest + 1) + 1 := by omega
  rw [hstep]
  simp only [scan_values_fieldsF]
  rw [scan_valuesF_suff (by omega), scan_values_fieldsF_suff (by omega)]

theorem scan_values_items_cons (v : JValue) (rest : List JValue) (path : Str) (idx : Nat) :
    scan_values_items (v :: rest) path idx =
      ((scan_values v (extIdx path idx)).1 :: (scan_values_items rest path (idx + 1)).1,
        (scan_values v (extIdx path idx)).2 + (scan_values_items rest path (idx + 1)).2) := by
  show scan_values_itemsF (sizeOf (v :: rest)) (v :: rest) path idx = _
  have hrest := one_le_sizeOf_list rest
  have hv := one_le_sizeOf_jvalue v
  have hstep : sizeOf (v :: rest) = (sizeOf v + sizeOf rest) + 1 := by
    simp only [List.cons.sizeOf_spec]
    omega
  rw [hstep]
  simp only [scan_values_itemsF]
  rw [scan_valuesF_suff (by omega), scan_values_itemsF_suff (by omega)]

/-- The full engine as composed by `sanitize_json_file` (sanitize.py
lines 224-229): the key-driven pass at the root path, then the value
scan on its output; returns the final tree and the two counts. -/
def runEngine (data : List (Str × JValue)) : List (Str × JValue) × Nat × Nat :=
  let r1 := sanitize_dict data []
  let r2 := scan_values_fields r1.1 []
  (r2.1, r1.2, r2.2)

/-! ## `sanitize_paths` (sanitize.py lines 193-200)

Two substitutions over the raw text: the literal home directory (from
`os.path.expanduser("~")`, supplied here as a parameter) replaced by
`~` everywhere (Python `str.replace`), then the regex
`/(?:Users|home)/[a-zA-Z0-9._-]+/` replaced by `~/`.  `changes` is 1
when the final text differs from the input, else 0. -/

/-- Character class `[a-zA-Z0-9._-]`. -/
def userChar (c : Char) : Bool :=
  ('a' ≤ c && c ≤ 'z') || ('A' ≤ c && c ≤ 'Z') || ('0' ≤ c && c ≤ '9') ||
  c = '.' || c = '_' || c = '-'

/-- Anchored match of `/(?:Users|home)/[a-zA-Z0-9._-]+/`: the two
alternatives differ at their first character, so the ordered alternation
is deterministic; the greedy `[...]+` is the maximal run (the class
excludes `/`, so no shorter run can be followed by `/`); then the
closing `/` is required.  The whole match is replaced by `~/`. -/
def tryHome (s : Str) : Option (Str × Str) :=
  match firstPfx ["/Users/".toList, "/home/".toList] s with
  | none => none
  | some (_, after) =>
    if after.takeWhile userChar = [] then none
    else
      match after.dropWhile userChar with
      | c :: rest => if c = '/' then some ("~/".toList, rest) else none
      | [] => none

theorem tryHome_shrinks : Shrinks tryHome := by
  intro s r rest h
  unfold tryHome at h
  cases hf : firstPfx ["/Users/".toList, "/home/".toList] s with
  | none => rw [hf] at h; simp at h
  | some pa =>
    obtain ⟨pre, after⟩ := pa
    rw [hf] at h
    dsimp only at h
    split at h
    · simp at h
    · obtain ⟨hmem, hs⟩ := firstPfx_eq hf
      have hpre : 1 ≤ pre.length := by
        have hall : ∀ x ∈ ["/Users/".toList, "/home/".toList], 1 ≤ x.length := by decide
        exact hall pre hmem
      cases hd : after.dropWhile userChar with
      | nil => rw [hd] at h; simp at h
      | cons c rest' =>
        rw [hd] at h
        dsimp only at h
        split at h
        · have h2 : rest' = rest := congrArg Prod.snd (Option.some.inj h)
          have h3 : after.length ≥ rest'.length + 1 := by
            have := dropWhile_length_le userChar after
            rw [hd] at this
            simp only [List.length_cons] at this
            omega
          have h4 : s.length = pre.length + after.length := by
            rw [hs, List.length_append]
          have h5 : rest'.length = rest.length := by rw [h2]
          omega
        · simp at h

/-- `re.sub` with the home-directory pattern. -/
def subHome : Str → Str := scanSub tryHome

theorem subHome_eq (s : Str) : subHome s =
    match tryHome s with
    | some (r, rest) => r ++ subHome rest
    | none =>
      match s with
      | [] => []
      | c :: t => c :: subHome t := by
  show scanSub tryHome s = _
  rw [scanSub_eq tryHome_shrinks]
  rfl

/-- Python `str.replace(needle, rep)` on an empty needle inserts `rep`
at every position. -/
def interAll (rep : Str) : Str → Str
  | [] => rep
  | c :: t => rep ++ c :: interAll rep t

/-- Python `str.replace(needle, rep)`: all non-overlapping occurrences,
scanning left to right. -/
def replaceAll (needle rep : Str) (s : Str) : Str :=
  if needle = [] then interAll rep s
  else scanSub (fun u => (dropPfx needle u).map (fun r => (rep, r))) s

theorem replaceAll_shrinks {needle rep : Str} (hne : needle ≠ []) :
    Shrinks (fun u => (dropPfx needle u).map (fun r => (rep, r))) := by
  intro s r rest h
  simp only at h
  cases hd : dropPfx needle s with
  | none => rw [hd] at h; simp at h
  | some q =>
    rw [hd] at h
    simp only [Option.map_some'] at h
    have h2 : q = rest := congrArg Prod.snd (Option.some.inj h)
    have h3 := dropPfx_length hd
    have h4 : 1 ≤ needle.length := List.length_pos.mpr hne
    have h5 : q.length = rest.length := by rw [h2]
    omega

theorem replaceAll_eq {needle : Str} (hne : needle ≠ []) (rep s : Str) :
    replaceAll needle rep s =
      match dropPfx needle s with
      | some r => rep ++ replaceAll needle rep r
      | none =>
        match s with
        | [] => []
        | c :: t => c :: replaceAll needle rep t := by
  conv_lhs => unfold replaceAll
  rw [if_neg hne, scanSub_eq (replaceAll_shrinks hne)]
  cases hd : dropPfx needle s with
  | none =>
    simp only [Option.map_none']
    cases s with
    | nil => rfl
    | cons c t =>
      show c :: scanSub _ t = c :: replaceAll needle rep t
      unfold replaceAll
      rw [if_neg hne]
  | some q =>
    simp only [Option.map_some']
    show rep ++ scanSub _ q = rep ++ replaceAll needle rep q
    unfold replaceAll
    rw [if_neg hne]

/-- `sanitize_paths` (sanitize.py lines 193-200), with the home
directory (the value of `os.path.expanduser("~")`) as a parameter. -/
def sanitize_paths (home content : Str) : Str × Nat :=
  let c1 := replaceAll home ("~".toList) content
  let c2 := subHome c1
  (c2, if c2 = content then 0 else 1)

/-! ## File processing (`sanitize_json_file` / `sanitize_text_file`)

sanitize.py lines 203-293, with the file system abstracted: a file is
its presence, readability, parse result (`none` models a
`json.JSONDecodeError` from `json.load`) and writability.  The model
keeps the source's exception structure: `open` for reading or writing
and `json.load` raise `OSError`/`UnicodeDecodeError` exceptions; in
`sanitize_json_file` the `try` block catches **only**
`json.JSONDecodeError`, and the write is outside any `try`; in
`sanitize_text_file` the read is guarded by a catch-all `except
Exception` but the write is again unguarded.  `PyOutcome.exc` marks an
exception that escapes the function (and, since `main` has no handler,
aborts the whole run). -/

inductive PyOutcome where
  | ret (modified : Bool)
  | exc
deriving DecidableEq

structure JsonFile where
  present : Bool
  readable : Bool
  parsed : Option (List (Str × JValue))
  writable : Bool

/-- `sanitize_json_file` (sanitize.py lines 203-250). -/
def sanitize_json_file (f : JsonFile) (dry_run : Bool) : PyOutcome :=
  if !f.present then .ret false
  else if !f.readable then .exc
  else
    match f.parsed with
    | none => .ret false
    | some data =>
      let r1 := sanitize_dict data []
      let r2 := scan_values_fields r1.1 []
      if r1.2 + r2.2 = 0 then .ret false
      else if dry_run then .ret true
      else if !f.writable then .exc
      else .ret true

structure TextFile where
  present : Bool
  readable : Bool
  content : Str
  writable : Bool

/-- `sanitize_text_file` (sanitize.py lines 253-293). -/
def sanitize_text_file (f : TextFile) (home : Str) (dry_run : Bool) : PyOutcome :=
  if !f.present then .ret false
  else if !f.readable then .ret false
  else
    let r := sanitize_paths home f.content
    if r.2 = 0 then .ret false
    else if dry_run then .ret true
    else if !f.writable then .exc
    else .ret true

/-! ## Shared notions for the claims -/

/-- A scalar in the sense of the configuration tree: a string, number,
boolean or null (not a mapping and not a sequence). -/
def isScalar : JValue → Bool
  | .obj _ => false
  | .arr _ => false
  | _ => true

/-! ## Claim C2 -/

/-- C2: running the full engine (`sanitize_dict` then `scan_values`) on
the tree `{"GITHUB_TOKEN": "ghp_abc123", "db": {"url":
"mongodb://u:p@host/d"}, "note": "hello"}` yields exactly
`{"GITHUB_TOKEN": "PLACEHOLDER", "db": {"url": "mongodb://PLACEHOLDER"},
"note": "hello"}` with key-pass count 1 and value-scan count 1 (total
2), and running the engine again on that result yields counts 0 and 0. -/
theorem C2_end_to_end :
    runEngine
      [("GITHUB_TOKEN".toList, .str "ghp_abc123".toList),
       ("db".toList, .obj [("url".toList, .str "mongodb://u:p@host/d".toList)]),
       ("note".toList, .str "hello".toList)] =
      ([("GITHUB_TOKEN".toList, .str "PLACEHOLDER".toList),
        ("db".toList, .obj [("url".toList, .str "mongodb://PLACEHOLDER".toList)]),
        ("note".toList, .str "hello".toList)], 1, 1) ∧
    (1 : Nat) + 1 = 2 ∧
    runEngine
      [("GITHUB_TOKEN".toList, .str "PLACEHOLDER".toList),
       ("db".toList, .obj [("url".toList, .str "mongodb://PLACEHOLDER".toList)]),
       ("note".toList, .str "hello".toList)] =
      ([("GITHUB_TOKEN".toList, .str "PLACEHOLDER".toList),
        ("db".toList, .obj [("url".toList, .str "mongodb://PLACEHOLDER".toList)]),
        ("note".toList, .str "hello".toList)], 0, 0) :=
  ⟨rfl, rfl, rfl⟩

/-! ## Claim C4 -/

/-- C4 counterexample: the whitespace-only string `" "` is nonempty, is
not a placeholder and does not start with `"Bearer "`, yet
`sanitize_value` returns it unchanged with `changed = false` (because
the code tests `value.strip()`, not emptiness), contradicting the claim
that every such string becomes the bare placeholder with
`changed = true`. -/
theorem C4_counterexample :
    is_already_placeholder (.str " ".toList) = false ∧
    hasPfx bearerPfx " ".toList = false ∧
    " ".toList ≠ ([] : Str) ∧
    sanitize_value (.str " ".toList) [] = (.str " ".toList, false) ∧
    ((.str " ".toList : JValue), false) ≠ ((.str PLACEHOLDER : JValue), true) := by
  refine ⟨rfl, rfl, by decide, rfl, ?_⟩
  intro h
  exact absurd (congrArg Prod.snd h) (by decide)

/-- C4 (amended): for a string value under a sensitive key that is not
already a placeholder and has no `"Bearer "` prefix, `sanitize_value`
returns the bare placeholder with `changed = true` when the string is
nonempty **after stripping whitespace**, and returns it unchanged with
`changed = false` when it strips to empty (in particular when it is
empty); non-string scalars are always returned unchanged with
`changed = false`, contributing 0 to the change count. -/
theorem C4_amended (s : Str) (path : Str)
    (hnp : is_already_placeholder (.str s) = false)
    (hnb : hasPfx bearerPfx s = false) :
    (strip_truthy s = true → sanitize_value (.str s) path = (.str PLACEHOLDER, true)) ∧
    (strip_truthy s = false → sanitize_value (.str s) path = (.str s, false)) ∧
    (∀ n : Int, sanitize_value (.num n) path = (.num n, false)) ∧
    (∀ b : Bool, sanitize_value (.bool b) path = (.bool b, false)) ∧
    sanitize_value .null path = (.null, false) := by
  refine ⟨?_, ?_, ?_, ?_, ?_⟩
  · intro hst
    simp [sanitize_value, hnp, hnb, hst]
  · intro hst
    simp [sanitize_value, hnp, hnb, hst]
  · intro n; rfl
  · intro b; rfl
  · rfl

/-- C4 witness. -/
theorem C4_witness :
    sanitize_value (.str "ghp_abc123".toList) [] = (.str PLACEHOLDER, true) ∧
    sanitize_value (.str "".toList) [] = (.str "".toList, false) :=
  ⟨(C4_amended "ghp_abc123".toList [] rfl rfl).1 rfl,
   (C4_amended "".toList [] rfl rfl).2.1 rfl⟩

/-! ## Claim C8 -/

/-- C8: with home directory `/home/alice`, `sanitize_paths` turns
`"cwd=/home/alice/proj, shared=/Users/bob/x"` into
`"cwd=~/proj, shared=~/x"` (with change indication 1); and for every
home directory and input text the returned change indication is
positive exactly when the returned text differs from the input. -/
theorem C8_path_redaction :
    sanitize_paths "/home/alice".toList "cwd=/home/alice/proj, shared=/Users/bob/x".toList =
      ("cwd=~/proj, shared=~/x".toList, 1) ∧
    ∀ home text : Str,
      (0 < (sanitize_paths home text).2 ↔ (sanitize_paths home text).1 ≠ text) := by
  constructor
  · rfl
  · intro home text
    unfold sanitize_paths
    by_cases h : subHome (replaceAll home "~".toList text) = text
    · simp only [if_pos h]
      simp [h]
      exact h
    · simp only [if_neg h]
      simp [h]
      exact h

/-! ## Claim C9 -/

/-- C9 is contradicted by the code: an existing but unreadable JSON
file makes `open` raise an `OSError` that the `except
json.JSONDecodeError` clause does not catch, and a JSON or text file
that needs rewriting but is unwritable makes the unguarded `open(...,
"w")` raise; in each case the exception escapes the per-file function
and aborts the run.  A missing file, by contrast, is skipped as the
claim describes. -/
theorem C9_uncaught_exceptions :
    sanitize_json_file ⟨true, false, some [], true⟩ false = .exc ∧
    sanitize_json_file
      ⟨true, true, some [("A_TOKEN".toList, .str "x".toList)], false⟩ false = .exc ∧
    sanitize_text_file ⟨true, true, "/home/bob/f".toList, false⟩ "/zzz".toList false = .exc ∧
    sanitize_json_file ⟨false, true, some [], true⟩ false = .ret false := by
  refine ⟨rfl, rfl, rfl, rfl⟩

/-! ## Claim C10 -/

/-- C10: the key-driven pass never redacts a scalar that is an element
of a sequence: a scalar list element passes through `sanitize_list`
unchanged and contributes 0 to the key-driven change count, and a
sequence value recurses through `sanitize_list` irrespective of whether
its key is sensitive (so `{"MY_TOKEN": ["secret"]}` keeps `"secret"`). -/
theorem C10_list_scalars_untouched (v : JValue) (rest : List JValue) (path : Str)
    (idx : Nat) (hscal : isScalar v = true) :
    (sanitize_list (v :: rest) path idx).1 = v :: (sanitize_list rest path (idx + 1)).1 ∧
    (sanitize_list (v :: rest) path idx).2 = (sanitize_list rest path (idx + 1)).2 ∧
    (∀ (k : Str) (items : List JValue) (rest' : List (Str × JValue)) (path' : Str),
      (sanitize_dict ((k, .arr items) :: rest') path').1 =
        (k, .arr (sanitize_list items (extKey path' k) 0).1) :: (sanitize_dict rest' path').1 ∧
      (sanitize_dict ((k, .arr items) :: rest') path').2 =
        (sanitize_list items (extKey path' k) 0).2 + (sanitize_dict rest' path').2) := by
  refine ⟨?_, ?_, ?_⟩
  · rw [sanitize_list_cons]
    cases v with
    | obj fs => simp [isScalar] at hscal
    | arr xs => simp [isScalar] at hscal
    | str s => rfl
    | num n => rfl
    | bool b => rfl
    | null => rfl
  · rw [sanitize_list_cons]
    cases v with
    | obj fs => simp [isScalar] at hscal
    | arr xs => simp [isScalar] at hscal
    | str s => simp
    | num n => simp
    | bool b => simp
    | null => simp
  · intro k items rest' path'
    rw [sanitize_dict_cons]
    exact ⟨rfl, rfl⟩

/-- C10 witness: `{"MY_TOKEN": ["secret"]}` under the key-driven pass. -/
theorem C10_witness :
    (sanitize_list [.str "secret".toList] "MY_TOKEN".toList 0).1 = [.str "secret".toList] ∧
    (sanitize_list [.str "secret".toList] "MY_TOKEN".toList 0).2 = 0 ∧
    (sanitize_dict [("MY_TOKEN".toList, .arr [.str "secret".toList])] []).1 =
      [("MY_TOKEN".toList, .arr [.str "secret".toList])] ∧
    (sanitize_dict [("MY_TOKEN".toList, .arr [.str "secret".toList])] []).2 = 0 := by
  have h := C10_list_scalars_untouched (.str "secret".toList) [] "MY_TOKEN".toList 0 rfl
  refine ⟨?_, ?_, ?_, ?_⟩
  · rw [h.1]; rfl
  · rw [h.2.1]; rfl
  · have h2 := (h.2.2 "MY_TOKEN".toList [.str "secret".toList] [] []).1
    rw [h2]
    rfl
  · have h2 := (h.2.2 "MY_TOKEN".toList [.str "secret".toList] [] []).2
    rw [h2]
    rfl

/-! ## Claim C6 -/

/-- Case folding of a whole string. -/
def foldStr (k : Str) : Str := k.map foldCase

/-- Modelled from the claim's words: a case-insensitive match of one of
the key rules against the **whole** key name — the key (case-folded)
ends in one of the six sensitive suffixes, or equals `authorization`,
`token`, or one of the three whole-name forms of `api[_-]?key`. -/
def sensitiveKeySpec (k : Str) : Bool :=
  decide ("_token".toList <:+ foldStr k) ||
  decide ("_api_key".toList <:+ foldStr k) ||
  decide ("_app_key".toList <:+ foldStr k) ||
  decide ("_password".toList <:+ foldStr k) ||
  decide ("_secret".toList <:+ foldStr k) ||
  decide ("_pat".toList <:+ foldStr k) ||
  foldStr k = "authorization".toList ||
  foldStr k = "token".toList ||
  foldStr k = "api_key".toList ||
  foldStr k = "api-key".toList ||
  foldStr k = "apikey".toList

/-- C6 counterexample: the code classifies `"token\n"` as sensitive
although no rule matches its whole name (`$` also matches just before a
trailing newline), and fails to classify `"a\nb_TOKEN"` although that
key ends in `_TOKEN` (`.*` cannot cross the interior newline). -/
theorem C6_counterexample :
    is_sensitive_key "token\n".toList = true ∧
    sensitiveKeySpec "token\n".toList = false ∧
    is_sensitive_key "a\nb_TOKEN".toList = false ∧
    sensitiveKeySpec "a\nb_TOKEN".toList = true := by
  refine ⟨by decide, by decide, by decide, by decide⟩

theorem dropPfxCI_iff (lit : Str) : ∀ s r : Str,
    dropPfxCI lit s = some r ↔ ∃ s1, s = s1 ++ r ∧ s1.map foldCase = lit := by
  induction lit with
  | nil =>
    intro s r
    simp only [dropPfxCI, Option.some.injEq]
    constructor
    · intro h
      exact ⟨[], by simp [h], rfl⟩
    · rintro ⟨s1, hs, hm⟩
      have : s1 = [] := by
        cases s1 with
        | nil => rfl
        | cons a t => simp at hm
      subst this
      simp at hs
      exact hs
  | cons p ps ih =>
    intro s r
    cases s with
    | nil =>
      simp only [dropPfxCI]
      constructor
      · intro h; simp at h
      · rintro ⟨s1, hs, hm⟩
        have : s1 = [] := by
          cases s1 with
          | nil => rfl
          | cons a t => simp at hs
        subst this
        simp at hm
    | cons c cs =>
      simp only [dropPfxCI]
      by_cases hc : foldCase c = p
      · rw [if_pos hc, ih cs r]
        constructor
        · rintro ⟨s1, hs, hm⟩
          exact ⟨c :: s1, by simp [hs], by simp [hm, hc]⟩
        · rintro ⟨s1, hs, hm⟩
          cases s1 with
          | nil => simp at hm
          | cons a t =>
            simp only [List.cons_append, List.cons.injEq] at hs
            simp only [List.map_cons, List.cons.injEq] at hm
            exact ⟨t, hs.2, hm.2⟩
      · rw [if_neg hc]
        constructor
        · intro h; simp at h
        · rintro ⟨s1, hs, hm⟩
          cases s1 with
          | nil => simp at hm
          | cons a t =>
            simp only [List.cons_append, List.cons.injEq] at hs
            simp only [List.map_cons, List.cons.injEq] at hm
            exact absurd (hs.1 ▸ hm.1) hc

theorem dollarEnd_iff (r : Str) : dollarEnd r = true ↔ r = [] ∨ r = ['\n'] := by
  unfold dollarEnd
  simp

theorem litDollar_iff (lit : Str) (s : Str) :
    litDollar lit s = true ↔
      ∃ s1, (s = s1 ∨ s = s1 ++ ['\n']) ∧ s1.map foldCase = lit := by
  unfold litDollar
  cases hd : dropPfxCI lit s with
  | none =>
    simp only [Bool.false_eq_true, false_iff]
    rintro ⟨s1, hs, hm⟩
    rcases hs with hs | hs
    · have hcon : dropPfxCI lit s = some [] := by
        rw [dropPfxCI_iff]
        exact ⟨s1, by simp [hs], hm⟩
      rw [hd] at hcon; exact absurd hcon (by simp)
    · have hcon : dropPfxCI lit s = some ['\n'] := by
        rw [dropPfxCI_iff]
        exact ⟨s1, hs, hm⟩
      rw [hd] at hcon; exact absurd hcon (by simp)
  | some r =>
    rw [dropPfxCI_iff] at hd
    obtain ⟨s1, hs, hm⟩ := hd
    rw [dollarEnd_iff]
    constructor
    · intro hde
      refine ⟨s1, ?_, hm⟩
      rcases hde with hde | hde
      · left; rw [hs, hde]; simp
      · right; rw [hs, hde]
    · rintro ⟨s2, hs2, hm2⟩
      have hlen : s1.length = s2.length := by
        have h1 := congrArg List.length hm
        have h2 := congrArg List.length hm2
        simp only [List.length_map] at h1 h2
        omega
      rcases hs2 with hs2 | hs2
      · left
        have heq : s1 ++ r = s2 := by rw [← hs, hs2]
        have hl := congrArg List.length heq
        simp only [List.length_append] at hl
        exact List.length_eq_zero.mp (by omega)
      · right
        have heq : s1 ++ r = s2 ++ ['\n'] := by rw [← hs, hs2]
        have h2 : r = (s1 ++ r).drop s1.length := by simp
        rw [heq, hlen] at h2
        rw [List.drop_left] at h2
        exact h2

theorem matchDotStarLit_iff (lit : Str) : ∀ s : Str,
    matchDotStarLit lit s = true ↔
      ∃ a b, s = a ++ b ∧ '\n' ∉ a ∧ litDollar lit b = true := by
  intro s
  induction s with
  | nil =>
    simp only [matchDotStarLit]
    constructor
    · intro h
      exact ⟨[], [], rfl, by simp, h⟩
    · rintro ⟨a, b, hs, _, hb⟩
      have ha : a = [] := by cases a <;> simp_all
      have hbe : b = [] := by
        subst ha; simpa using hs.symm
      subst ha; subst hbe
      exact hb
  | cons c t ih =>
    simp only [matchDotStarLit, Bool.or_eq_true, Bool.and_eq_true, decide_eq_true_eq]
    constructor
    · rintro (h | ⟨hc, h⟩)
      · exact ⟨[], c :: t, rfl, by simp, h⟩
      · obtain ⟨a, b, hs, ha, hb⟩ := ih.mp h
        refine ⟨c :: a, b, by simp [hs], ?_, hb⟩
        intro hmem
        rcases List.mem_cons.mp hmem with h1 | h1
        · exact hc h1.symm
        · exact ha h1
    · rintro ⟨a, b, hs, ha, hb⟩
      cases a with
      | nil =>
        left
        have hbe : b = c :: t := by simpa using hs.symm
        rw [← hbe]
        exact hb
      | cons a0 at' =>
        right
        simp only [List.cons_append, List.cons.injEq] at hs
        have hc : c ≠ '\n' := by
          rw [hs.1]
          intro hcc
          exact ha (by rw [hcc]; exact List.mem_cons_self _ _)
        refine ⟨hc, ?_⟩
        exact ih.mpr ⟨at', b, hs.2, fun hmem => ha (List.mem_cons_of_mem _ hmem), hb⟩

theorem foldStr_append (a b : Str) : foldStr (a ++ b) = foldStr a ++ foldStr b := by
  simp [foldStr]

theorem ends_of_dotstar {lit k : Str} (hnl : '\n' ∉ k) (hlitnl : '\n' ∉ lit) :
    (matchDotStarLit lit k = true ↔ lit <:+ foldStr k) ∧
    (matchDotStarLit lit (k ++ ['\n']) = true ↔ lit <:+ foldStr k) := by
  have main : ∀ (z : Str), (z = k ∨ z = k ++ ['\n']) →
      (matchDotStarLit lit z = true ↔ lit <:+ foldStr k) := by
    intro z hz
    rw [matchDotStarLit_iff]
    constructor
    · rintro ⟨a, b, hs, ha, hb⟩
      rw [litDollar_iff] at hb
      obtain ⟨s1, hb1, hm⟩ := hb
      have hk : k = a ++ s1 := by
        rcases hz with hz | hz
        · subst hz
          rcases hb1 with hb1 | hb1
          · rw [hb1] at hs; exact hs
          · exfalso
            rw [hb1] at hs
            apply hnl
            rw [hs]
            simp
        · subst hz
          rcases hb1 with hb1 | hb1
          · -- b = s1 : then s1 ends in the trailing newline, but s1
            -- case-folds to lit, which contains no newline
            exfalso
            rw [hb1] at hs
            have hmem : '\n' ∈ a ++ s1 := by
              rw [← hs]; simp
            rcases List.mem_append.mp hmem with hmem | hmem
            · exact ha hmem
            · apply hlitnl
              rw [← hm]
              exact List.mem_map.mpr ⟨'\n', hmem, rfl⟩
          · rw [hb1] at hs
            rw [← List.append_assoc] at hs
            exact List.append_cancel_right hs
      refine ⟨foldStr a, ?_⟩
      have hm2 : foldStr s1 = lit := hm
      rw [hk, foldStr_append, hm2]
    · rintro ⟨u, hu⟩
      have h1 : foldStr k = u ++ lit := hu.symm
      have hlen : u.length ≤ k.length := by
        have h2 := congrArg List.length h1
        simp only [List.length_append, foldStr, List.length_map] at h2
        omega
      have h2 : (foldStr k).drop u.length = lit := by
        rw [h1]
        exact List.drop_left u lit
      have hfold : (k.drop u.length).map foldCase = lit := by
        rw [List.map_drop]
        exact h2
      rcases hz with hz | hz
      · subst hz
        refine ⟨List.take u.length z, List.drop u.length z, (List.take_append_drop _ _).symm, ?_, ?_⟩
        · intro hmem
          exact hnl (List.mem_of_mem_take hmem)
        · rw [litDollar_iff]
          exact ⟨List.drop u.length z, Or.inl rfl, hfold⟩
      · subst hz
        refine ⟨List.take u.length k, List.drop u.length k ++ ['\n'], ?_, ?_, ?_⟩
        · rw [← List.append_assoc, List.take_append_drop]
        · intro hmem
          exact hnl (List.mem_of_mem_take hmem)
        · rw [litDollar_iff]
          exact ⟨k.drop u.length, Or.inr rfl, hfold⟩
  exact ⟨main k (Or.inl rfl), main (k ++ ['\n']) (Or.inr rfl)⟩

theorem litDollar_whole {lit k : Str} (hnl : '\n' ∉ k) (hlitnl : '\n' ∉ lit) :
    (litDollar lit k = true ↔ foldStr k = lit) ∧
    (litDollar lit (k ++ ['\n']) = true ↔ foldStr k = lit) := by
  constructor
  · rw [litDollar_iff]
    constructor
    · rintro ⟨s1, hs, hm⟩
      rcases hs with hs | hs
      · rw [hs]; exact hm
      · exfalso
        apply hnl
        rw [hs]; simp
    · intro h
      exact ⟨k, Or.inl rfl, h⟩
  · rw [litDollar_iff]
    constructor
    · rintro ⟨s1, hs, hm⟩
      rcases hs with hs | hs
      · exfalso
        apply hlitnl
        rw [← hm, ← hs]
        exact List.mem_map.mpr ⟨'\n', by simp, rfl⟩
      · have heq : s1 = k := List.append_cancel_right hs.symm
        rw [← heq]; exact hm
    · intro h
      exact ⟨k, Or.inr rfl, h⟩

theorem toNat_ofNat_valid {n : Nat} (h : Nat.isValidChar n) : (Char.ofNat n).toNat = n := by
  rw [Char.ofNat, dif_pos h]
  simp only [Char.ofNatAux, Char.toNat]
  exact rfl

/-- `foldCase` moves nothing onto a target outside the lower-case
letters and `s`, `k`, `i`: such characters are their own only
preimage. -/
theorem foldCase_fixed {c y : Char} (h : foldCase c = y)
    (hy1 : ¬('a' ≤ y ∧ y ≤ 'z')) (hy2 : y ≠ 's') (hy3 : y ≠ 'k') : c = y := by
  unfold foldCase at h
  split_ifs at h with h1 h2 h3 h4 h5
  · exfalso
    apply hy1
    have ha : 65 ≤ c.toNat := h1.1
    have hb : c.toNat ≤ 90 := h1.2
    have hv : Nat.isValidChar (c.toNat + 32) := by left; omega
    have ht : y.toNat = c.toNat + 32 := by rw [← h]; exact toNat_ofNat_valid hv
    constructor
    · show 97 ≤ y.toNat
      omega
    · show y.toNat ≤ 122
      omega
  · exact absurd h.symm hy2
  · exact absurd h.symm hy3
  · exfalso
    apply hy1
    subst h
    exact ⟨by decide, by decide⟩
  · exfalso
    apply hy1
    subst h
    exact ⟨by decide, by decide⟩
  · exact h

theorem map_foldCase_singleton {l : Str} {y : Char} (h : l.map foldCase = [y]) :
    ∃ x, l = [x] ∧ foldCase x = y := by
  cases l with
  | nil => simp at h
  | cons x t =>
    simp only [List.map_cons, List.cons.injEq] at h
    refine ⟨x, ?_, h.1⟩
    have : t = [] := by
      rcases h with ⟨_, h2⟩
      exact List.map_eq_nil_iff.mp h2
    rw [this]

theorem no_nl_of_foldStr {p w : Str} (hw : '\n' ∉ w) (h : foldStr p = w) : '\n' ∉ p := by
  intro hm
  apply hw
  rw [← h]
  have : foldCase '\n' = '\n' := by decide
  exact List.mem_map.mpr ⟨'\n', hm, this⟩

theorem apiKeyDollar_whole {k : Str} (hnl : '\n' ∉ k) :
    (apiKeyDollar k = true ↔
      (foldStr k = "api_key".toList ∨ foldStr k = "api-key".toList ∨
        foldStr k = "apikey".toList)) ∧
    (apiKeyDollar (k ++ ['\n']) = true ↔
      (foldStr k = "api_key".toList ∨ foldStr k = "api-key".toList ∨
        foldStr k = "apikey".toList)) := by
  have main : ∀ (tail : Str), tail = [] ∨ tail = ['\n'] →
      (apiKeyDollar (k ++ tail) = true ↔
        (foldStr k = "api_key".toList ∨ foldStr k = "api-key".toList ∨
          foldStr k = "apikey".toList)) := by
    intro tail htail
    unfold apiKeyDollar
    constructor
    · intro h
      cases hd : dropPfxCI "api".toList (k ++ tail) with
      | none => rw [hd] at h; simp at h
      | some r =>
        rw [hd] at h
        rw [dropPfxCI_iff] at hd
        obtain ⟨p, hz, hp⟩ := hd
        have finish : ∀ mid q : Str, litDollar "key".toList q = true →
            k ++ tail = p ++ mid ++ q →
            ∃ s1, k = p ++ mid ++ s1 ∧ foldStr s1 = "key".toList := by
          intro mid q hld hdec
          rw [litDollar_iff] at hld
          obtain ⟨s1, hq, hm⟩ := hld
          have hs1nl : '\n' ∉ s1 := no_nl_of_foldStr (by decide) hm
          rcases htail with htail | htail
          · subst htail
            rcases hq with hq | hq
            · refine ⟨s1, ?_, hm⟩
              have h0 : k = p ++ mid ++ q := by simpa using hdec
              rw [h0, hq]
            · exfalso
              apply hnl
              have h0 : k = p ++ mid ++ (s1 ++ ['\n']) := by
                rw [← hq]; simpa using hdec
              rw [h0]; simp
          · subst htail
            rcases hq with hq | hq
            · exfalso
              rw [hq] at hdec
              have hmem : '\n' ∈ (p ++ mid) ++ s1 := by
                rw [← hdec]; simp
              have hs1len : 1 ≤ s1.length := by
                have := congrArg List.length hm
                simp only [List.length_map] at this
                rw [this]; decide
              have hlen2 : (p ++ mid).length ≤ k.length := by
                simp only [List.length_append]
                have := congrArg List.length hdec
                simp only [List.length_append, List.length_cons, List.length_nil] at this
                omega
              rcases List.mem_append.mp hmem with hmm | hmm
              · apply hnl
                have htake : p ++ mid = List.take (p ++ mid).length (k ++ ['\n']) := by
                  conv_rhs => rw [hdec]
                  rw [List.take_left]
                rw [List.take_append_of_le_length hlen2] at htake
                rw [htake] at hmm
                exact List.mem_of_mem_take hmm
              · exact hs1nl hmm
            · refine ⟨s1, ?_, hm⟩
              rw [hq] at hdec
              rw [← List.append_assoc] at hdec
              exact List.append_cancel_right hdec
        cases r with
        | nil => exact absurd h (by decide)
        | cons c t =>
          simp only [Bool.or_eq_true, Bool.and_eq_true] at h
          rcases h with ⟨hsep, hld⟩ | hld
          · obtain ⟨s1, hk1, hm⟩ := finish [c] t hld (by rw [hz]; simp)
            have hc : c = '_' ∨ c = '-' := by
              rcases hsep with h1 | h1
              · left; exact of_decide_eq_true h1
              · right; exact of_decide_eq_true h1
            have hp2 : foldStr p = "api".toList := hp
            rcases hc with hc | hc
            · left
              rw [hk1, hc, foldStr_append, foldStr_append, hp2]
              have hfc : foldStr ['_'] = ['_'] := by decide
              rw [hfc, hm]
              decide
            · right; left
              rw [hk1, hc, foldStr_append, foldStr_append, hp2]
              have hfc : foldStr ['-'] = ['-'] := by decide
              rw [hfc, hm]
              decide
          · obtain ⟨s1, hk1, hm⟩ := finish [] (c :: t) hld (by rw [hz]; simp)
            right; right
            have hp2 : foldStr p = "api".toList := hp
            rw [hk1, foldStr_append, foldStr_append, hp2]
            have hfc : foldStr ([] : Str) = [] := rfl
            rw [hfc, hm]
            simp
    · intro hspec
      have hdec : ∃ pfx mid s1, k = pfx ++ mid ++ s1 ∧
          List.map foldCase pfx = "api".toList ∧ List.map foldCase s1 = "key".toList ∧
          ((∃ c, mid = [c] ∧ (decide (c = '_') || decide (c = '-')) = true) ∨ mid = []) := by
        rcases hspec with hs | hs | hs
        · have hs2 : "api".toList ++ "_key".toList = List.map foldCase k := by
            have he : ("api_key".toList : Str) = "api".toList ++ "_key".toList := by decide
            rw [← he, ← hs]
            rfl
          obtain ⟨l1, l2, hk1, hm1, hm2⟩ := List.append_eq_map_iff.mp hs2
          have hs3 : "_".toList ++ "key".toList = List.map foldCase l2 := by
            have he2 : ("_key".toList : Str) = "_".toList ++ "key".toList := by decide
            rw [← he2, ← hm2]
          obtain ⟨l2a, l2b, hk2, hm2a, hm2b⟩ := List.append_eq_map_iff.mp hs3
          have hm2a1 : List.map foldCase l2a = ['_'] := by rw [hm2a]; decide
          obtain ⟨c, hc1, hc2⟩ := map_foldCase_singleton hm2a1
          have hcu : c = '_' := foldCase_fixed hc2 (by decide) (by decide) (by decide)
          refine ⟨l1, [c], l2b, ?_, hm1, hm2b, Or.inl ⟨c, rfl, by rw [hcu]; decide⟩⟩
          rw [hk1, hk2, hc1]
          simp
        · have hs2 : "api".toList ++ "-key".toList = List.map foldCase k := by
            have he : ("api-key".toList : Str) = "api".toList ++ "-key".toList := by decide
            rw [← he, ← hs]
            rfl
          obtain ⟨l1, l2, hk1, hm1, hm2⟩ := List.append_eq_map_iff.mp hs2
          have hs3 : "-".toList ++ "key".toList = List.map foldCase l2 := by
            have he2 : ("-key".toList : Str) = "-".toList ++ "key".toList := by decide
            rw [← he2, ← hm2]
          obtain ⟨l2a, l2b, hk2, hm2a, hm2b⟩ := List.append_eq_map_iff.mp hs3
          have hm2a1 : List.map foldCase l2a = ['-'] := by rw [hm2a]; decide
          obtain ⟨c, hc1, hc2⟩ := map_foldCase_singleton hm2a1
          have hcu : c = '-' := foldCase_fixed hc2 (by decide) (by decide) (by decide)
          refine ⟨l1, [c], l2b, ?_, hm1, hm2b, Or.inl ⟨c, rfl, by rw [hcu]; decide⟩⟩
          rw [hk1, hk2, hc1]
          simp
        · have hs2 : "api".toList ++ "key".toList = List.map foldCase k := by
            have he : ("apikey".toList : Str) = "api".toList ++ "key".toList := by decide
            rw [← he, ← hs]
            rfl
          obtain ⟨l1, l2, hk1, hm1, hm2⟩ := List.append_eq_map_iff.mp hs2
          exact ⟨l1, [], l2, by rw [hk1]; simp, hm1, hm2, Or.inr rfl⟩
      obtain ⟨pfx, mid, s1, hk1, hp, hm, hmid⟩ := hdec
      have hdr : dropPfxCI "api".toList (k ++ tail) = some (mid ++ s1 ++ tail) := by
        rw [dropPfxCI_iff]
        refine ⟨pfx, ?_, hp⟩
        rw [hk1]
        simp [List.append_assoc]
      rw [hdr]
      have hldq : litDollar "key".toList (s1 ++ tail) = true := by
        rw [litDollar_iff]
        rcases htail with htail | htail
        · subst htail
          exact ⟨s1, Or.inl (by simp), hm⟩
        · subst htail
          exact ⟨s1, Or.inr rfl, hm⟩
      rcases hmid with ⟨c, hc1, hc2⟩ | hc1
      · subst hc1
        have hre : ([c] ++ s1 ++ tail : Str) = c :: (s1 ++ tail) := by simp
        rw [hre]
        show ((decide (c = '_') || decide (c = '-')) && litDollar "key".toList (s1 ++ tail)
          || litDollar "key".toList (c :: (s1 ++ tail))) = true
        rw [Bool.or_eq_true]
        left
        rw [Bool.and_eq_true]
        exact ⟨hc2, hldq⟩
      · subst hc1
        have hre : (([] : Str) ++ s1 ++ tail) = s1 ++ tail := by simp
        rw [hre]
        cases hs1 : s1 ++ tail with
        | nil =>
          rw [hs1] at hldq
          exact absurd hldq (by decide)
        | cons c0 t0 =>
          rw [hs1] at hldq
          show ((decide (c0 = '_') || decide (c0 = '-')) && litDollar "key".toList t0
            || litDollar "key".toList (c0 :: t0)) = true
          rw [Bool.or_eq_true]
          right
          exact hldq
  exact ⟨by simpa using main [] (Or.inl rfl), main ['\n'] (Or.inr rfl)⟩

/-- C6 (amended): on every key free of newlines — every key that can occur in
practice — `is_sensitive_key` agrees exactly with the whole-name,
case-insensitive reading of the rule list (`sensitiveKeySpec`): true iff the
folded key ends in `_token`, `_api_key`, `_app_key`, `_password`, `_secret`
or `_pat`, or equals `authorization`, `token`, `api_key`, `api-key` or
`apikey`; a single trailing newline is also tolerated by every rule (Python
`$`). The claim as stated is refuted by `C6_counterexample`: with an interior
or trailing newline, matching is not against the whole name. -/
theorem C6_amended (k : Str) (hnl : '\n' ∉ k) :
    is_sensitive_key k = sensitiveKeySpec k ∧
    is_sensitive_key (k ++ ['\n']) = sensitiveKeySpec k := by
  have conv : ∀ a b : Bool, (a = true ↔ b = true) → a = b := by decide
  constructor
  · apply conv
    simp only [is_sensitive_key, sensitiveKeySpec, Bool.or_eq_true, decide_eq_true_eq]
    rw [(@ends_of_dotstar "_token".toList k hnl (by decide)).1,
        (@ends_of_dotstar "_api_key".toList k hnl (by decide)).1,
        (@ends_of_dotstar "_app_key".toList k hnl (by decide)).1,
        (@ends_of_dotstar "_password".toList k hnl (by decide)).1,
        (@ends_of_dotstar "_secret".toList k hnl (by decide)).1,
        (@ends_of_dotstar "_pat".toList k hnl (by decide)).1,
        (@litDollar_whole "authorization".toList k hnl (by decide)).1,
        (@litDollar_whole "token".toList k hnl (by decide)).1,
        (apiKeyDollar_whole hnl).1]
    tauto
  · apply conv
    simp only [is_sensitive_key, sensitiveKeySpec, Bool.or_eq_true, decide_eq_true_eq]
    rw [(@ends_of_dotstar "_token".toList k hnl (by decide)).2,
        (@ends_of_dotstar "_api_key".toList k hnl (by decide)).2,
        (@ends_of_dotstar "_app_key".toList k hnl (by decide)).2,
        (@ends_of_dotstar "_password".toList k hnl (by decide)).2,
        (@ends_of_dotstar "_secret".toList k hnl (by decide)).2,
        (@ends_of_dotstar "_pat".toList k hnl (by decide)).2,
        (@litDollar_whole "authorization".toList k hnl (by decide)).2,
        (@litDollar_whole "token".toList k hnl (by decide)).2,
        (apiKeyDollar_whole hnl).2]
    tauto

/-- Witness for C6_amended at the concrete key `"My_Token"`. -/
theorem C6_amended_witness :
    ('\n' ∉ "My_Token".toList) ∧
    (is_sensitive_key "My_Token".toList = sensitiveKeySpec "My_Token".toList ∧
     is_sensitive_key ("My_Token".toList ++ ['\n']) = sensitiveKeySpec "My_Token".toList) :=
  ⟨by decide, C6_amended "My_Token".toList (by decide)⟩

/-! ## Claim C3: structural shape of a tree

`shape` erases every scalar to `null` and keeps objects (with their keys,
in order) and arrays (with their lengths, in order); two trees have the
same key sets, key order and sequence lengths/order exactly when their
shapes coincide. -/

mutual

def shapeF : Nat → JValue → JValue
  | 0, _ => .null
  | fuel + 1, .obj fields => .obj (shapeFieldsF fuel fields)
  | fuel + 1, .arr items => .arr (shapeItemsF fuel items)
  | _ + 1, _ => .null

def shapeFieldsF : Nat → List (Str × JValue) → List (Str × JValue)
  | 0, _ => []
  | _ + 1, [] => []
  | fuel + 1, (k, v) :: rest => (k, shapeF fuel v) :: shapeFieldsF fuel rest

def shapeItemsF : Nat → List JValue → List JValue
  | 0, _ => []
  | _ + 1, [] => []
  | fuel + 1, v :: rest => shapeF fuel v :: shapeItemsF fuel rest

end

theorem shape_congr : ∀ f1 : Nat,
    (∀ f2 v, sizeOf v ≤ f1 → sizeOf v ≤ f2 → shapeF f1 v = shapeF f2 v) ∧
    (∀ f2 fields, sizeOf fields ≤ f1 → sizeOf fields ≤ f2 →
      shapeFieldsF f1 fields = shapeFieldsF f2 fields) ∧
    (∀ f2 items, sizeOf items ≤ f1 → sizeOf items ≤ f2 →
      shapeItemsF f1 items = shapeItemsF f2 items) := by
  intro f1
  induction f1 with
  | zero =>
    refine ⟨?_, ?_, ?_⟩
    · intro f2 v h1 _
      exact absurd h1 (by have := one_le_sizeOf_jvalue v; omega)
    · intro f2 fields h1 _
      exact absurd h1 (by have := one_le_sizeOf_list fields; omega)
    · intro f2 items h1 _
      exact absurd h1 (by have := one_le_sizeOf_list items; omega)
  | succ f1 ih =>
    refine ⟨?_, ?_, ?_⟩
    · intro f2 v h1 h2
      cases f2 with
      | zero => exact absurd h2 (by have := one_le_sizeOf_jvalue v; omega)
      | succ f2 =>
        cases v with
        | obj fs =>
          have hfs := sizeOf_obj fs
          simp only [shapeF]
          rw [ih.2.1 f2 fs (by omega) (by omega)]
        | arr xs =>
          have hxs := sizeOf_arr xs
          simp only [shapeF]
          rw [ih.2.2 f2 xs (by omega) (by omega)]
        | str s => rfl
        | num n => rfl
        | bool b => rfl
        | null => rfl
    · intro f2 fields h1 h2
      cases fields with
      | nil =>
        cases f2 with
        | zero => exact absurd h2 (by have := one_le_sizeOf_list ([] : List (Str × JValue)); omega)
        | succ f2 => rfl
      | cons kv rest =>
        obtain ⟨k, v⟩ := kv
        cases f2 with
        | zero => exact absurd h2 (by have := one_le_sizeOf_list ((k, v) :: rest); omega)
        | succ f2 =>
          rw [sizeOf_fields_cons] at h1 h2
          have hrest := one_le_sizeOf_list rest
          have hv := one_le_sizeOf_jvalue v
          simp only [shapeFieldsF]
          rw [ih.1 f2 v (by omega) (by omega), ih.2.1 f2 rest (by omega) (by omega)]
    · intro f2 items h1 h2
      cases items with
      | nil =>
        cases f2 with
        | zero => exact absurd h2 (by have := one_le_sizeOf_list ([] : List JValue); omega)
        | succ f2 => rfl
      | cons v rest =>
        cases f2 with
        | zero => exact absurd h2 (by have := one_le_sizeOf_list (v :: rest); omega)
        | succ f2 =>
          simp only [List.cons.sizeOf_spec] at h1 h2
          have hrest := one_le_sizeOf_list rest
          have hv := one_le_sizeOf_jvalue v
          simp only [shapeItemsF]
          rw [ih.1 f2 v (by omega) (by omega), ih.2.2 f2 rest (by omega) (by omega)]

def shape (v : JValue) : JValue := shapeF (sizeOf v) v

def shapeFields (fields : List (Str × JValue)) : List (Str × JValue) :=
  shapeFieldsF (sizeOf fields) fields

def shapeItems (items : List JValue) : List JValue :=
  shapeItemsF (sizeOf items) items

theorem shapeF_suff {fuel : Nat} {v : JValue} (h : sizeOf v ≤ fuel) :
    shapeF fuel v = shape v :=
  (shape_congr fuel).1 (sizeOf v) v h (le_refl _)

theorem shapeFieldsF_suff {fuel : Nat} {fields : List (Str × JValue)}
    (h : sizeOf fields ≤ fuel) : shapeFieldsF fuel fields = shapeFields fields :=
  (shape_congr fuel).2.1 (sizeOf fields) fields h (le_refl _)

theorem shapeItemsF_suff {fuel : Nat} {items : List JValue}
    (h : sizeOf items ≤ fuel) : shapeItemsF fuel items = shapeItems items :=
  (shape_congr fuel).2.2 (sizeOf items) items h (le_refl _)

theorem shape_obj (fields : List (Str × JValue)) :
    shape (.obj fields) = .obj (shapeFields fields) := by
  show shapeF (sizeOf (JValue.obj fields)) (.obj fields) = _
  rw [sizeOf_obj, Nat.add_comm]
  simp only [shapeF]
  rw [shapeFieldsF_suff (by omega)]

theorem shape_arr (items : List JValue) :
    shape (.arr items) = .arr (shapeItems items) := by
  show shapeF (sizeOf (JValue.arr items)) (.arr items) = _
  rw [sizeOf_arr, Nat.add_comm]
  simp only [shapeF]
  rw [shapeItemsF_suff (by omega)]

theorem shape_str (s : Str) : shape (.str s) = JValue.null := by
  show shapeF (sizeOf (JValue.str s)) (.str s) = _
  have h : sizeOf (JValue.str s) = sizeOf s + 1 := by simp; omega
  rw [h]
  simp only [shapeF]

theorem shapeFields_nil : shapeFields [] = [] := rfl

theorem shapeItems_nil : shapeItems [] = [] := rfl

theorem shapeFields_cons (k : Str) (v : JValue) (rest : List (Str × JValue)) :
    shapeFields ((k, v) :: rest) = (k, shape v) :: shapeFields rest := by
  show shapeFieldsF (sizeOf ((k, v) :: rest)) ((k, v) :: rest) = _
  rw [sizeOf_fields_cons]
  have hrest := one_le_sizeOf_list rest
  have hv := one_le_sizeOf_jvalue v
  have hstep : 1 + (1 + sizeOf k + sizeOf v) + sizeOf rest =
      (sizeOf k + sizeOf v + sizeOf rest + 1) + 1 := by omega
  rw [hstep]
  simp only [shapeFieldsF]
  rw [shapeF_suff (by omega), shapeFieldsF_suff (by omega)]

theorem shapeItems_cons (v : JValue) (rest : List JValue) :
    shapeItems (v :: rest) = shape v :: shapeItems rest := by
  show shapeItemsF (sizeOf (v :: rest)) (v :: rest) = _
  have hrest := one_le_sizeOf_list rest
  have hv := one_le_sizeOf_jvalue v
  have hstep : sizeOf (v :: rest) = (sizeOf v + sizeOf rest) + 1 := by
    simp only [List.cons.sizeOf_spec]
    omega
  rw [hstep]
  simp only [shapeItemsF]
  rw [shapeF_suff (by omega), shapeItemsF_suff (by omega)]

theorem shape_sv_str (s p : Str) :
    shape ((sanitize_value (.str s) p).1) = JValue.null := by
  have h : ∃ t, (sanitize_value (.str s) p).1 = JValue.str t := by
    unfold sanitize_value
    dsimp only
    split_ifs <;> exact ⟨_, rfl⟩
  obtain ⟨t, ht⟩ := h
  rw [ht]
  exact shape_str t

theorem shape_preserved : ∀ n : Nat,
    (∀ fields path, sizeOf fields ≤ n →
      shapeFields (sanitize_dict fields path).1 = shapeFields fields) ∧
    (∀ items path idx, sizeOf items ≤ n →
      shapeItems (sanitize_list items path idx).1 = shapeItems items) ∧
    (∀ v path, sizeOf v ≤ n → shape (scan_values v path).1 = shape v) ∧
    (∀ fields path, sizeOf fields ≤ n →
      shapeFields (scan_values_fields fields path).1 = shapeFields fields) ∧
    (∀ items path idx, sizeOf items ≤ n →
      shapeItems (scan_values_items items path idx).1 = shapeItems items) := by
  intro n
  induction n with
  | zero =>
    refine ⟨?_, ?_, ?_, ?_, ?_⟩
    · intro fields _ h1
      exact absurd h1 (by have := one_le_sizeOf_list fields; omega)
    · intro items _ _ h1
      exact absurd h1 (by have := one_le_sizeOf_list items; omega)
    · intro v _ h1
      exact absurd h1 (by have := one_le_sizeOf_jvalue v; omega)
    · intro fields _ h1
      exact absurd h1 (by have := one_le_sizeOf_list fields; omega)
    · intro items _ _ h1
      exact absurd h1 (by have := one_le_sizeOf_list items; omega)
  | succ n ih =>
    obtain ⟨ih1, ih2, ih3, ih4, ih5⟩ := ih
    refine ⟨?_, ?_, ?_, ?_, ?_⟩
    · intro fields path h
      cases fields with
      | nil => rfl
      | cons kv rest =>
        obtain ⟨k, v⟩ := kv
        rw [sizeOf_fields_cons] at h
        have hrest := one_le_sizeOf_list rest
        have hv := one_le_sizeOf_jvalue v
        cases v with
        | obj fs =>
          rw [sizeOf_obj] at h
          rw [sanitize_dict_cons]
          dsimp only
          rw [shapeFields_cons, shapeFields_cons, ih1 rest path (by omega),
              shape_obj, shape_obj, ih1 fs (extKey path k) (by omega)]
        | arr xs =>
          rw [sizeOf_arr] at h
          rw [sanitize_dict_cons]
          dsimp only
          rw [shapeFields_cons, shapeFields_cons, ih1 rest path (by omega),
              shape_arr, shape_arr, ih2 xs (extKey path k) 0 (by omega)]
        | str s =>
          rw [sanitize_dict_cons]
          dsimp only
          rw [shapeFields_cons, shapeFields_cons, ih1 rest path (by omega)]
          split_ifs <;> simp only [shape_sv_str, shape_str]
        | num n1 =>
          rw [sanitize_dict_cons]
          dsimp only
          rw [shapeFields_cons, shapeFields_cons, ih1 rest path (by omega)]
          split_ifs <;> rfl
        | bool b =>
          rw [sanitize_dict_cons]
          dsimp only
          rw [shapeFields_cons, shapeFields_cons, ih1 rest path (by omega)]
          split_ifs <;> rfl
        | null =>
          rw [sanitize_dict_cons]
          dsimp only
          rw [shapeFields_cons, shapeFields_cons, ih1 rest path (by omega)]
          split_ifs <;> rfl
    · intro items path idx h
      cases items with
      | nil => rfl
      | cons v rest =>
        simp only [List.cons.sizeOf_spec] at h
        have hrest := one_le_sizeOf_list rest
        have hv := one_le_sizeOf_jvalue v
        cases v with
        | obj fs =>
          rw [sizeOf_obj] at h
          rw [sanitize_list_cons]
          dsimp only
          rw [shapeItems_cons, shapeItems_cons, ih2 rest path (idx + 1) (by omega),
              shape_obj, shape_obj, ih1 fs (extIdx path idx) (by omega)]
        | arr xs =>
          rw [sizeOf_arr] at h
          rw [sanitize_list_cons]
          dsimp only
          rw [shapeItems_cons, shapeItems_cons, ih2 rest path (idx + 1) (by omega),
              shape_arr, shape_arr, ih2 xs (extIdx path idx) 0 (by omega)]
        | str s =>
          rw [sanitize_list_cons]
          dsimp only
          rw [shapeItems_cons, shapeItems_cons, ih2 rest path (idx + 1) (by omega)]
        | num n1 =>
          rw [sanitize_list_cons]
          dsimp only
          rw [shapeItems_cons, shapeItems_cons, ih2 rest path (idx + 1) (by omega)]
        | bool b =>
          rw [sanitize_list_cons]
          dsimp only
          rw [shapeItems_cons, shapeItems_cons, ih2 rest path (idx + 1) (by omega)]
        | null =>
          rw [sanitize_list_cons]
          dsimp only
          rw [shapeItems_cons, shapeItems_cons, ih2 rest path (idx + 1) (by omega)]
    · intro v path h
      cases v with
      | obj fs =>
        rw [sizeOf_obj] at h
        rw [scan_values_obj]
        dsimp only
        rw [shape_obj, shape_obj, ih4 fs path (by omega)]
      | arr xs =>
        rw [sizeOf_arr] at h
        rw [scan_values_arr]
        dsimp only
        rw [shape_arr, shape_arr, ih5 xs path 0 (by omega)]
      | str s =>
        rw [scan_values_str]
        split_ifs
        · rfl
        · rw [shape_str, shape_str]
      | num n1 => rw [scan_values_num]
      | bool b => rw [scan_values_bool]
      | null => rw [scan_values_null]
    · intro fields path h
      cases fields with
      | nil => rfl
      | cons kv rest =>
        obtain ⟨k, v⟩ := kv
        rw [sizeOf_fields_cons] at h
        have hrest := one_le_sizeOf_list rest
        have hv := one_le_sizeOf_jvalue v
        rw [scan_values_fields_cons]
        dsimp only
        rw [shapeFields_cons, shapeFields_cons, ih4 rest path (by omega),
            ih3 v (extKey path k) (by omega)]
    · intro items path idx h
      cases items with
      | nil => rfl
      | cons v rest =>
        simp only [List.cons.sizeOf_spec] at h
        have hrest := one_le_sizeOf_list rest
        have hv := one_le_sizeOf_jvalue v
        rw [scan_values_items_cons]
        dsimp only
        rw [shapeItems_cons, shapeItems_cons, ih5 rest path (idx + 1) (by omega),
            ih3 v (extIdx path idx) (by omega)]

/-- C3: both passes, and hence the composed engine `runEngine`, preserve the
structural shape of the tree: the output has the same key sets in the same
insertion order and the same sequence lengths and element order as the
input — the shapes (trees with every scalar erased to `null`) coincide, so
only scalar values can differ. -/
theorem C3_shape_preservation (data : List (Str × JValue)) (path : Str)
    (items : List JValue) (idx : Nat) :
    shapeFields (sanitize_dict data path).1 = shapeFields data ∧
    shapeItems (sanitize_list items path idx).1 = shapeItems items ∧
    shapeFields (scan_values_fields data path).1 = shapeFields data ∧
    shapeItems (scan_values_items items path idx).1 = shapeItems items ∧
    shapeFields (runEngine data).1 = shapeFields data := by
  refine ⟨(shape_preserved (sizeOf data)).1 data path (le_refl _),
    (shape_preserved (sizeOf items)).2.1 items path idx (le_refl _),
    (shape_preserved (sizeOf data)).2.2.2.1 data path (le_refl _),
    (shape_preserved (sizeOf items)).2.2.2.2 items path idx (le_refl _), ?_⟩
  have h1 := (shape_preserved (sizeOf (sanitize_dict data []).1)).2.2.2.1
    (sanitize_dict data []).1 [] (le_refl _)
  have h2 := (shape_preserved (sizeOf data)).1 data [] (le_refl _)
  show shapeFields (scan_values_fields (sanitize_dict data []).1 []).1 = shapeFields data
  rw [h1, h2]

/-- C5 counterexample: under the sensitive key `"A_TOKEN"`, the key pass
replaces the whole connection string with the bare placeholder before the
value scan runs, so the value does NOT become `"postgres://PLACEHOLDER"`
and the value-scan count is 0, not 1. -/
theorem C5_counterexample :
    runEngine [("A_TOKEN".toList, JValue.str "postgres://user:pw@host/db".toList)] =
      ([("A_TOKEN".toList, JValue.str PLACEHOLDER)], 1, 0) := rfl

/-- C5 (amended): the value-scan pass itself does behave as claimed at every
position: for every path, scanning the string `"postgres://user:pw@host/db"`
yields `"postgres://PLACEHOLDER"` with value-scan count exactly 1; and the
full engine agrees whenever the key holding the value is not itself
classified sensitive (otherwise the key pass pre-empts the value scan, see
`C5_counterexample`). -/
theorem C5_amended (path k : Str) (hk : is_sensitive_key k = false) :
    scan_values (JValue.str "postgres://user:pw@host/db".toList) path =
      (JValue.str "postgres://PLACEHOLDER".toList, 1) ∧
    runEngine [(k, JValue.str "postgres://user:pw@host/db".toList)] =
      ([(k, JValue.str "postgres://PLACEHOLDER".toList)], 0, 1) := by
  have hval : ∀ p : Str, scan_values (JValue.str "postgres://user:pw@host/db".toList) p =
      (JValue.str "postgres://PLACEHOLDER".toList, 1) := fun _ => rfl
  refine ⟨hval path, ?_⟩
  have h1 : sanitize_dict [(k, JValue.str "postgres://user:pw@host/db".toList)] [] =
      ([(k, JValue.str "postgres://user:pw@host/db".toList)], 0) := by
    rw [sanitize_dict_cons, sanitize_dict_nil]
    simp [hk]
  have h2 : scan_values_fields [(k, JValue.str "postgres://user:pw@host/db".toList)] [] =
      ([(k, JValue.str "postgres://PLACEHOLDER".toList)], 1) := by
    rw [scan_values_fields_cons, scan_values_fields_nil, hval]
    rfl
  show ((scan_values_fields
      (sanitize_dict [(k, JValue.str "postgres://user:pw@host/db".toList)] []).1 []).1,
    (sanitize_dict [(k, JValue.str "postgres://user:pw@host/db".toList)] []).2,
    (scan_values_fields
      (sanitize_dict [(k, JValue.str "postgres://user:pw@host/db".toList)] []).1 []).2) = _
  rw [h1]
  dsimp only
  rw [h2]

/-- Witness for C5_amended at the concrete non-sensitive key `"note"`. -/
theorem C5_amended_witness :
    is_sensitive_key "note".toList = false ∧
    (scan_values (JValue.str "postgres://user:pw@host/db".toList) "p".toList =
      (JValue.str "postgres://PLACEHOLDER".toList, 1) ∧
    runEngine [("note".toList, JValue.str "postgres://user:pw@host/db".toList)] =
      ([("note".toList, JValue.str "postgres://PLACEHOLDER".toList)], 0, 1)) :=
  ⟨by decide, C5_amended "p".toList "note".toList (by decide)⟩

/-! ## Claim C7: Field Path injectivity

The Field Path of a scalar position is the `path` argument the traversal
passes when it reaches that scalar (sanitize.py lines 114-115, 141-142,
163-173).  `paths` collects, in traversal order, the Field Path of every
scalar position of a tree. -/

theorem natToCharsF_acc : ∀ fuel n acc,
    natToCharsF fuel n acc = natToCharsF fuel n [] ++ acc := by
  intro fuel
  induction fuel with
  | zero => intro n acc; rfl
  | succ fuel ih =>
    intro n acc
    simp only [natToCharsF]
    by_cases hn : n < 10
    · rw [if_pos hn, if_pos hn]
      rfl
    · rw [if_neg hn, if_neg hn, ih (n / 10) (Char.ofNat (48 + n % 10) :: acc),
          ih (n / 10) [Char.ofNat (48 + n % 10)], List.append_assoc]
      rfl

theorem natToChars_rec (n : Nat) : natToChars n =
    if n < 10 then [Char.ofNat (48 + n % 10)]
    else natToChars (n / 10) ++ [Char.ofNat (48 + n % 10)] := by
  show natToCharsF (n + 1) n [] = _
  simp only [natToCharsF]
  by_cases hn : n < 10
  · rw [if_pos hn, if_pos hn]
  · rw [if_neg hn, if_neg hn, natToCharsF_acc n (n / 10) [Char.ofNat (48 + n % 10)],
        natToCharsF_congr n (n / 10 + 1) (n / 10) [] (by omega) (by omega)]
    rfl

def digitsVal (s : Str) : Nat := s.foldl (fun a c => 10 * a + (c.toNat - 48)) 0

theorem digitsVal_append (xs : Str) (c : Char) :
    digitsVal (xs ++ [c]) = 10 * digitsVal xs + (c.toNat - 48) := by
  unfold digitsVal
  rw [List.foldl_append]
  rfl

theorem digit_toNat (n : Nat) : (Char.ofNat (48 + n % 10)).toNat = 48 + n % 10 := by
  have h : n % 10 < 10 := Nat.mod_lt _ (by omega)
  exact toNat_ofNat_valid (Or.inl (by omega))

theorem digitsVal_natToChars : ∀ n, digitsVal (natToChars n) = n := by
  intro n
  induction n using Nat.strong_induction_on with
  | _ n ih =>
    rw [natToChars_rec]
    by_cases hn : n < 10
    · rw [if_pos hn]
      have h1 : digitsVal [Char.ofNat (48 + n % 10)] =
          10 * 0 + ((Char.ofNat (48 + n % 10)).toNat - 48) := rfl
      rw [h1, digit_toNat]
      omega
    · rw [if_neg hn, digitsVal_append, ih (n / 10) (by omega), digit_toNat]
      omega

theorem natToChars_inj {m n : Nat} (h : natToChars m = natToChars n) : m = n := by
  have hm := digitsVal_natToChars m
  have hn := digitsVal_natToChars n
  rw [h] at hm
  omega

theorem natToChars_digits : ∀ n, ∀ c ∈ natToChars n, 48 ≤ c.toNat ∧ c.toNat ≤ 57 := by
  intro n
  induction n using Nat.strong_induction_on with
  | _ n ih =>
    intro c hc
    rw [natToChars_rec] at hc
    by_cases hn : n < 10
    · rw [if_pos hn] at hc
      have hceq : c = Char.ofNat (48 + n % 10) := by simpa using hc
      rw [hceq, digit_toNat]
      have : n % 10 < 10 := Nat.mod_lt _ (by omega)
      omega
    · rw [if_neg hn] at hc
      rcases List.mem_append.mp hc with hc | hc
      · exact ih (n / 10) (by omega) c hc
      · have hceq : c = Char.ofNat (48 + n % 10) := by simpa using hc
        rw [hceq, digit_toNat]
        have : n % 10 < 10 := Nat.mod_lt _ (by omega)
        omega

theorem not_rbracket_natToChars (n : Nat) : ']' ∉ natToChars n := by
  intro h
  have hd := natToChars_digits n ']' h
  have h93 : (']' : Char).toNat = 93 := rfl
  omega

theorem split_at_rbracket : ∀ (d1 : Str), ∀ (d2 r1 r2 : Str), ']' ∉ d1 → ']' ∉ d2 →
    d1 ++ ']' :: r1 = d2 ++ ']' :: r2 → d1 = d2 ∧ r1 = r2 := by
  intro d1
  induction d1 with
  | nil =>
    intro d2 r1 r2 _ h2 heq
    cases d2 with
    | nil => simpa using heq
    | cons c t =>
      exfalso
      simp only [List.nil_append, List.cons_append, List.cons.injEq] at heq
      apply h2
      rw [← heq.1]
      exact List.mem_cons_self _ _
  | cons c1 t1 ih =>
    intro d2 r1 r2 h1 h2 heq
    cases d2 with
    | nil =>
      exfalso
      simp only [List.cons_append, List.nil_append, List.cons.injEq] at heq
      apply h1
      rw [heq.1]
      exact List.mem_cons_self _ _
    | cons c2 t2 =>
      simp only [List.cons_append, List.cons.injEq] at heq
      obtain ⟨hc, ht⟩ := heq
      have h1m : ']' ∉ t1 := fun hm => h1 (List.mem_cons_of_mem _ hm)
      have h2m : ']' ∉ t2 := fun hm => h2 (List.mem_cons_of_mem _ hm)
      obtain ⟨hd, hr⟩ := ih t2 r1 r2 h1m h2m ht
      exact ⟨by rw [hc, hd], hr⟩

def segOK (r : Str) : Prop :=
  r = [] ∨ (∃ t, r = '.' :: t) ∨ (∃ t, r = '[' :: t)

theorem seg_core : ∀ (k1 k2 r1 r2 : Str),
    k1.length ≤ k2.length → '.' ∉ k2 → '[' ∉ k2 → segOK r1 →
    k1 ++ r1 = k2 ++ r2 → k1 = k2 := by
  intro k1 k2 r1 r2 hlen hd2 hb2 hseg heq
  have hpre : k1 = List.take k1.length k2 := by
    have h1 : List.take k1.length (k1 ++ r1) = k1 := by rw [List.take_left]
    rw [heq] at h1
    conv_lhs => rw [← h1]
    rw [List.take_append_of_le_length hlen]
  have hk2 : k2 = k1 ++ List.drop k1.length k2 := by
    conv_lhs => rw [← List.take_append_drop k1.length k2]
    rw [← hpre]
  cases hdr : List.drop k1.length k2 with
  | nil =>
    rw [hdr] at hk2
    simpa using hk2.symm
  | cons c t =>
    exfalso
    rw [hdr] at hk2
    rw [hk2, List.append_assoc] at heq
    have hr1 : r1 = (c :: t) ++ r2 := List.append_cancel_left heq
    have hcmem : c ∈ k2 := by
      rw [hk2]
      exact List.mem_append_right _ (List.mem_cons_self _ _)
    rcases hseg with h | ⟨t1, h⟩ | ⟨t1, h⟩
    · rw [h] at hr1
      simp at hr1
    · rw [h] at hr1
      simp only [List.cons_append, List.cons.injEq] at hr1
      exact hd2 (hr1.1 ▸ hcmem)
    · rw [h] at hr1
      simp only [List.cons_append, List.cons.injEq] at hr1
      exact hb2 (hr1.1 ▸ hcmem)

theorem seg_neq {k1 k2 r1 r2 : Str}
    (g1d : '.' ∉ k1) (g1b : '[' ∉ k1) (g2d : '.' ∉ k2) (g2b : '[' ∉ k2)
    (hs1 : segOK r1) (hs2 : segOK r2)
    (heq : k1 ++ r1 = k2 ++ r2) : k1 = k2 := by
  rcases Nat.le_total k1.length k2.length with h | h
  · exact seg_core k1 k2 r1 r2 h g2d g2b hs1 heq
  · exact (seg_core k2 k1 r2 r1 h g1d g1b hs2 heq.symm).symm

def goodKey (k : Str) : Bool :=
  decide (k ≠ []) && decide ('.' ∉ k) && decide ('[' ∉ k)

theorem goodKey_iff {k : Str} :
    goodKey k = true ↔ k ≠ [] ∧ '.' ∉ k ∧ '[' ∉ k := by
  unfold goodKey
  simp [and_assoc]

theorem extKey_ne_nil {p k : Str} (h : goodKey k = true) : extKey p k ≠ [] := by
  obtain ⟨hne, _, _⟩ := goodKey_iff.mp h
  unfold extKey
  by_cases hp : p = []
  · rw [if_pos hp]
    exact hne
  · rw [if_neg hp]
    simp

theorem extIdx_ne_nil (p : Str) (idx : Nat) : extIdx p idx ≠ [] := by
  unfold extIdx
  simp

theorem extKey_collision {p k1 k2 r1 r2 : Str}
    (g1 : goodKey k1 = true) (g2 : goodKey k2 = true)
    (hs1 : segOK r1) (hs2 : segOK r2)
    (heq : extKey p k1 ++ r1 = extKey p k2 ++ r2) : k1 = k2 ∧ r1 = r2 := by
  obtain ⟨_, g1d, g1b⟩ := goodKey_iff.mp g1
  obtain ⟨_, g2d, g2b⟩ := goodKey_iff.mp g2
  unfold extKey at heq
  by_cases hp : p = []
  · rw [if_pos hp, if_pos hp] at heq
    have hk := seg_neq g1d g1b g2d g2b hs1 hs2 heq
    refine ⟨hk, ?_⟩
    rw [hk] at heq
    exact List.append_cancel_left heq
  · rw [if_neg hp, if_neg hp, List.append_assoc, List.append_assoc] at heq
    have heq2 := List.append_cancel_left heq
    simp only [List.cons_append, List.cons.injEq, true_and] at heq2
    have hk := seg_neq g1d g1b g2d g2b hs1 hs2 heq2
    refine ⟨hk, ?_⟩
    rw [hk] at heq2
    exact List.append_cancel_left heq2

theorem extIdx_collision {p : Str} {i j : Nat} {r1 r2 : Str}
    (heq : extIdx p i ++ r1 = extIdx p j ++ r2) : i = j ∧ r1 = r2 := by
  unfold extIdx at heq
  simp only [List.append_assoc, List.cons_append, List.nil_append] at heq
  have h2 := List.append_cancel_left heq
  simp only [List.cons.injEq, true_and] at h2
  obtain ⟨hd, hr⟩ := split_at_rbracket (natToChars i) (natToChars j) r1 r2
    (not_rbracket_natToChars i) (not_rbracket_natToChars j) h2
  exact ⟨natToChars_inj hd, hr⟩

mutual

def pathsF : Nat → JValue → Str → List Str
  | 0, _, _ => []
  | fuel + 1, .obj fields, path => pathsFieldsF fuel fields path
  | fuel + 1, .arr items, path => pathsItemsF fuel items path 0
  | _ + 1, _, path => [path]

def pathsFieldsF : Nat → List (Str × JValue) → Str → List Str
  | 0, _, _ => []
  | _ + 1, [], _ => []
  | fuel + 1, (k, v) :: rest, path =>
    pathsF fuel v (extKey path k) ++ pathsFieldsF fuel rest path

def pathsItemsF : Nat → List JValue → Str → Nat → List Str
  | 0, _, _, _ => []
  | _ + 1, [], _, _ => []
  | fuel + 1, v :: rest, path, idx =>
    pathsF fuel v (extIdx path idx) ++ pathsItemsF fuel rest path (idx + 1)

end

mutual

def goodF : Nat → JValue → Bool
  | 0, _ => false
  | fuel + 1, .obj fields => goodFieldsF fuel fields
  | fuel + 1, .arr items => goodItemsF fuel items
  | _ + 1, _ => true

def goodFieldsF : Nat → List (Str × JValue) → Bool
  | 0, _ => false
  | _ + 1, [] => true
  | fuel + 1, (k, v) :: rest =>
    goodKey k && decide (k ∉ rest.map Prod.fst) && goodF fuel v && goodFieldsF fuel rest

def goodItemsF : Nat → List JValue → Bool
  | 0, _ => false
  | _ + 1, [] => true
  | fuel + 1, v :: rest => goodF fuel v && goodItemsF fuel rest

end

theorem paths_congr : ∀ f1 : Nat,
    (∀ f2 v path, sizeOf v ≤ f1 → sizeOf v ≤ f2 → pathsF f1 v path = pathsF f2 v path) ∧
    (∀ f2 fields path, sizeOf fields ≤ f1 → sizeOf fields ≤ f2 →
      pathsFieldsF f1 fields path = pathsFieldsF f2 fields path) ∧
    (∀ f2 items path idx, sizeOf items ≤ f1 → sizeOf items ≤ f2 →
      pathsItemsF f1 items path idx = pathsItemsF f2 items path idx) := by
  intro f1
  induction f1 with
  | zero =>
    refine ⟨?_, ?_, ?_⟩
    · intro f2 v _ h1 _
      exact absurd h1 (by have := one_le_sizeOf_jvalue v; omega)
    · intro f2 fields _ h1 _
      exact absurd h1 (by have := one_le_sizeOf_list fields; omega)
    · intro f2 items _ _ h1 _
      exact absurd h1 (by have := one_le_sizeOf_list items; omega)
  | succ f1 ih =>
    refine ⟨?_, ?_, ?_⟩
    · intro f2 v path h1 h2
      cases f2 with
      | zero => exact absurd h2 (by have := one_le_sizeOf_jvalue v; omega)
      | succ f2 =>
        cases v with
        | obj fs =>
          have hfs := sizeOf_obj fs
          simp only [pathsF]
          rw [ih.2.1 f2 fs path (by omega) (by omega)]
        | arr xs =>
          have hxs := sizeOf_arr xs
          simp only [pathsF]
          rw [ih.2.2 f2 xs path 0 (by omega) (by omega)]
        | str s => rfl
        | num n => rfl
        | bool b => rfl
        | null => rfl
    · intro f2 fields path h1 h2
      cases fields with
      | nil =>
        cases f2 with
        | zero => exact absurd h2 (by have := one_le_sizeOf_list ([] : List (Str × JValue)); omega)
        | succ f2 => rfl
      | cons kv rest =>
        obtain ⟨k, v⟩ := kv
        cases f2 with
        | zero => exact absurd h2 (by have := one_le_sizeOf_list ((k, v) :: rest); omega)
        | succ f2 =>
          rw [sizeOf_fields_cons] at h1 h2
          have hrest := one_le_sizeOf_list rest
          have hv := one_le_sizeOf_jvalue v
          simp only [pathsFieldsF]
          rw [ih.1 f2 v (extKey path k) (by omega) (by omega),
              ih.2.1 f2 rest path (by omega) (by omega)]
    · intro f2 items path idx h1 h2
      cases items with
      | nil =>
        cases f2 with
        | zero => exact absurd h2 (by have := one_le_sizeOf_list ([] : List JValue); omega)
        | succ f2 => rfl
      | cons v rest =>
        cases f2 with
        | zero => exact absurd h2 (by have := one_le_sizeOf_list (v :: rest); omega)
        | succ f2 =>
          simp only [List.cons.sizeOf_spec] at h1 h2
          have hrest := one_le_sizeOf_list rest
          have hv := one_le_sizeOf_jvalue v
          simp only [pathsItemsF]
          rw [ih.1 f2 v (extIdx path idx) (by omega) (by omega),
              ih.2.2 f2 rest path (idx + 1) (by omega) (by omega)]

theorem good_congr : ∀ f1 : Nat,
    (∀ f2 v, sizeOf v ≤ f1 → sizeOf v ≤ f2 → goodF f1 v = goodF f2 v) ∧
    (∀ f2 fields, sizeOf fields ≤ f1 → sizeOf fields ≤ f2 →
      goodFieldsF f1 fields = goodFieldsF f2 fields) ∧
    (∀ f2 items, sizeOf items ≤ f1 → sizeOf items ≤ f2 →
      goodItemsF f1 items = goodItemsF f2 items) := by
  intro f1
  induction f1 with
  | zero =>
    refine ⟨?_, ?_, ?_⟩
    · intro f2 v h1 _
      exact absurd h1 (by have := one_le_sizeOf_jvalue v; omega)
    · intro f2 fields h1 _
      exact absurd h1 (by have := one_le_sizeOf_list fields; omega)
    · intro f2 items h1 _
      exact absurd h1 (by have := one_le_sizeOf_list items; omega)
  | succ f1 ih =>
    refine ⟨?_, ?_, ?_⟩
    · intro f2 v h1 h2
      cases f2 with
      | zero => exact absurd h2 (by have := one_le_sizeOf_jvalue v; omega)
      | succ f2 =>
        cases v with
        | obj fs =>
          have hfs := sizeOf_obj fs
          simp only [goodF]
          rw [ih.2.1 f2 fs (by omega) (by omega)]
        | arr xs =>
          have hxs := sizeOf_arr xs
          simp only [goodF]
          rw [ih.2.2 f2 xs (by omega) (by omega)]
        | str s => rfl
        | num n => rfl
        | bool b => rfl
        | null => rfl
    · intro f2 fields h1 h2
      cases fields with
      | nil =>
        cases f2 with
        | zero => exact absurd h2 (by have := one_le_sizeOf_list ([] : List (Str × JValue)); omega)
        | succ f2 => rfl
      | cons kv rest =>
        obtain ⟨k, v⟩ := kv
        cases f2 with
        | zero => exact absurd h2 (by have := one_le_sizeOf_list ((k, v) :: rest); omega)
        | succ f2 =>
          rw [sizeOf_fields_cons] at h1 h2
          have hrest := one_le_sizeOf_list rest
          have hv := one_le_sizeOf_jvalue v
          simp only [goodFieldsF]
          rw [ih.1 f2 v (by omega) (by omega), ih.2.1 f2 rest (by omega) (by omega)]
    · intro f2 items h1 h2
      cases items with
      | nil =>
        cases f2 with
        | zero => exact absurd h2 (by have := one_le_sizeOf_list ([] : List JValue); omega)
        | succ f2 => rfl
      | cons v rest =>
        cases f2 with
        | zero => exact absurd h2 (by have := one_le_sizeOf_list (v :: rest); omega)
        | succ f2 =>
          simp only [List.cons.sizeOf_spec] at h1 h2
          have hrest := one_le_sizeOf_list rest
          have hv := one_le_sizeOf_jvalue v
          simp only [goodItemsF]
          rw [ih.1 f2 v (by omega) (by omega), ih.2.2 f2 rest (by omega) (by omega)]

def paths (v : JValue) (path : Str) : List Str := pathsF (sizeOf v) v path

def pathsFields (fields : List (Str × JValue)) (path : Str) : List Str :=
  pathsFieldsF (sizeOf fields) fields path

def pathsItems (items : List JValue) (path : Str) (idx : Nat) : List Str :=
  pathsItemsF (sizeOf items) items path idx

def goodVal (v : JValue) : Bool := goodF (sizeOf v) v

def goodFields (fields : List (Str × JValue)) : Bool := goodFieldsF (sizeOf fields) fields

def goodItems (items : List JValue) : Bool := goodItemsF (sizeOf items) items

theorem pathsF_suff {fuel : Nat} {v : JValue} {path : Str} (h : sizeOf v ≤ fuel) :
    pathsF fuel v path = paths v path :=
  (paths_congr fuel).1 (sizeOf v) v path h (le_refl _)

theorem pathsFieldsF_suff {fuel : Nat} {fields : List (Str × JValue)} {path : Str}
    (h : sizeOf fields ≤ fuel) : pathsFieldsF fuel fields path = pathsFields fields path :=
  (paths_congr fuel).2.1 (sizeOf fields) fields path h (le_refl _)

theorem pathsItemsF_suff {fuel : Nat} {items : List JValue} {path : Str} {idx : Nat}
    (h : sizeOf items ≤ fuel) : pathsItemsF fuel items path idx = pathsItems items path idx :=
  (paths_congr fuel).2.2 (sizeOf items) items path idx h (le_refl _)

theorem goodF_suff {fuel : Nat} {v : JValue} (h : sizeOf v ≤ fuel) :
    goodF fuel v = goodVal v :=
  (good_congr fuel).1 (sizeOf v) v h (le_refl _)

theorem goodFieldsF_suff {fuel : Nat} {fields : List (Str × JValue)}
    (h : sizeOf fields ≤ fuel) : goodFieldsF fuel fields = goodFields fields :=
  (good_congr fuel).2.1 (sizeOf fields) fields h (le_refl _)

theorem goodItemsF_suff {fuel : Nat} {items : List JValue}
    (h : sizeOf items ≤ fuel) : goodItemsF fuel items = goodItems items :=
  (good_congr fuel).2.2 (sizeOf items) items h (le_refl _)

theorem paths_obj (fields : List (Str × JValue)) (path : Str) :
    paths (.obj fields) path = pathsFields fields path := by
  show pathsF (sizeOf (JValue.obj fields)) (.obj fields) path = _
  rw [sizeOf_obj, Nat.add_comm]
  simp only [pathsF]
  rw [pathsFieldsF_suff (by omega)]

theorem paths_arr (items : List JValue) (path : Str) :
    paths (.arr items) path = pathsItems items path 0 := by
  show pathsF (sizeOf (JValue.arr items)) (.arr items) path = _
  rw [sizeOf_arr, Nat.add_comm]
  simp only [pathsF]
  rw [pathsItemsF_suff (by omega)]

theorem paths_str (s path : Str) : paths (.str s) path = [path] := by
  show pathsF (sizeOf (JValue.str s)) (.str s) path = _
  have h : sizeOf (JValue.str s) = sizeOf s + 1 := by simp; omega
  rw [h]
  simp only [pathsF]

theorem pathsFields_nil (path : Str) : pathsFields [] path = [] := rfl

theorem pathsItems_nil (path : Str) (idx : Nat) : pathsItems [] path idx = [] := rfl

theorem pathsFields_cons (k : Str) (v : JValue) (rest : List (Str × JValue)) (path : Str) :
    pathsFields ((k, v) :: rest) path =
      paths v (extKey path k) ++ pathsFields rest path := by
  show pathsFieldsF (sizeOf ((k, v) :: rest)) ((k, v) :: rest) path = _
  rw [sizeOf_fields_cons]
  have hrest := one_le_sizeOf_list rest
  have hv := one_le_sizeOf_jvalue v
  have hstep : 1 + (1 + sizeOf k + sizeOf v) + sizeOf rest =
      (sizeOf k + sizeOf v + sizeOf rest + 1) + 1 := by omega
  rw [hstep]
  simp only [pathsFieldsF]
  rw [pathsF_suff (by omega), pathsFieldsF_suff (by omega)]

theorem pathsItems_cons (v : JValue) (rest : List JValue) (path : Str) (idx : Nat) :
    pathsItems (v :: rest) path idx =
      paths v (extIdx path idx) ++ pathsItems rest path (idx + 1) := by
  show pathsItemsF (sizeOf (v :: rest)) (v :: rest) path idx = _
  have hrest := one_le_sizeOf_list rest
  have hv := one_le_sizeOf_jvalue v
  have hstep : sizeOf (v :: rest) = (sizeOf v + sizeOf rest) + 1 := by
    simp only [List.cons.sizeOf_spec]
    omega
  rw [hstep]
  simp only [pathsItemsF]
  rw [pathsF_suff (by omega), pathsItemsF_suff (by omega)]

theorem goodVal_obj (fields : List (Str × JValue)) :
    goodVal (.obj fields) = goodFields fields := by
  show goodF (sizeOf (JValue.obj fields)) (.obj fields) = _
  rw [sizeOf_obj, Nat.add_comm]
  simp only [goodF]
  rw [goodFieldsF_suff (by omega)]

theorem goodVal_arr (items : List JValue) :
    goodVal (.arr items) = goodItems items := by
  show goodF (sizeOf (JValue.arr items)) (.arr items) = _
  rw [sizeOf_arr, Nat.add_comm]
  simp only [goodF]
  rw [goodItemsF_suff (by omega)]

theorem goodFields_cons (k : Str) (v : JValue) (rest : List (Str × JValue)) :
    goodFields ((k, v) :: rest) =
      (goodKey k && decide (k ∉ rest.map Prod.fst) && goodVal v && goodFields rest) := by
  show goodFieldsF (sizeOf ((k, v) :: rest)) ((k, v) :: rest) = _
  rw [sizeOf_fields_cons]
  have hrest := one_le_sizeOf_list rest
  have hv := one_le_sizeOf_jvalue v
  have hstep : 1 + (1 + sizeOf k + sizeOf v) + sizeOf rest =
      (sizeOf k + sizeOf v + sizeOf rest + 1) + 1 := by omega
  rw [hstep]
  simp only [goodFieldsF]
  rw [goodF_suff (by omega), goodFieldsF_suff (by omega)]

theorem goodItems_cons (v : JValue) (rest : List JValue) :
    goodItems (v :: rest) = (goodVal v && goodItems rest) := by
  show goodItemsF (sizeOf (v :: rest)) (v :: rest) = _
  have hrest := one_le_sizeOf_list rest
  have hv := one_le_sizeOf_jvalue v
  have hstep : sizeOf (v :: rest) = (sizeOf v + sizeOf rest) + 1 := by
    simp only [List.cons.sizeOf_spec]
    omega
  rw [hstep]
  simp only [goodItemsF]
  rw [goodF_suff (by omega), goodItemsF_suff (by omega)]

theorem paths_num (n1 : Int) (path : Str) : paths (.num n1) path = [path] := by
  show pathsF (sizeOf (JValue.num n1)) (.num n1) path = _
  have h : sizeOf (JValue.num n1) = sizeOf n1 + 1 := by simp; omega
  rw [h]
  simp only [pathsF]

theorem paths_bool (b : Bool) (path : Str) : paths (.bool b) path = [path] := by
  show pathsF (sizeOf (JValue.bool b)) (.bool b) path = _
  have h : sizeOf (JValue.bool b) = sizeOf b + 1 := by simp
  rw [h]
  simp only [pathsF]

theorem paths_null (path : Str) : paths .null path = [path] := by
  show pathsF (sizeOf JValue.null) .null path = _
  have h : sizeOf JValue.null = 0 + 1 := by simp
  rw [h]
  simp only [pathsF]

theorem paths_inj_aux : ∀ n : Nat,
    (∀ v p, sizeOf v ≤ n → goodVal v = true →
      (paths v p).Nodup ∧
      (p ≠ [] → ∀ q ∈ paths v p, ∃ r, q = p ++ r ∧ segOK r)) ∧
    (∀ fields p, sizeOf fields ≤ n → goodFields fields = true →
      (pathsFields fields p).Nodup ∧
      (∀ q ∈ pathsFields fields p, ∃ k r, k ∈ fields.map Prod.fst ∧
        goodKey k = true ∧ q = extKey p k ++ r ∧ segOK r)) ∧
    (∀ items p idx, sizeOf items ≤ n → goodItems items = true →
      (pathsItems items p idx).Nodup ∧
      (∀ q ∈ pathsItems items p idx, ∃ j r, idx ≤ j ∧ q = extIdx p j ++ r ∧ segOK r)) := by
  intro n
  induction n with
  | zero =>
    refine ⟨?_, ?_, ?_⟩
    · intro v _ h1 _
      exact absurd h1 (by have := one_le_sizeOf_jvalue v; omega)
    · intro fields _ h1 _
      exact absurd h1 (by have := one_le_sizeOf_list fields; omega)
    · intro items _ _ h1 _
      exact absurd h1 (by have := one_le_sizeOf_list items; omega)
  | succ n ih =>
    obtain ⟨ihV, ihF, ihI⟩ := ih
    refine ⟨?_, ?_, ?_⟩
    · intro v p h hg
      cases v with
      | obj fs =>
        rw [sizeOf_obj] at h
        rw [goodVal_obj] at hg
        rw [paths_obj]
        obtain ⟨nd, char⟩ := ihF fs p (by omega) hg
        refine ⟨nd, ?_⟩
        intro hp q hq
        obtain ⟨k, r, _, _, hqe, _⟩ := char q hq
        refine ⟨'.' :: (k ++ r), ?_, Or.inr (Or.inl ⟨k ++ r, rfl⟩)⟩
        rw [hqe]
        unfold extKey
        rw [if_neg hp]
        simp [List.append_assoc]
      | arr xs =>
        rw [sizeOf_arr] at h
        rw [goodVal_arr] at hg
        rw [paths_arr]
        obtain ⟨nd, char⟩ := ihI xs p 0 (by omega) hg
        refine ⟨nd, ?_⟩
        intro _ q hq
        obtain ⟨j, r, _, hqe, _⟩ := char q hq
        refine ⟨'[' :: (natToChars j ++ ']' :: r), ?_, Or.inr (Or.inr ⟨_, rfl⟩)⟩
        rw [hqe]
        unfold extIdx
        simp [List.append_assoc]
      | str s =>
        rw [paths_str]
        refine ⟨by simp, ?_⟩
        intro _ q hq
        have hqp : q = p := by simpa using hq
        exact ⟨[], by simp [hqp], Or.inl rfl⟩
      | num n1 =>
        rw [paths_num]
        refine ⟨by simp, ?_⟩
        intro _ q hq
        have hqp : q = p := by simpa using hq
        exact ⟨[], by simp [hqp], Or.inl rfl⟩
      | bool b =>
        rw [paths_bool]
        refine ⟨by simp, ?_⟩
        intro _ q hq
        have hqp : q = p := by simpa using hq
        exact ⟨[], by simp [hqp], Or.inl rfl⟩
      | null =>
        rw [paths_null]
        refine ⟨by simp, ?_⟩
        intro _ q hq
        have hqp : q = p := by simpa using hq
        exact ⟨[], by simp [hqp], Or.inl rfl⟩
    · intro fields p h hg
      cases fields with
      | nil =>
        rw [pathsFields_nil]
        refine ⟨List.nodup_nil, ?_⟩
        intro q hq
        simp at hq
      | cons kv rest =>
        obtain ⟨k, v⟩ := kv
        rw [sizeOf_fields_cons] at h
        have hrest := one_le_sizeOf_list rest
        have hv := one_le_sizeOf_jvalue v
        rw [goodFields_cons] at hg
        simp only [Bool.and_eq_true, decide_eq_true_eq] at hg
        obtain ⟨⟨⟨hgk, hknotin⟩, hgv⟩, hgrest⟩ := hg
        rw [pathsFields_cons]
        obtain ⟨ndv, charv⟩ := ihV v (extKey p k) (by omega) hgv
        obtain ⟨ndr, charr⟩ := ihF rest p (by omega) hgrest
        have charv2 := charv (extKey_ne_nil hgk)
        have hdisj : (paths v (extKey p k)).Disjoint (pathsFields rest p) := by
          intro q hq1 hq2
          obtain ⟨r1, hqe1, hs1⟩ := charv2 q hq1
          obtain ⟨k2, r2, hk2mem, hgk2, hqe2, hs2⟩ := charr q hq2
          obtain ⟨hkk, _⟩ := extKey_collision hgk hgk2 hs1 hs2 (hqe1.symm.trans hqe2)
          exact hknotin (hkk ▸ hk2mem)
        refine ⟨List.Nodup.append ndv ndr hdisj, ?_⟩
        intro q hq
        rcases List.mem_append.mp hq with hq | hq
        · obtain ⟨r1, hqe1, hs1⟩ := charv2 q hq
          exact ⟨k, r1, by rw [List.map_cons]; exact List.mem_cons_self _ _, hgk, hqe1, hs1⟩
        · obtain ⟨k2, r2, hk2mem, hgk2, hqe2, hs2⟩ := charr q hq
          exact ⟨k2, r2, by rw [List.map_cons]; exact List.mem_cons_of_mem _ hk2mem, hgk2,
            hqe2, hs2⟩
    · intro items p idx h hg
      cases items with
      | nil =>
        rw [pathsItems_nil]
        refine ⟨List.nodup_nil, ?_⟩
        intro q hq
        simp at hq
      | cons v rest =>
        simp only [List.cons.sizeOf_spec] at h
        have hrest := one_le_sizeOf_list rest
        have hv := one_le_sizeOf_jvalue v
        rw [goodItems_cons] at hg
        simp only [Bool.and_eq_true] at hg
        obtain ⟨hgv, hgrest⟩ := hg
        rw [pathsItems_cons]
        obtain ⟨ndv, charv⟩ := ihV v (extIdx p idx) (by omega) hgv
        obtain ⟨ndr, charr⟩ := ihI rest p (idx + 1) (by omega) hgrest
        have charv2 := charv (extIdx_ne_nil p idx)
        have hdisj : (paths v (extIdx p idx)).Disjoint (pathsItems rest p (idx + 1)) := by
          intro q hq1 hq2
          obtain ⟨r1, hqe1, hs1⟩ := charv2 q hq1
          obtain ⟨j, r2, hj, hqe2, hs2⟩ := charr q hq2
          obtain ⟨hij, _⟩ := extIdx_collision (hqe1.symm.trans hqe2)
          omega
        refine ⟨List.Nodup.append ndv ndr hdisj, ?_⟩
        intro q hq
        rcases List.mem_append.mp hq with hq | hq
        · obtain ⟨r1, hqe1, hs1⟩ := charv2 q hq
          exact ⟨idx, r1, le_refl _, hqe1, hs1⟩
        · obtain ⟨j, r2, hj, hqe2, hs2⟩ := charr q hq
          exact ⟨j, r2, by omega, hqe2, hs2⟩

/-- C7 counterexample: in the tree `{"a": {"b": 1}, "a.b": 2}` the scalar
under key `"b"` of the object at key `"a"` and the scalar at top-level key
`"a.b"` are distinct positions, yet both get the Field Path `"a.b"` — the
label list has a duplicate. -/
theorem C7_counterexample :
    ¬ (pathsFields [("a".toList, JValue.obj [("b".toList, JValue.num 1)]),
        ("a.b".toList, JValue.num 2)] []).Nodup := by decide

/-- C7 (amended): Field Paths are injective for every tree whose keys are
all non-empty, free of the separator characters `.` and `[`, and
duplicate-free within each mapping (`goodFields`) — Python dicts guarantee
the last condition, but keys containing `.` or `[` make distinct positions
collide, see `C7_counterexample`.  Under `goodFields`, the list of Field
Paths of all scalar positions has no duplicate. -/
theorem C7_amended (data : List (Str × JValue)) (h : goodFields data = true) :
    (pathsFields data []).Nodup :=
  ((paths_inj_aux (sizeOf data)).2.1 data [] (le_refl _) h).1

/-- Witness for C7_amended at a concrete two-level tree with an object and
an array. -/
theorem C7_amended_witness :
    goodFields [("a".toList, JValue.obj [("b".toList, JValue.num 1)]),
      ("c".toList, JValue.arr [JValue.num 2, JValue.obj [("d".toList, JValue.num 3)]])] =
        true ∧
    (pathsFields [("a".toList, JValue.obj [("b".toList, JValue.num 1)]),
      ("c".toList, JValue.arr [JValue.num 2, JValue.obj [("d".toList, JValue.num 3)]])]
        []).Nodup :=
  ⟨by decide, C7_amended [("a".toList, JValue.obj [("b".toList, JValue.num 1)]),
    ("c".toList, JValue.arr [JValue.num 2, JValue.obj [("d".toList, JValue.num 3)]])]
    (by decide)⟩

/-! ## Claim C1: idempotence of the engine

The second run of `re.sub` leaves a replaced string unchanged because at
every suffix of the output either no rule matches, or the rule matches
with a credential segment that is exactly `PLACEHOLDER`, reproducing the
text it consumes. -/

theorem split_common {x y z w : Str} (h : x ++ y = z ++ w) (hl : x.length ≤ z.length) :
    ∃ d, z = x ++ d ∧ y = d ++ w := by
  have hx : x = List.take x.length z := by
    have h1 : List.take x.length (x ++ y) = x := by rw [List.take_left]
    rw [h] at h1
    conv_lhs => rw [← h1]
    rw [List.take_append_of_le_length hl]
  have hz : z = x ++ List.drop x.length z := by
    conv_lhs => rw [← List.take_append_drop x.length z]
    rw [← hx]
  refine ⟨List.drop x.length z, hz, ?_⟩
  rw [hz, List.append_assoc] at h
  exact List.append_cancel_left h

theorem suffix_append_split {u a b : Str} (h : u <:+ a ++ b) :
    u <:+ b ∨ ∃ w, w <:+ a ∧ w ≠ [] ∧ u = w ++ b := by
  obtain ⟨t, ht⟩ := h
  rcases le_or_lt a.length t.length with hl | hl
  · left
    obtain ⟨d, _, hy⟩ := split_common ht.symm hl
    exact ⟨d, hy.symm⟩
  · right
    obtain ⟨d, hz, hy⟩ := split_common ht (by omega)
    refine ⟨d, ⟨t, hz.symm⟩, ?_, hy⟩
    intro hd
    rw [hd] at hz
    have := congrArg List.length hz
    simp at this
    omega

theorem getLast_suffix_eq {s y : Str} (hs : s ≠ []) (h : s <:+ y) :
    y.getLast? = s.getLast? := by
  obtain ⟨t, ht⟩ := h
  rw [← ht, List.getLast?_append]
  cases hl : s.getLast? with
  | none =>
    exfalso
    apply hs
    cases s with
    | nil => rfl
    | cons c t2 => simp [List.getLast?_eq_getLast] at hl
  | some c => rfl

theorem takeWhile_pos {p : Char → Bool} {c : Char} {t : Str} (h : p c = true) :
    (c :: t).takeWhile p = c :: t.takeWhile p := by
  simp [List.takeWhile, h]

theorem dropWhile_pos {p : Char → Bool} {c : Char} {t : Str} (h : p c = true) :
    (c :: t).dropWhile p = t.dropWhile p := by
  simp [List.dropWhile, h]

theorem takeWhile_neg {p : Char → Bool} {c : Char} {t : Str} (h : p c = false) :
    (c :: t).takeWhile p = [] := by
  simp [List.takeWhile, h]

theorem dropWhile_neg {p : Char → Bool} {c : Char} {t : Str} (h : p c = false) :
    (c :: t).dropWhile p = c :: t := by
  simp [List.dropWhile, h]

theorem takeWhile_all_append {p : Char → Bool} {x y : Str}
    (hx : ∀ c ∈ x, p c = true) :
    (x ++ y).takeWhile p = x ++ y.takeWhile p ∧
    (x ++ y).dropWhile p = y.dropWhile p := by
  induction x with
  | nil => simp
  | cons c t ih =>
    have hc := hx c (by simp)
    have ih2 := ih (fun d hd => hx d (by simp [hd]))
    constructor
    · rw [List.cons_append, takeWhile_pos hc, ih2.1, List.cons_append]
    · rw [List.cons_append, dropWhile_pos hc, ih2.2]

theorem dropWhile_shape (p : Char → Bool) : ∀ l : Str,
    l.dropWhile p = [] ∨ ∃ c t, l.dropWhile p = c :: t ∧ p c = false := by
  intro l
  induction l with
  | nil => left; rfl
  | cons c t ih =>
    by_cases h : p c = true
    · rw [dropWhile_pos h]
      exact ih
    · right
      exact ⟨c, t, dropWhile_neg (by simpa using h), by simpa using h⟩

theorem dropWhile_stop {p : Char → Bool} {y : Str}
    (hy : y = [] ∨ ∃ c t, y = c :: t ∧ p c = false) :
    y.takeWhile p = [] ∧ y.dropWhile p = y := by
  rcases hy with hy | ⟨c, t, hy, hc⟩ <;> subst hy
  · exact ⟨rfl, rfl⟩
  · exact ⟨takeWhile_neg hc, dropWhile_neg hc⟩

def OKof (tryM : Str → Option (Str × Str)) (u : Str) : Prop :=
  tryM u = none ∨ ∃ r X, tryM u = some (r, X) ∧ u = r ++ X

def GoodOf (tryM : Str → Option (Str × Str)) (s : Str) : Prop :=
  ∀ u, u <:+ s → OKof tryM u

theorem GoodOf_suffix {tryM} {s u : Str} (h : GoodOf tryM s) (hu : u <:+ s) :
    GoodOf tryM u := fun w hw => h w (hw.trans hu)

theorem scanSub_fix {tryM} (hs : Shrinks tryM)
    (hrest : ∀ s r X, tryM s = some (r, X) → X <:+ s) :
    ∀ n s, s.length ≤ n → GoodOf tryM s → scanSub tryM s = s := by
  intro n
  induction n with
  | zero =>
    intro s hl _
    have hnil : s = [] := List.length_eq_zero.mp (by omega)
    subst hnil
    rfl
  | succ n ih =>
    intro s hl hg
    rw [scanSub_eq hs]
    cases h : tryM s with
    | some rX =>
      obtain ⟨r, X⟩ := rX
      dsimp only
      rcases hg s List.suffix_rfl with hnone | ⟨r2, X2, hsome, hdec⟩
      · rw [h] at hnone
        exact absurd hnone (by simp)
      · rw [h] at hsome
        have hp := Option.some.inj hsome
        have hr : r = r2 := congrArg Prod.fst hp
        have hX : X = X2 := congrArg Prod.snd hp
        have hXs : X <:+ s := hrest s r X h
        have hlt := hs s r X h
        rw [ih X (by omega) (GoodOf_suffix hg hXs), hdec, ← hr, ← hX]
    | none =>
      cases s with
      | nil => rfl
      | cons c t =>
        dsimp only
        have hts : t <:+ c :: t := ⟨[c], rfl⟩
        simp only [List.length_cons] at hl
        rw [ih t (by omega) (GoodOf_suffix hg hts)]

theorem scanSub_copy {tryM} (hs : Shrinks tryM) :
    ∀ w z, (∀ w2, w2 <:+ w → w2 ≠ [] → tryM (w2 ++ z) = none) →
      scanSub tryM (w ++ z) = w ++ scanSub tryM z := by
  intro w
  induction w with
  | nil => intro z _; simp
  | cons c t ih =>
    intro z hn
    rw [List.cons_append, scanSub_eq hs]
    have h0 : tryM (c :: (t ++ z)) = none := by
      have := hn (c :: t) List.suffix_rfl (by simp)
      rwa [List.cons_append] at this
    rw [h0]
    dsimp only
    rw [ih z (fun w2 hw hne => hn w2 (hw.trans ⟨[c], rfl⟩) hne), List.cons_append]

theorem try1R_rest_suffix : ∀ s r X, try1R s = some (r, X) → X <:+ s := by
  intro s r X h
  unfold try1R at h
  cases h1 : try1 s with
  | none => rw [h1] at h; simp at h
  | some p =>
    obtain ⟨g, rest⟩ := p
    rw [h1] at h
    simp only [Option.map_some'] at h
    have hX : rest = X := congrArg Prod.snd (Option.some.inj h)
    obtain ⟨after, _, hsdec, _, hrest⟩ := try1_eq h1
    rw [← hX, hrest]
    exact (List.dropWhile_suffix cred1Char).trans (hsdec ▸ ⟨g, rfl⟩)

theorem try2R_rest_suffix : ∀ s r X, try2R s = some (r, X) → X <:+ s := by
  intro s r X h
  unfold try2R at h
  cases h1 : try2 s with
  | none => rw [h1] at h; simp at h
  | some p =>
    obtain ⟨g, rest⟩ := p
    rw [h1] at h
    simp only [Option.map_some'] at h
    have hX : rest = X := congrArg Prod.snd (Option.some.inj h)
    obtain ⟨sch, m, cr, _, hsdec, _, _, _, _⟩ := try2_eq h1
    rw [← hX]
    refine ⟨sch ++ m ++ cr, ?_⟩
    rw [hsdec]
    simp [List.append_assoc]

theorem sub1_decomp : ∀ n s, s.length ≤ n → sub1 s = s ∨
    ∃ a g after, s = a ++ (g ++ after) ∧ g ∈ schemeList ∧
      after.takeWhile cred1Char ≠ [] ∧
      sub1 s = a ++ (g ++ PLACEHOLDER ++ sub1 (after.dropWhile cred1Char)) := by
  intro n
  induction n with
  | zero =>
    intro s hl
    have hnil : s = [] := List.length_eq_zero.mp (by omega)
    subst hnil
    left
    rfl
  | succ n ih =>
    intro s hl
    rw [sub1_eq]
    cases h : try1 s with
    | some p =>
      obtain ⟨g, rest⟩ := p
      dsimp only
      obtain ⟨after, hmem, hsdec, hne, hrest⟩ := try1_eq h
      right
      refine ⟨[], g, after, by simpa using hsdec, hmem, hne, ?_⟩
      rw [← hrest]
      simp
    | none =>
      cases s with
      | nil => left; rfl
      | cons c t =>
        dsimp only
        simp only [List.length_cons] at hl
        rcases ih t (by omega) with ht | ⟨a, g, after, hdec, hmem, hne, hsub⟩
        · left
          rw [ht]
        · right
          refine ⟨c :: a, g, after, by rw [hdec]; rfl, hmem, hne, ?_⟩
          rw [hsub]
          rfl

theorem sub2_decomp : ∀ n s, s.length ≤ n → sub2 s = s ∨
    ∃ a sch m cr X, s = a ++ (sch ++ (m ++ cr ++ X)) ∧
      (sch = "https://".toList ∨ sch = "http://".toList) ∧
      scan2 (m ++ cr ++ X) = some (m, cr, X) ∧
      sub2 s = a ++ ((sch ++ m ++ PLACEHOLDER) ++ sub2 X) := by
  intro n
  induction n with
  | zero =>
    intro s hl
    have hnil : s = [] := List.length_eq_zero.mp (by omega)
    subst hnil
    left
    rfl
  | succ n ih =>
    intro s hl
    rw [sub2_eq]
    cases h : try2 s with
    | some p =>
      obtain ⟨g, rest⟩ := p
      dsimp only
      obtain ⟨sch, m, cr, hsch, hsdec, hg, _, _, hs2⟩ := try2_eq h
      right
      refine ⟨[], sch, m, cr, rest, by simpa using hsdec, hsch, hs2, ?_⟩
      rw [hg]
      simp [List.append_assoc]
    | none =>
      cases s with
      | nil => left; rfl
      | cons c t =>
        dsimp only
        simp only [List.length_cons] at hl
        rcases ih t (by omega) with ht | ⟨a, sch, m, cr, X, hdec, hsch, hs2, hsub⟩
        · left
          rw [ht]
        · right
          refine ⟨c :: a, sch, m, cr, X, by rw [hdec]; rfl, hsch, hs2, ?_⟩
          rw [hsub]
          rfl

theorem dropPfx_head_ne {p c : Char} {ps cs : Str} (h : c ≠ p) :
    dropPfx (p :: ps) (c :: cs) = none := by
  simp [dropPfx, h]

theorem try1_none_head {c : Char} (hp : c ≠ 'p') (hm : c ≠ 'm') (hr : c ≠ 'r')
    (ha : c ≠ 'a') (xs : Str) : try1 (c :: xs) = none := by
  unfold try1
  have h1 : dropPfx "postgres://".toList (c :: xs) = none := by
    rw [show ("postgres://".toList : Str) = 'p' :: "ostgres://".toList from rfl]
    exact dropPfx_head_ne hp
  have h2 : dropPfx "postgresql://".toList (c :: xs) = none := by
    rw [show ("postgresql://".toList : Str) = 'p' :: "ostgresql://".toList from rfl]
    exact dropPfx_head_ne hp
  have h3 : dropPfx "mongodb://".toList (c :: xs) = none := by
    rw [show ("mongodb://".toList : Str) = 'm' :: "ongodb://".toList from rfl]
    exact dropPfx_head_ne hm
  have h4 : dropPfx "mongodb+srv://".toList (c :: xs) = none := by
    rw [show ("mongodb+srv://".toList : Str) = 'm' :: "ongodb+srv://".toList from rfl]
    exact dropPfx_head_ne hm
  have h5 : dropPfx "mysql://".toList (c :: xs) = none := by
    rw [show ("mysql://".toList : Str) = 'm' :: "ysql://".toList from rfl]
    exact dropPfx_head_ne hm
  have h6 : dropPfx "redis://".toList (c :: xs) = none := by
    rw [show ("redis://".toList : Str) = 'r' :: "edis://".toList from rfl]
    exact dropPfx_head_ne hr
  have h7 : dropPfx "amqp://".toList (c :: xs) = none := by
    rw [show ("amqp://".toList : Str) = 'a' :: "mqp://".toList from rfl]
    exact dropPfx_head_ne ha
  have h8 : dropPfx "rabbitmq://".toList (c :: xs) = none := by
    rw [show ("rabbitmq://".toList : Str) = 'r' :: "abbitmq://".toList from rfl]
    exact dropPfx_head_ne hr
  have hf : firstPfx schemeList (c :: xs) = none := by
    simp only [schemeList, firstPfx, h1, h2, h3, h4, h5, h6, h7, h8]
  rw [hf]

theorem try2_none_head {c : Char} (hh : c ≠ 'h') (xs : Str) : try2 (c :: xs) = none := by
  unfold try2
  have h1 : dropPfx "https://".toList (c :: xs) = none := by
    rw [show ("https://".toList : Str) = 'h' :: "ttps://".toList from rfl]
    exact dropPfx_head_ne hh
  have h2 : dropPfx "http://".toList (c :: xs) = none := by
    rw [show ("http://".toList : Str) = 'h' :: "ttp://".toList from rfl]
    exact dropPfx_head_ne hh
  rw [h1]
  dsimp only
  rw [h2]

theorem dropPfx_https_http (z : Str) :
    dropPfx "https://".toList ("http://".toList ++ z) = none := rfl

theorem dropPfx_http_https (z : Str) :
    dropPfx "http://".toList ("https://".toList ++ z) = none := rfl

theorem firstPfx_schemes {g : Str} (hg : g ∈ schemeList) (tail : Str) :
    firstPfx schemeList (g ++ tail) = some (g, tail) := by
  fin_cases hg <;> rfl

theorem firstPfx_names {ne : Str} (hne : ne ∈ nameList) (tail : Str) :
    firstPfx nameList (ne ++ tail) = some (ne, tail) := by
  fin_cases hne <;> rfl

theorem plFacts : ∀ ch ∈ PLACEHOLDER, cred1Char ch = true ∧ cred2Char ch = true ∧
    ch ≠ 'h' ∧ ch ≠ 'p' ∧ ch ≠ 'm' ∧ ch ≠ 'r' ∧ ch ≠ 'a' ∧
    ch ≠ '"' ∧ ch ≠ '?' ∧ ch ≠ '&' ∧ ch ≠ '=' ∧ ch ≠ '/' := by decide

theorem plHead : PLACEHOLDER = 'P' :: "LACEHOLDER".toList := rfl

theorem schemeFacts : ∀ g ∈ schemeList,
    (∀ ch ∈ g, cred1Char ch = true ∧ cred2Char ch = true ∧ ch ≠ 'P' ∧ ch ≠ 'h' ∧
      ch ≠ '"') ∧ g ≠ [] ∧ g.getLast? = some '/' := by decide

theorem nameFacts : ∀ ne ∈ nameList,
    (∀ ch ∈ ne, ch ≠ '"' ∧ ch ≠ '?' ∧ ch ≠ '&' ∧ ch ≠ 'P' ∧ ch ≠ ':' ∧ ch ≠ 'h') ∧
    ne ≠ [] ∧ ne.getLast? = some '=' := by decide

theorem schChars : ∀ sch : Str, (sch = "https://".toList ∨ sch = "http://".toList) →
    (∀ ch ∈ sch, cred1Char ch = true ∧ cred2Char ch = true ∧ ch ≠ 'P' ∧
      ch ≠ '"' ∧ ch ≠ '?' ∧ ch ≠ '&') ∧ sch ≠ [] ∧ 'P' ∉ sch := by
  rintro sch (rfl | rfl) <;> decide

theorem schemeSuffixFree : ∀ g ∈ schemeList, ∀ i ∈ List.range g.length, 1 ≤ i →
    ∀ g1 ∈ schemeList, (g.drop i).take g1.length ≠ g1 := by decide

theorem schemeMutual : ∀ g ∈ schemeList, ∀ g1 ∈ schemeList,
    g.take g1.length = g1 → g1 = g := by decide

theorem schemeNoP : ∀ g ∈ schemeList, 'P' ∉ g := by decide

theorem nameNoP : ∀ ne ∈ nameList, 'P' ∉ ne := by decide

theorem suffix_mem {w y : Str} (h : w <:+ y) : ∀ c ∈ w, c ∈ y := by
  intro c hc
  obtain ⟨t, ht⟩ := h
  rw [← ht]
  exact List.mem_append_right _ hc

theorem scan2_none_drop : ∀ x u, scan2 (x ++ u) = none → '"' ∉ x → scan2 u = none := by
  intro x
  induction x with
  | nil =>
    intro u h _
    simpa using h
  | cons c t ih =>
    intro u h hq
    have hc : c ≠ '"' := fun he => hq (he ▸ List.mem_cons_self _ _)
    rw [List.cons_append] at h
    simp only [scan2, if_neg hc] at h
    cases hs : scan2 (t ++ u) with
    | some mcr =>
      obtain ⟨m, cr, r⟩ := mcr
      rw [hs] at h
      simp at h
    | none => exact ih u hs (fun hm => hq (List.mem_cons_of_mem _ hm))

theorem scan2_none_cat : ∀ x u, (∀ c ∈ x, c ≠ '"' ∧ c ≠ '?' ∧ c ≠ '&') →
    scan2 u = none → scan2 (x ++ u) = none := by
  intro x
  induction x with
  | nil =>
    intro u _ h
    simpa using h
  | cons c t ih =>
    intro u hx hu
    obtain ⟨hq, hqm, ha⟩ := hx c (List.mem_cons_self _ _)
    rw [List.cons_append]
    simp only [scan2, if_neg hq]
    rw [ih u (fun d hd => hx d (List.mem_cons_of_mem _ hd)) hu]
    dsimp only
    rw [if_neg (by simp [hqm, ha])]

theorem scan2_some_struct : ∀ {s m cr r : Str}, scan2 s = some (m, cr, r) →
    ∃ m0 sep ne after, m = m0 ++ (sep :: ne) ∧ (sep = '?' ∨ sep = '&') ∧
      ne ∈ nameList ∧ ('"' ∉ m) ∧ cr = after.takeWhile cred2Char ∧
      r = after.dropWhile cred2Char ∧ scan2 (ne ++ after) = none := by
  intro s
  induction s with
  | nil =>
    intro m cr r h
    simp [scan2] at h
  | cons c t ih =>
    intro m cr r h
    simp only [scan2] at h
    split at h
    · exact absurd h (by simp)
    · next hcq =>
      cases hs : scan2 t with
      | some mcr =>
        obtain ⟨m2, cr2, r2⟩ := mcr
        rw [hs] at h
        dsimp only at h
        have h1 : c :: m2 = m := congrArg Prod.fst (Option.some.inj h)
        have h2 : cr2 = cr := congrArg (Prod.fst ∘ Prod.snd) (Option.some.inj h)
        have h3 : r2 = r := congrArg (Prod.snd ∘ Prod.snd) (Option.some.inj h)
        obtain ⟨m0, sep, ne, after, hm, hsep, hne, hqm, hcr, hr, hnone⟩ := ih hs
        refine ⟨c :: m0, sep, ne, after, ?_, hsep, hne, ?_, h2 ▸ hcr, h3 ▸ hr, hnone⟩
        · rw [← h1, hm]
          rfl
        · rw [← h1]
          intro hmem
          rcases List.mem_cons.mp hmem with he | hmem2
          · exact hcq he.symm
          · exact hqm (hm ▸ hmem2)
      | none =>
        rw [hs] at h
        dsimp only at h
        split at h
        · next hsepb =>
          cases hf : firstPfx nameList t with
          | some na =>
            obtain ⟨ne, after⟩ := na
            rw [hf] at h
            dsimp only at h
            split at h
            · exact absurd h (by simp)
            · next htw =>
              have h1 : c :: ne = m := congrArg Prod.fst (Option.some.inj h)
              have h2 : after.takeWhile cred2Char = cr :=
                congrArg (Prod.fst ∘ Prod.snd) (Option.some.inj h)
              have h3 : after.dropWhile cred2Char = r :=
                congrArg (Prod.snd ∘ Prod.snd) (Option.some.inj h)
              obtain ⟨hmem, hta⟩ := firstPfx_eq hf
              have hsep2 : c = '?' ∨ c = '&' := by
                rcases (Bool.or_eq_true _ _).mp hsepb with hb | hb
                · left; exact of_decide_eq_true hb
                · right; exact of_decide_eq_true hb
              refine ⟨[], c, ne, after, by rw [← h1]; rfl, hsep2, hmem, ?_, h2.symm,
                h3.symm, by rw [← hta]; exact hs⟩
              rw [← h1]
              intro hmemq
              rcases List.mem_cons.mp hmemq with he | hmem2
              · exact hcq he.symm
              · exact ((nameFacts ne hmem).1 '"' hmem2).1 rfl
          | none =>
            rw [hf] at h
            exact absurd h (by simp)
        · exact absurd h (by simp)

theorem scan2_block : ∀ m0 sep ne Z, (sep = '?' ∨ sep = '&') → ne ∈ nameList →
    '"' ∉ m0 → scan2 (ne ++ (PLACEHOLDER ++ Z)) = none →
    (Z = [] ∨ ∃ z zt, Z = z :: zt ∧ cred2Char z = false) →
    scan2 (m0 ++ ((sep :: ne) ++ (PLACEHOLDER ++ Z))) =
      some (m0 ++ (sep :: ne), PLACEHOLDER, Z) := by
  intro m0
  induction m0 with
  | nil =>
    intro sep ne Z hsep hne hq hnone hz
    simp only [List.nil_append]
    have hsq : sep ≠ '"' := by rcases hsep with h | h <;> subst h <;> decide
    rw [List.cons_append]
    simp only [scan2, if_neg hsq]
    rw [hnone]
    dsimp only
    have hcond : (decide (sep = '?') || decide (sep = '&')) = true := by
      rcases hsep with h | h <;> subst h <;> decide
    rw [if_pos hcond, firstPfx_names hne]
    dsimp only
    have hall : ∀ c ∈ PLACEHOLDER, cred2Char c = true := fun c hc => (plFacts c hc).2.1
    have htw := @takeWhile_all_append cred2Char PLACEHOLDER Z hall
    have hstop := @dropWhile_stop cred2Char Z hz
    rw [htw.1, htw.2, hstop.1, hstop.2, List.append_nil]
    rw [if_neg (by decide)]
  | cons c t ih =>
    intro sep ne Z hsep hne hq hnone hz
    have hc : c ≠ '"' := fun he => hq (he ▸ List.mem_cons_self _ _)
    rw [List.cons_append]
    simp only [scan2, if_neg hc]
    rw [ih sep ne Z hsep hne (fun hm => hq (List.mem_cons_of_mem _ hm)) hnone hz]
    rfl

theorem suffix_eq_drop {u l : Str} (h : u <:+ l) :
    u = l.drop (l.length - u.length) := by
  obtain ⟨t, ht⟩ := h
  subst ht
  simp only [List.length_append]
  rw [show t.length + u.length - u.length = t.length from by omega]
  exact (List.drop_left t u).symm

theorem suffix_full {u l : Str} (h : u <:+ l) (hl : u.length = l.length) : u = l := by
  obtain ⟨t, ht⟩ := h
  have := congrArg List.length ht
  simp only [List.length_append] at this
  have ht0 : t = [] := List.length_eq_zero.mp (by omega)
  rw [ht0] at ht
  simpa using ht

theorem takeWhile_head_true {p : Char → Bool} {l : Str}
    (h : l.takeWhile p ≠ []) : ∃ c t, l = c :: t ∧ p c = true := by
  cases l with
  | nil => simp at h
  | cons c t =>
    by_cases hc : p c = true
    · exact ⟨c, t, rfl, hc⟩
    · rw [takeWhile_neg (by simpa using hc)] at h
      exact absurd rfl h

theorem cred1_not_head {c : Char} (h : cred1Char c = false) :
    c ≠ 'p' ∧ c ≠ 'm' ∧ c ≠ 'r' ∧ c ≠ 'a' := by
  refine ⟨?_, ?_, ?_, ?_⟩ <;> intro he <;> rw [he] at h <;> exact absurd h (by decide)

theorem try1R_none {u : Str} (h : try1 u = none) : try1R u = none := by
  unfold try1R
  rw [h]
  rfl

theorem try1R_some {u g r : Str} (h : try1 u = some (g, r)) :
    try1R u = some (g ++ PLACEHOLDER, r) := by
  unfold try1R
  rw [h]
  rfl

theorem try1_fire {g after : Str} (hg : g ∈ schemeList)
    (hne : after.takeWhile cred1Char ≠ []) :
    try1 (g ++ after) = some (g, after.dropWhile cred1Char) := by
  unfold try1
  rw [firstPfx_schemes hg]
  dsimp only
  rw [if_neg hne]

theorem sub1_head_stop {rest : Str}
    (h : rest = [] ∨ ∃ rc rt, rest = rc :: rt ∧ cred1Char rc = false) :
    sub1 rest = [] ∨ ∃ rc rt, sub1 rest = rc :: rt ∧ cred1Char rc = false := by
  rcases h with h | ⟨rc, rt, h, hrc⟩
  · left
    rw [h]
    rfl
  · right
    obtain ⟨h1, h2, h3, h4⟩ := cred1_not_head hrc
    have hn : try1 rest = none := by
      rw [h]
      exact try1_none_head h1 h2 h3 h4 rt
    rw [sub1_eq, hn, h]
    exact ⟨rc, sub1 rt, rfl, hrc⟩

theorem dropWhile_PL {Z : Str}
    (hz : Z = [] ∨ ∃ c t, Z = c :: t ∧ cred1Char c = false) :
    (PLACEHOLDER ++ Z).takeWhile cred1Char = PLACEHOLDER ∧
    (PLACEHOLDER ++ Z).dropWhile cred1Char = Z := by
  have hall : ∀ c ∈ PLACEHOLDER, cred1Char c = true := fun c hc => (plFacts c hc).1
  have htw := @takeWhile_all_append cred1Char PLACEHOLDER Z hall
  have hstop := @dropWhile_stop cred1Char Z hz
  rw [htw.1, htw.2, hstop.1, hstop.2, List.append_nil]
  exact ⟨rfl, rfl⟩

theorem T1 {c : Char} {t : Str} (hnone : try1 (c :: t) = none) :
    try1 (c :: sub1 t) = none := by
  by_contra hne
  obtain ⟨p, hfire⟩ := Option.ne_none_iff_exists'.mp hne
  obtain ⟨g, rest⟩ := p
  obtain ⟨after2, hg, hdec, hne2, hrest2⟩ := try1_eq hfire
  cases g with
  | nil => exact (schemeFacts [] hg).2.1 rfl
  | cons gc g0 =>
    rw [List.cons_append] at hdec
    have hgc : c = gc := (List.cons.injEq _ _ _ _).mp hdec |>.1
    have hsub : sub1 t = g0 ++ after2 := (List.cons.injEq _ _ _ _).mp hdec |>.2
    subst hgc
    rcases sub1_decomp t.length t (le_refl _) with heq | ⟨a, gt, at2, hdect, hmemt, hnet, hsubt⟩
    · rw [heq] at hsub
      have : try1 (c :: t) = some (c :: g0, after2.dropWhile cred1Char) := by
        rw [show (c :: t : Str) = (c :: g0) ++ after2 from by rw [List.cons_append, hsub]]
        exact try1_fire hg hne2
      rw [this] at hnone
      exact absurd hnone (by simp)
    · have hP : sub1 t = (a ++ gt) ++ (PLACEHOLDER ++ sub1 (at2.dropWhile cred1Char)) := by
        rw [hsubt]
        simp [List.append_assoc]
      have ht2 : t = (a ++ gt) ++ at2 := by
        rw [hdect]
        simp [List.append_assoc]
      rw [hP] at hsub
      rcases le_or_lt g0.length (a ++ gt).length with hl | hl
      · obtain ⟨z, hz1, _⟩ := split_common hsub.symm hl
        have htg : t = g0 ++ (z ++ at2) := by
          rw [ht2, hz1]
          simp [List.append_assoc]
        have hafterO : (z ++ at2).takeWhile cred1Char ≠ [] := by
          cases z with
          | nil => simpa using hnet
          | cons zc zt =>
            have hzc : cred1Char zc = true := by
              have h5 : after2 = zc :: (zt ++ (PLACEHOLDER ++ sub1 (at2.dropWhile cred1Char))) := by
                have := split_common hsub.symm hl
                obtain ⟨z2, hz2, hy2⟩ := this
                have hzz : z2 = zc :: zt := by
                  have : g0 ++ z2 = g0 ++ (zc :: zt) := by rw [← hz2, hz1]
                  exact List.append_cancel_left this
                rw [hy2, hzz]
                rfl
              obtain ⟨c2, t2, hct, hc2⟩ := takeWhile_head_true hne2
              rw [h5] at hct
              have : zc = c2 := (List.cons.injEq _ _ _ _).mp hct |>.1
              rw [this]
              exact hc2
            rw [List.cons_append, takeWhile_pos hzc]
            simp
        have : try1 (c :: t) =
            some (c :: g0, (z ++ at2).dropWhile cred1Char) := by
          rw [show (c :: t : Str) = (c :: g0) ++ (z ++ at2) from by
            rw [List.cons_append, htg]]
          exact try1_fire hg hafterO
        rw [this] at hnone
        exact absurd hnone (by simp)
      · obtain ⟨e, he1, he2⟩ := split_common hsub (by omega)
        have hene : e ≠ [] := by
          intro h0
          rw [h0] at he1
          have := congrArg List.length he1
          simp at this
          simp only [List.length_append] at hl
          omega
        cases e with
        | nil => exact hene rfl
        | cons ec et =>
          have hec : ec = 'P' := by
            rw [plHead] at he2
            exact (List.cons.injEq _ _ _ _).mp he2.symm |>.1
          apply schemeNoP _ hg
          rw [he1, hec]
          exact List.mem_cons_of_mem _ (List.mem_append_right _ (List.mem_cons_self _ _))

theorem good1_sub1 : ∀ n s, s.length ≤ n → GoodOf try1R (sub1 s) := by
  intro n
  induction n with
  | zero =>
    intro s hl
    have hnil : s = [] := List.length_eq_zero.mp (by omega)
    subst hnil
    intro u hu
    have h0 : sub1 ([] : Str) = [] := rfl
    rw [h0] at hu
    left
    rw [List.suffix_nil.mp hu]
    rfl
  | succ n ih =>
    intro s hl
    cases hf : try1 s with
    | none =>
      cases s with
      | nil =>
        intro u hu
        have h0 : sub1 ([] : Str) = [] := rfl
        rw [h0] at hu
        left
        rw [List.suffix_nil.mp hu]
        rfl
      | cons c t =>
        have hstep : sub1 (c :: t) = c :: sub1 t := by
          rw [sub1_eq, hf]
        rw [hstep]
        intro u hu
        simp only [List.length_cons] at hl
        rcases List.suffix_cons_iff.mp hu with hu1 | hu2
        · left
          rw [hu1]
          exact try1R_none (T1 hf)
        · exact ih t (by omega) u hu2
    | some p =>
      obtain ⟨g, rest⟩ := p
      obtain ⟨after, hg, hsdec, hne, hrest⟩ := try1_eq hf
      have hstep : sub1 s = (g ++ PLACEHOLDER) ++ sub1 rest := by
        rw [sub1_eq, hf]
      have hrsh : rest.length + 1 ≤ s.length := try1_shrinks hf
      have hGr : GoodOf try1R (sub1 rest) := ih rest (by omega)
      have hshape : sub1 rest = [] ∨ ∃ rc rt, sub1 rest = rc :: rt ∧ cred1Char rc = false := by
        apply sub1_head_stop
        rw [hrest]
        exact dropWhile_shape cred1Char after
      have hd := dropWhile_PL hshape
      rw [hstep]
      intro u hu
      rcases suffix_append_split hu with hu1 | ⟨w, hw, hwne, hueq⟩
      · exact hGr u hu1
      · rcases suffix_append_split hw with hw1 | ⟨w2, hw2, hw2ne, hw2eq⟩
        · cases w with
          | nil => exact absurd rfl hwne
          | cons wc wt =>
            left
            have hwcPL : wc ∈ PLACEHOLDER := suffix_mem hw1 wc (List.mem_cons_self _ _)
            obtain ⟨_, _, _, hp2, hm2, hr2, ha2, _⟩ := plFacts wc hwcPL
            apply try1R_none
            rw [hueq, List.cons_append]
            exact try1_none_head hp2 hm2 hr2 ha2 _
        · by_cases hw2g : w2 = g
          · right
            refine ⟨g ++ PLACEHOLDER, sub1 rest, ?_, ?_⟩
            · apply try1R_some
              rw [hueq, hw2eq, hw2g, List.append_assoc,
                try1_fire hg (by rw [hd.1]; decide), hd.2]
            · rw [hueq, hw2eq, hw2g]
          · left
            apply try1R_none
            by_contra hfe
            obtain ⟨p2, hfire2⟩ := Option.ne_none_iff_exists'.mp hfe
            obtain ⟨g1, r1⟩ := p2
            obtain ⟨after1, hg1, hdec1, hne1, _⟩ := try1_eq hfire2
            have hu2 : g1 ++ after1 = w2 ++ (PLACEHOLDER ++ sub1 rest) := by
              rw [← hdec1, hueq, hw2eq, List.append_assoc]
            rcases le_or_lt g1.length w2.length with hl1 | hl1
            · obtain ⟨z, hz1, _⟩ := split_common hu2 hl1
              have hi : w2 = g.drop (g.length - w2.length) := suffix_eq_drop hw2
              have hw2len := List.IsSuffix.length_le hw2
              have hlt : w2.length < g.length := by
                rcases Nat.lt_or_ge w2.length g.length with h | h
                · exact h
                · exact absurd (suffix_full hw2 (by omega)) hw2g
              have hw2pos : 1 ≤ w2.length := by
                cases w2 with
                | nil => exact absurd rfl hw2ne
                | cons a b => simp
              have hme : g.length - w2.length ∈ List.range g.length := by
                rw [List.mem_range]
                omega
              apply schemeSuffixFree g hg (g.length - w2.length) hme (by omega) g1 hg1
              rw [← hi, hz1, List.take_left]
            · obtain ⟨e, he1, he2⟩ := split_common hu2.symm (by omega)
              have hene : e ≠ [] := by
                intro h0
                rw [h0] at he1
                have := congrArg List.length he1
                simp at this
                omega
              cases e with
              | nil => exact hene rfl
              | cons ec et =>
                have hec : ec = 'P' := by
                  rw [plHead] at he2
                  exact (List.cons.injEq _ _ _ _).mp he2.symm |>.1
                apply schemeNoP _ hg1
                rw [he1, hec]
                exact List.mem_append_right _ (List.mem_cons_self _ _)

theorem sub1_idem (s : Str) : sub1 (sub1 s) = sub1 s :=
  scanSub_fix try1R_shrinks try1R_rest_suffix (sub1 s).length (sub1 s) (le_refl _)
    (good1_sub1 s.length s (le_refl _))

theorem suffix_of_suffix {u1 u2 l : Str} (h1 : u1 <:+ l) (h2 : u2 <:+ l)
    (hl : u1.length ≤ u2.length) : u1 <:+ u2 := by
  obtain ⟨t1, ht1⟩ := h1
  obtain ⟨t2, ht2⟩ := h2
  have heq : t1 ++ u1 = t2 ++ u2 := by rw [ht1, ht2]
  have hlen : t2.length ≤ t1.length := by
    have e1 := congrArg List.length ht1
    have e2 := congrArg List.length ht2
    simp only [List.length_append] at e1 e2
    omega
  obtain ⟨d, _, hy⟩ := split_common heq.symm hlen
  exact ⟨d, hy.symm⟩

theorem try2R_none {u : Str} (h : try2 u = none) : try2R u = none := by
  unfold try2R
  rw [h]
  rfl

theorem try2R_some {u g r : Str} (h : try2 u = some (g, r)) :
    try2R u = some (g ++ PLACEHOLDER, r) := by
  unfold try2R
  rw [h]
  rfl

theorem try2_fire {sch body m cr r : Str}
    (hsch : sch = "https://".toList ∨ sch = "http://".toList)
    (h : scan2 body = some (m, cr, r)) : try2 (sch ++ body) = some (sch ++ m, r) := by
  unfold try2
  rcases hsch with hs | hs <;> subst hs
  · rw [dropPfx_of_append]
    dsimp only
    unfold try2core
    rw [h]
  · rw [dropPfx_https_http]
    dsimp only
    rw [dropPfx_of_append]
    dsimp only
    unfold try2core
    rw [h]

theorem try2_nofire {sch body : Str}
    (hsch : sch = "https://".toList ∨ sch = "http://".toList)
    (h : scan2 body = none) : try2 (sch ++ body) = none := by
  unfold try2
  rcases hsch with hs | hs <;> subst hs
  · rw [dropPfx_of_append]
    dsimp only
    unfold try2core
    rw [h]
  · rw [dropPfx_https_http]
    dsimp only
    rw [dropPfx_of_append]
    dsimp only
    unfold try2core
    rw [h]

theorem try2_none_body {sch body : Str}
    (hsch : sch = "https://".toList ∨ sch = "http://".toList)
    (h : try2 (sch ++ body) = none) : scan2 body = none := by
  cases hs : scan2 body with
  | none => rfl
  | some mcr =>
    obtain ⟨m, cr, r⟩ := mcr
    rw [try2_fire hsch hs] at h
    exact absurd h (by simp)

theorem scan2_none_no_fire : ∀ x sep ne cc rest, '"' ∉ x → (sep = '?' ∨ sep = '&') →
    ne ∈ nameList → cred2Char cc = true →
    scan2 (x ++ (sep :: (ne ++ (cc :: rest)))) = none → False := by
  intro x
  induction x with
  | nil =>
    intro sep ne cc rest _ hsep hne hcc h
    rw [List.nil_append] at h
    have hsq : sep ≠ '"' := by rcases hsep with hs | hs <;> subst hs <;> decide
    simp only [scan2, if_neg hsq] at h
    cases hs2 : scan2 (ne ++ (cc :: rest)) with
    | some mcr =>
      obtain ⟨m2, cr2, r2⟩ := mcr
      rw [hs2] at h
      simp at h
    | none =>
      rw [hs2] at h
      dsimp only at h
      have hcond : (decide (sep = '?') || decide (sep = '&')) = true := by
        rcases hsep with hs | hs <;> subst hs <;> decide
      rw [if_pos hcond, firstPfx_names hne] at h
      dsimp only at h
      rw [takeWhile_pos hcc] at h
      simp at h
  | cons c t ih =>
    intro sep ne cc rest hq hsep hne hcc h
    have hc : c ≠ '"' := fun he => hq (he ▸ List.mem_cons_self _ _)
    rw [List.cons_append] at h
    simp only [scan2, if_neg hc] at h
    cases hs2 : scan2 (t ++ (sep :: (ne ++ (cc :: rest)))) with
    | some mcr =>
      obtain ⟨m2, cr2, r2⟩ := mcr
      rw [hs2] at h
      simp at h
    | none => exact ih sep ne cc rest (fun hm => hq (List.mem_cons_of_mem _ hm)) hsep hne hcc hs2

theorem scan2_none_sub2 : ∀ n X, X.length ≤ n → scan2 X = none →
    scan2 (sub2 X) = none := by
  intro n
  induction n with
  | zero =>
    intro X hl hsX
    have hnil : X = [] := List.length_eq_zero.mp (by omega)
    subst hnil
    exact hsX
  | succ n ih =>
    intro X hl hsX
    cases htf : try2 X with
    | some p =>
      obtain ⟨g, rest⟩ := p
      obtain ⟨sch, m, cr, hsch, hdec, _, _, _, hs2⟩ := try2_eq htf
      exfalso
      have hq : '"' ∉ sch := by
        intro hmem
        obtain ⟨hchars, _, _⟩ := schChars sch hsch
        exact (hchars '"' hmem).2.2.2.1 rfl
      have hd := scan2_none_drop sch (m ++ cr ++ rest) (by rw [← hdec]; exact hsX) hq
      rw [hs2] at hd
      exact absurd hd (by simp)
    | none =>
      cases X with
      | nil => exact hsX
      | cons c t =>
        have hstep : sub2 (c :: t) = c :: sub2 t := by rw [sub2_eq, htf]
        rw [hstep]
        by_cases hc : c = '"'
        · subst hc
          simp [scan2]
        · simp only [List.length_cons] at hl
          simp only [scan2, if_neg hc] at hsX ⊢
          cases hs2 : scan2 t with
          | some mcr =>
            obtain ⟨m2, cr2, r2⟩ := mcr
            rw [hs2] at hsX
            simp at hsX
          | none =>
            rw [hs2] at hsX
            dsimp only at hsX
            rw [ih t (by omega) hs2]
            dsimp only
            by_cases hsep : (decide (c = '?') || decide (c = '&')) = true
            · rw [if_pos hsep] at hsX ⊢
              rcases sub2_decomp t.length t (le_refl _) with heq |
                ⟨a, sch, m, cr, X2, hdect, hscht, hs2t, hsubt⟩
              · rw [heq]
                exact hsX
              · have hcrne : cr ≠ [] := (scan2_eq hs2t).2.2
                obtain ⟨m0s, seps, nes, afters, hm_eq, hseps, hnes, hqm, hcr_eq, hr_eq,
                  hnone_s⟩ := scan2_some_struct hs2t
                have hcrhead : ∃ c0 t0, cr = c0 :: t0 ∧ cred2Char c0 = true := by
                  obtain ⟨c0, t0, hat, hc0⟩ := takeWhile_head_true
                    (show afters.takeWhile cred2Char ≠ [] by rw [← hcr_eq]; exact hcrne)
                  exact ⟨c0, t0.takeWhile cred2Char,
                    by rw [hcr_eq, hat, takeWhile_pos hc0], hc0⟩
                have hQt : t = ((a ++ sch) ++ m) ++ (cr ++ X2) := by
                  rw [hdect]
                  simp [List.append_assoc]
                have hQs : sub2 t = ((a ++ sch) ++ m) ++ (PLACEHOLDER ++ sub2 X2) := by
                  rw [hsubt]
                  simp [List.append_assoc]
                cases hfp : firstPfx nameList (sub2 t) with
                | none => rfl
                | some na =>
                  obtain ⟨ne1, aft1⟩ := na
                  dsimp only
                  obtain ⟨hne1, hdec1⟩ := firstPfx_eq hfp
                  rw [hQs] at hdec1
                  rcases le_or_lt ne1.length ((a ++ sch) ++ m).length with hl1 | hl1
                  · obtain ⟨z, hz1, hz2⟩ := split_common hdec1.symm hl1
                    have hto : t = ne1 ++ (z ++ (cr ++ X2)) := by
                      rw [hQt, hz1]
                      simp [List.append_assoc]
                    have hfpo : firstPfx nameList t = some (ne1, z ++ (cr ++ X2)) := by
                      rw [hto]
                      exact firstPfx_names hne1 _
                    rw [hfpo] at hsX
                    dsimp only at hsX
                    have htwo : (z ++ (cr ++ X2)).takeWhile cred2Char = [] := by
                      by_contra hneo
                      rw [if_neg hneo] at hsX
                      exact absurd hsX (by simp)
                    cases z with
                    | nil =>
                      obtain ⟨c0, t0, hcre, hc0⟩ := hcrhead
                      rw [List.nil_append, hcre, List.cons_append,
                        takeWhile_pos hc0] at htwo
                      simp at htwo
                    | cons zc zt =>
                      have hzc : cred2Char zc = false := by
                        by_contra hzcp
                        rw [List.cons_append, takeWhile_pos (by simpa using hzcp)] at htwo
                        simp at htwo
                      rw [hz2, List.cons_append, takeWhile_neg hzc, if_pos rfl]
                  · obtain ⟨e, he1, he2⟩ := split_common hdec1 (by omega)
                    exfalso
                    have hene : e ≠ [] := by
                      intro h0
                      rw [h0] at he1
                      have := congrArg List.length he1
                      simp only [List.append_nil] at this
                      omega
                    cases e with
                    | nil => exact hene rfl
                    | cons ec et =>
                      have hec : ec = 'P' := by
                        rw [plHead] at he2
                        exact (List.cons.injEq _ _ _ _).mp he2.symm |>.1
                      apply nameNoP ne1 hne1
                      rw [he1, hec]
                      exact List.mem_append_right _ (List.mem_cons_self _ _)
            · rw [if_neg hsep] at hsX ⊢

theorem cred2_false {x : Char} (h : cred2Char x = false) : x = '"' ∨ x = '&' := by
  by_contra hc
  push_neg at hc
  obtain ⟨h1, h2⟩ := hc
  rw [show cred2Char x = true from by simp [cred2Char, h1, h2]] at h
  exact absurd h (by simp)

theorem sub2_head_stop {X : Str}
    (h : X = [] ∨ ∃ xc xt, X = xc :: xt ∧ cred2Char xc = false) :
    sub2 X = [] ∨ ∃ xc xt, sub2 X = xc :: xt ∧ cred2Char xc = false := by
  rcases h with h | ⟨xc, xt, h, hxc⟩
  · left
    rw [h]
    rfl
  · right
    have hxh : xc ≠ 'h' := by
      rcases cred2_false hxc with he | he <;> subst he <;> decide
    have hn : try2 X = none := by
      rw [h]
      exact try2_none_head hxh xt
    rw [sub2_eq, hn, h]
    exact ⟨xc, sub2 xt, rfl, hxc⟩

theorem fire_facts {body m cr X : Str} (h : scan2 body = some (m, cr, X)) :
    ('"' ∉ m) ∧ (∃ c0 t0, cr = c0 :: t0 ∧ cred2Char c0 = true) ∧
    (X = [] ∨ ∃ xc xt, X = xc :: xt ∧ cred2Char xc = false) ∧
    scan2 X = none ∧ m.getLast? = some '=' ∧
    ∃ m0 sep ne, m = m0 ++ (sep :: ne) ∧ (sep = '?' ∨ sep = '&') ∧ ne ∈ nameList := by
  obtain ⟨m0, sep, ne, after, hm, hsep, hne, hqm, hcr, hr, hnone⟩ := scan2_some_struct h
  have hcrne : cr ≠ [] := (scan2_eq h).2.2
  obtain ⟨hnechars, hnene, hnelast⟩ := nameFacts ne hne
  have hcrq : '"' ∉ cr := by
    intro hmem
    rw [hcr] at hmem
    have := List.mem_takeWhile_imp hmem
    exact absurd this (by decide)
  refine ⟨hqm, ?_, ?_, ?_, ?_, m0, sep, ne, hm, hsep, hne⟩
  · obtain ⟨c0, t0, hat, hc0⟩ := takeWhile_head_true
      (show after.takeWhile cred2Char ≠ [] by rw [← hcr]; exact hcrne)
    exact ⟨c0, t0.takeWhile cred2Char, by rw [hcr, hat, takeWhile_pos hc0], hc0⟩
  · rw [hr]
    exact dropWhile_shape cred2Char after
  · have ha1 : scan2 after = none := by
      apply scan2_none_drop ne after hnone
      intro hmem
      exact (hnechars '"' hmem).1 rfl
    have ha2 : after = cr ++ X := by
      rw [hcr, hr, List.takeWhile_append_dropWhile]
    apply scan2_none_drop cr X (by rw [← ha2]; exact ha1) hcrq
  · have hnesuf : ne <:+ m := by
      refine ⟨m0 ++ [sep], ?_⟩
      rw [hm]
      simp
    rw [getLast_suffix_eq hnene hnesuf]
    exact hnelast

theorem T2 {c : Char} {t : Str} (hnone : try2 (c :: t) = none) :
    try2 (c :: sub2 t) = none := by
  by_contra hne
  obtain ⟨p, hfire⟩ := Option.ne_none_iff_exists'.mp hne
  obtain ⟨g, rest⟩ := p
  obtain ⟨sch1, m1, cr1, hsch1, hdec1, hg, hm1ne, hcr1ne, hscan1⟩ := try2_eq hfire
  obtain ⟨hqm1, ⟨cc, cr1t, hcr1e, hcc⟩, _, _, _, m0p, sepp, nep, hm1e, hsepp, hnep⟩ :=
    fire_facts hscan1
  have hqm0 : '"' ∉ m0p := fun hmem => hqm1 (by rw [hm1e]; exact List.mem_append_left _ hmem)
  cases sch1 with
  | nil => exact (schChars [] hsch1).2.1 rfl
  | cons sc sch0 =>
    rw [List.cons_append] at hdec1
    have hsc : c = sc := (List.cons.injEq _ _ _ _).mp hdec1 |>.1
    have hsub : sub2 t = sch0 ++ (m1 ++ cr1 ++ rest) := (List.cons.injEq _ _ _ _).mp hdec1 |>.2
    subst hsc
    rcases sub2_decomp t.length t (le_refl _) with heq |
      ⟨a, sch2, m, cr, X2, hdect, hsch2, hs2t, hsubt⟩
    · rw [heq] at hsub
      have hct : (c :: t : Str) = (c :: sch0) ++ (m1 ++ cr1 ++ rest) := by
        rw [List.cons_append, hsub]
      rw [hct, try2_fire hsch1 hscan1] at hnone
      exact absurd hnone (by simp)
    · obtain ⟨hqm, ⟨c0, t0, hcre, hc0⟩, hX2shape, hX2none, hmlast, _⟩ := fire_facts hs2t
      have hQt : t = ((a ++ sch2) ++ m) ++ (cr ++ X2) := by
        rw [hdect]
        simp [List.append_assoc]
      have hQs : sub2 t = ((a ++ sch2) ++ m) ++ (PLACEHOLDER ++ sub2 X2) := by
        rw [hsubt]
        simp [List.append_assoc]
      have hZnone : scan2 (sub2 X2) = none :=
        scan2_none_sub2 X2.length X2 (le_refl _) hX2none
      have hmain : sch0 ++ (m1 ++ cr1 ++ rest) =
          ((a ++ sch2) ++ m) ++ (PLACEHOLDER ++ sub2 X2) := by
        rw [← hsub, hQs]
      rcases le_or_lt sch0.length ((a ++ sch2) ++ m).length with hl1 | hl1
      · obtain ⟨z, hz1, hz2⟩ := split_common hmain hl1
        have hbodyO : scan2 (z ++ (cr ++ X2)) = none := by
          apply try2_none_body hsch1
          have hct : (c :: t : Str) = (c :: sch0) ++ (z ++ (cr ++ X2)) := by
            rw [List.cons_append, hQt, hz1]
            simp [List.append_assoc]
          rw [← hct]
          exact hnone
        have hEQ : m1 ++ (cc :: (cr1t ++ rest)) = z ++ (PLACEHOLDER ++ sub2 X2) := by
          rw [← hz2, hcr1e]
          simp [List.append_assoc]
        rcases le_or_lt m1.length z.length with hl2 | hl2
        · obtain ⟨d, hd1, hd2⟩ := split_common hEQ hl2
          cases d with
          | nil =>
            apply scan2_none_no_fire m0p sepp nep c0 (t0 ++ X2) hqm0 hsepp hnep hc0
            have hrew : z ++ (cr ++ X2) = m0p ++ (sepp :: (nep ++ (c0 :: (t0 ++ X2)))) := by
              rw [hd1, hm1e, hcre]
              simp [List.append_assoc]
            rw [← hrew]
            exact hbodyO
          | cons dc dt =>
            have hdc : cc = dc := by
              rw [List.cons_append] at hd2
              exact (List.cons.injEq _ _ _ _).mp hd2 |>.1
            apply scan2_none_no_fire m0p sepp nep cc (dt ++ (cr ++ X2)) hqm0 hsepp hnep hcc
            have hrew : z ++ (cr ++ X2) =
                m0p ++ (sepp :: (nep ++ (cc :: (dt ++ (cr ++ X2))))) := by
              rw [hd1, ← hdc, hm1e]
              simp [List.append_assoc]
            rw [← hrew]
            exact hbodyO
        · obtain ⟨r2, hr1, hr2⟩ := split_common hEQ.symm (by omega)
          cases r2 with
          | nil =>
            have := congrArg List.length hr1
            simp at this
            omega
          | cons rc rt =>
            have hrc : rc = 'P' := by
              rw [plHead, List.cons_append] at hr2
              exact ((List.cons.injEq _ _ _ _).mp hr2 |>.1).symm
            have hsuf1 : (rc :: rt) <:+ m1 := ⟨z, hr1.symm⟩
            have hsuf2 : (sepp :: nep) <:+ m1 := ⟨m0p, by rw [hm1e]⟩
            rcases le_or_lt (rc :: rt).length (sepp :: nep).length with hl3 | hl3
            · have hss := suffix_of_suffix hsuf1 hsuf2 hl3
              have hmem : rc ∈ sepp :: nep := suffix_mem hss rc (List.mem_cons_self _ _)
              rcases List.mem_cons.mp hmem with he | he
              · rcases hsepp with hs | hs <;> rw [hrc, hs] at he <;> exact absurd he (by decide)
              · exact nameNoP nep hnep (hrc ▸ he)
            · have hss := suffix_of_suffix hsuf2 hsuf1 (by omega)
              obtain ⟨τ, hτ⟩ := hss
              have hPLZ : PLACEHOLDER ++ sub2 X2 =
                  τ ++ (sepp :: (nep ++ (cc :: (cr1t ++ rest)))) := by
                rw [hr2, ← hτ]
                simp [List.append_assoc]
              rcases le_or_lt PLACEHOLDER.length τ.length with hl4 | hl4
              · obtain ⟨τ2, hτ2, hZeq⟩ := split_common hPLZ hl4
                apply scan2_none_no_fire τ2 sepp nep cc (cr1t ++ rest) ?_ hsepp hnep hcc
                · rw [← hZeq]
                  exact hZnone
                · intro hmem
                  apply hqm1
                  rw [hr1]
                  apply List.mem_append_right
                  rw [← hτ]
                  apply List.mem_append_left
                  rw [hτ2]
                  exact List.mem_append_right _ hmem
              · obtain ⟨d2, hδ1, hδ2⟩ := split_common hPLZ.symm (by omega)
                cases d2 with
                | nil =>
                  have := congrArg List.length hδ1
                  simp at this
                  omega
                | cons d2c d2t =>
                  have hd2c : d2c = sepp := by
                    rw [List.cons_append] at hδ2
                    exact ((List.cons.injEq _ _ _ _).mp hδ2 |>.1).symm
                  have hmem : d2c ∈ PLACEHOLDER := by
                    rw [hδ1]
                    exact List.mem_append_right _ (List.mem_cons_self _ _)
                  have hpf := plFacts d2c hmem
                  rcases hsepp with hs | hs
                  · exact hpf.2.2.2.2.2.2.2.2.1 (by rw [hd2c, hs])
                  · exact hpf.2.2.2.2.2.2.2.2.2.1 (by rw [hd2c, hs])
      · obtain ⟨η, hη1, hη2⟩ := split_common hmain.symm (by omega)
        cases η with
        | nil =>
          have := congrArg List.length hη1
          simp at this
          simp only [List.length_append] at hl1
          omega
        | cons ec et =>
          have hec : ec = 'P' := by
            rw [plHead, List.cons_append] at hη2
            exact ((List.cons.injEq _ _ _ _).mp hη2 |>.1).symm
          apply (schChars _ hsch1).2.2
          rw [show ('P' : Char) = ec from hec.symm]
          apply List.mem_cons_of_mem
          rw [hη1]
          exact List.mem_append_right _ (List.mem_cons_self _ _)

theorem good2_sub2 : ∀ n s, s.length ≤ n → GoodOf try2R (sub2 s) := by
  intro n
  induction n with
  | zero =>
    intro s hl
    have hnil : s = [] := List.length_eq_zero.mp (by omega)
    subst hnil
    intro u hu
    have h0 : sub2 ([] : Str) = [] := rfl
    rw [h0] at hu
    left
    rw [List.suffix_nil.mp hu]
    rfl
  | succ n ih =>
    intro s hl
    cases hf : try2 s with
    | none =>
      cases s with
      | nil =>
        intro u hu
        have h0 : sub2 ([] : Str) = [] := rfl
        rw [h0] at hu
        left
        rw [List.suffix_nil.mp hu]
        rfl
      | cons c t =>
        have hstep : sub2 (c :: t) = c :: sub2 t := by rw [sub2_eq, hf]
        rw [hstep]
        intro u hu
        simp only [List.length_cons] at hl
        rcases List.suffix_cons_iff.mp hu with hu1 | hu2
        · left
          rw [hu1]
          exact try2R_none (T2 hf)
        · exact ih t (by omega) u hu2
    | some p =>
      obtain ⟨g, rest⟩ := p
      obtain ⟨sch, m, cr, hsch, hsdec, hg, hmne, hcrne, hs2⟩ := try2_eq hf
      obtain ⟨hqm, ⟨c0, t0, hcre, hc0⟩, hXshape, hXnone, hmlast, m0, sep, ne, hme, hsep,
        hnemem⟩ := fire_facts hs2
      have hstep : sub2 s = ((sch ++ m) ++ PLACEHOLDER) ++ sub2 rest := by
        rw [sub2_eq, hf]
        simp [hg, List.append_assoc]
      have hsh := try2_shrinks hf
      have hGr : GoodOf try2R (sub2 rest) := ih rest (by omega)
      have hZnone : scan2 (sub2 rest) = none :=
        scan2_none_sub2 rest.length rest (le_refl _) hXnone
      have hZshape := sub2_head_stop hXshape
      have hneclean := (nameFacts ne hnemem).1
      have hOK : ∀ w3 : Str, (∀ ch ∈ w3, ch ≠ '"') →
          OKof try2R (w3 ++ ((sep :: ne) ++ (PLACEHOLDER ++ sub2 rest))) := by
        intro w3 hq3
        cases hty : try2 (w3 ++ ((sep :: ne) ++ (PLACEHOLDER ++ sub2 rest))) with
        | none => left; exact try2R_none hty
        | some p2 =>
          obtain ⟨g2, r2⟩ := p2
          obtain ⟨sch3, m3, cr3, hsch3, hdec3, hg3, _, _, hs3⟩ := try2_eq hty
          have hEQ : sch3 ++ (m3 ++ cr3 ++ r2) =
              w3 ++ ((sep :: ne) ++ (PLACEHOLDER ++ sub2 rest)) := hdec3.symm
          rcases le_or_lt sch3.length w3.length with hl3 | hl3
          · obtain ⟨z3, hz31, hz32⟩ := split_common hEQ hl3
            have hcompute : scan2 (z3 ++ ((sep :: ne) ++ (PLACEHOLDER ++ sub2 rest))) =
                some (z3 ++ (sep :: ne), PLACEHOLDER, sub2 rest) := by
              apply scan2_block z3 sep ne (sub2 rest) hsep hnemem
              · intro hmem
                exact (hq3 '"' (by rw [hz31]; exact List.mem_append_right _ hmem)) rfl
              · apply scan2_none_cat
                · intro ch hch
                  obtain ⟨hq2, hq3b, hq4, _, _, _⟩ := hneclean ch hch
                  exact ⟨hq2, hq3b, hq4⟩
                · apply scan2_none_cat
                  · intro ch hch
                    have hpf := plFacts ch hch
                    exact ⟨hpf.2.2.2.2.2.2.2.1, hpf.2.2.2.2.2.2.2.2.1,
                      hpf.2.2.2.2.2.2.2.2.2.1⟩
                  · exact hZnone
              · exact hZshape
            rw [hz32] at hs3
            have hinj := hs3.symm.trans hcompute
            have hp3 := Option.some.inj hinj
            have hm3 : m3 = z3 ++ (sep :: ne) := congrArg Prod.fst hp3
            have hcr3 : cr3 = PLACEHOLDER := congrArg (Prod.fst ∘ Prod.snd) hp3
            have hr2 : r2 = sub2 rest := congrArg (Prod.snd ∘ Prod.snd) hp3
            right
            refine ⟨g2 ++ PLACEHOLDER, r2, try2R_some hty, ?_⟩
            rw [hdec3, hg3, hm3, hcr3, hr2]
            simp [List.append_assoc]
          · obtain ⟨η, hη1, hη2⟩ := split_common hEQ.symm (by omega)
            exfalso
            cases η with
            | nil =>
              have := congrArg List.length hη1
              simp at this
              omega
            | cons ec et =>
              have hec : ec = sep := by
                rw [List.cons_append] at hη2
                exact ((List.cons.injEq _ _ _ _).mp hη2 |>.1).symm
              have hmem : ec ∈ sch3 := by
                rw [hη1]
                exact List.mem_append_right _ (List.mem_cons_self _ _)
              obtain ⟨hchars, _, _⟩ := schChars sch3 hsch3
              rcases hsep with hs | hs
              · exact (hchars ec hmem).2.2.2.2.1 (by rw [hec, hs])
              · exact (hchars ec hmem).2.2.2.2.2 (by rw [hec, hs])
      rw [hstep]
      intro u hu
      rcases suffix_append_split hu with hu1 | ⟨w, hw, hwne, hueq⟩
      · exact hGr u hu1
      · rcases suffix_append_split hw with hw1 | ⟨w2, hw2, hw2ne, hw2eq⟩
        · cases w with
          | nil => exact absurd rfl hwne
          | cons wc wt =>
            left
            have hwcPL : wc ∈ PLACEHOLDER := suffix_mem hw1 wc (List.mem_cons_self _ _)
            apply try2R_none
            rw [hueq, List.cons_append]
            exact try2_none_head (plFacts wc hwcPL).2.2.1 _
        · have hsm : sch ++ m = (sch ++ m0) ++ (sep :: ne) := by
            rw [hme]
            simp [List.append_assoc]
          rw [hsm] at hw2
          have hueq2 : ∀ w3 : Str, w2 = w3 ++ (sep :: ne) →
              u = w3 ++ ((sep :: ne) ++ (PLACEHOLDER ++ sub2 rest)) := by
            intro w3 hw3e
            rw [hueq, hw2eq, hw3e]
            simp [List.append_assoc]
          have hq3of : ∀ w3 : Str, w3 <:+ (sch ++ m0) → ∀ ch ∈ w3, ch ≠ '"' := by
            intro w3 hsuf ch hch
            rcases List.mem_append.mp (suffix_mem hsuf ch hch) with hm1 | hm1
            · exact ((schChars sch hsch).1 ch hm1).2.2.2.1
            · intro he
              apply hqm
              rw [hme, ← he]
              exact List.mem_append_left _ hm1
          rcases suffix_append_split hw2 with hwa | ⟨w3, hw3, hw3ne, hw3eq⟩
          · by_cases hwfull : w2.length = (sep :: ne).length
            · have hw2e : w2 = sep :: ne := suffix_full hwa hwfull
              rw [hueq2 [] (by rw [hw2e]; rfl)]
              exact hOK [] (by intro ch hch; simp at hch)
            · have hw2ne2 : w2 <:+ ne := by
                rcases List.suffix_cons_iff.mp hwa with he | he
                · exact absurd (congrArg List.length he) hwfull
                · exact he
              cases w2 with
              | nil => exact absurd rfl hw2ne
              | cons vc vt =>
                left
                have hvc : vc ∈ ne := suffix_mem hw2ne2 vc (List.mem_cons_self _ _)
                apply try2R_none
                rw [hueq, hw2eq, List.cons_append, List.cons_append]
                exact try2_none_head (hneclean vc hvc).2.2.2.2.2 _
          · rw [hueq2 w3 hw3eq]
            exact hOK w3 (hq3of w3 hw3)

theorem sub2_idem (s : Str) : sub2 (sub2 s) = sub2 s :=
  scanSub_fix try2R_shrinks try2R_rest_suffix (sub2 s).length (sub2 s) (le_refl _)
    (good2_sub2 s.length s (le_refl _))

theorem suffix_append_right {w y z : Str} (h : w <:+ y) : w ++ z <:+ y ++ z := by
  obtain ⟨t, ht⟩ := h
  exact ⟨t, by rw [← ht, List.append_assoc]⟩

theorem scheme_unique_pre {g1 g2 A B : Str} (h1 : g1 ∈ schemeList) (h2 : g2 ∈ schemeList)
    (h : g1 ++ A = g2 ++ B) : g1 = g2 := by
  rcases le_total g1.length g2.length with hl | hl
  · obtain ⟨d, hd, _⟩ := split_common h hl
    exact schemeMutual g2 h2 g1 h1 (by rw [hd]; exact List.take_left _ _)
  · obtain ⟨d, hd, _⟩ := split_common h.symm hl
    exact (schemeMutual g1 h1 g2 h2 (by rw [hd]; exact List.take_left _ _)).symm

theorem try1R_none_inv {u : Str} (h : try1R u = none) : try1 u = none := by
  unfold try1R at h
  cases h1 : try1 u with
  | none => rfl
  | some p =>
    rw [h1] at h
    simp at h

theorem cred1_not_h {x : Char} (h : cred1Char x = false) : x ≠ 'h' := by
  intro he
  rw [he] at h
  exact absurd h (by decide)

theorem T3 {c : Char} {t : Str} (hnone : try1 (c :: t) = none) :
    try1 (c :: sub2 t) = none := by
  by_contra hne
  obtain ⟨p, hfire⟩ := Option.ne_none_iff_exists'.mp hne
  obtain ⟨g, rest⟩ := p
  obtain ⟨after2, hg, hdec, hne2, hrest2⟩ := try1_eq hfire
  cases g with
  | nil => exact (schemeFacts [] hg).2.1 rfl
  | cons gc g0 =>
    rw [List.cons_append] at hdec
    have hgc : c = gc := (List.cons.injEq _ _ _ _).mp hdec |>.1
    have hsub : sub2 t = g0 ++ after2 := (List.cons.injEq _ _ _ _).mp hdec |>.2
    subst hgc
    rcases sub2_decomp t.length t (le_refl _) with heq |
      ⟨a2, sch2, m2, cr, X2, hdect, hsch2, hs2t, hsubt⟩
    · rw [heq] at hsub
      have hct : (c :: t : Str) = (c :: g0) ++ after2 := by
        rw [List.cons_append, hsub]
      rw [hct, try1_fire hg hne2] at hnone
      exact absurd hnone (by simp)
    · obtain ⟨hqm, ⟨c0, t0, hcre, hc0⟩, hX2shape, hX2none, hmlast, _⟩ := fire_facts hs2t
      have hQt : t = ((a2 ++ sch2) ++ m2) ++ (cr ++ X2) := by
        rw [hdect]
        simp [List.append_assoc]
      have hQs : sub2 t = ((a2 ++ sch2) ++ m2) ++ (PLACEHOLDER ++ sub2 X2) := by
        rw [hsubt]
        simp [List.append_assoc]
      have hm2ne : m2 ≠ [] := (scan2_eq hs2t).2.1
      have hmain : g0 ++ after2 = ((a2 ++ sch2) ++ m2) ++ (PLACEHOLDER ++ sub2 X2) := by
        rw [← hsub, hQs]
      rcases le_or_lt g0.length ((a2 ++ sch2) ++ m2).length with hl1 | hl1
      · obtain ⟨z, hz1, hz2⟩ := split_common hmain hl1
        cases z with
        | nil =>
          rw [List.append_nil] at hz1
          have hQlast : ((a2 ++ sch2) ++ m2).getLast? = some '=' := by
            rw [getLast_suffix_eq hm2ne ⟨a2 ++ sch2, rfl⟩]
            exact hmlast
          have hglast : (c :: g0).getLast? = some '/' := (schemeFacts _ hg).2.2
          rw [hz1] at hQlast
          have hg0ne : g0 ≠ [] := by
            intro h0
            rw [h0] at hz1
            simp only [List.append_eq_nil] at hz1
            exact hm2ne hz1.2
          rw [getLast_suffix_eq hg0ne ⟨[c], List.singleton_append⟩] at hglast
          rw [hglast] at hQlast
          exact absurd (Option.some.inj hQlast) (by decide)
        | cons zc zt =>
          have hzc : cred1Char zc = true := by
            obtain ⟨cx, tx, hctx, hcx⟩ := takeWhile_head_true hne2
            rw [hz2, List.cons_append] at hctx
            have : zc = cx := (List.cons.injEq _ _ _ _).mp hctx |>.1
            rw [this]
            exact hcx
          have htg : t = g0 ++ ((zc :: zt) ++ (cr ++ X2)) := by
            rw [hQt, hz1]
            simp [List.append_assoc]
          have hafterO : ((zc :: zt) ++ (cr ++ X2)).takeWhile cred1Char ≠ [] := by
            rw [List.cons_append, takeWhile_pos hzc]
            simp
          have hct : (c :: t : Str) = (c :: g0) ++ ((zc :: zt) ++ (cr ++ X2)) := by
            rw [List.cons_append, htg]
          rw [hct, try1_fire hg hafterO] at hnone
          exact absurd hnone (by simp)
      · obtain ⟨e, he1, he2⟩ := split_common hmain.symm (by omega)
        cases e with
        | nil =>
          have := congrArg List.length he1
          simp at this
          simp only [List.length_append] at hl1
          omega
        | cons ec et =>
          have hec : ec = 'P' := by
            rw [plHead, List.cons_append] at he2
            exact ((List.cons.injEq _ _ _ _).mp he2 |>.1).symm
          apply schemeNoP _ hg
          rw [show ('P' : Char) = ec from hec.symm]
          apply List.mem_cons_of_mem
          rw [he1]
          exact List.mem_append_right _ (List.mem_cons_self _ _)

theorem sub2_head_stop1 {X : Str}
    (h : X = [] ∨ ∃ xc xt, X = xc :: xt ∧ cred1Char xc = false) :
    sub2 X = [] ∨ ∃ xc xt, sub2 X = xc :: xt ∧ cred1Char xc = false := by
  rcases h with h | ⟨xc, xt, h, hxc⟩
  · left
    rw [h]
    rfl
  · right
    have hn : try2 X = none := by
      rw [h]
      exact try2_none_head (cred1_not_h hxc) xt
    rw [sub2_eq, hn, h]
    exact ⟨xc, sub2 xt, rfl, hxc⟩

theorem try1R_some_inv {u r X : Str} (h : try1R u = some (r, X)) :
    ∃ g, try1 u = some (g, X) ∧ r = g ++ PLACEHOLDER := by
  unfold try1R at h
  cases h2 : try1 u with
  | none =>
    rw [h2] at h
    simp at h
  | some q =>
    obtain ⟨gg, rr⟩ := q
    rw [h2] at h
    simp only [Option.map_some'] at h
    have hp := Option.some.inj h
    have h1 : gg ++ PLACEHOLDER = r := congrArg Prod.fst hp
    have h3 : rr = X := congrArg Prod.snd hp
    subst h3
    exact ⟨gg, rfl, h1.symm⟩

theorem good1_sub2 : ∀ n a, a.length ≤ n → GoodOf try1R a → GoodOf try1R (sub2 a) := by
  intro n
  induction n with
  | zero =>
    intro a hl hG
    have hnil : a = [] := List.length_eq_zero.mp (by omega)
    subst hnil
    exact hG
  | succ n ih =>
    intro a hl hG
    cases htf : try2 a with
    | none =>
      cases a with
      | nil => exact hG
      | cons c t =>
        have hstep : sub2 (c :: t) = c :: sub2 t := by rw [sub2_eq, htf]
        rw [hstep]
        have hGt : GoodOf try1R t := GoodOf_suffix hG ⟨[c], rfl⟩
        simp only [List.length_cons] at hl
        have hIH := ih t (by omega) hGt
        intro u hu
        rcases List.suffix_cons_iff.mp hu with hu1 | hu2
        · rcases hG (c :: t) List.suffix_rfl with hnon | ⟨r, X1, hsome, hdecu⟩
          · left
            rw [hu1]
            exact try1R_none (T3 (try1R_none_inv hnon))
          · obtain ⟨g, hg1, hreq⟩ := try1R_some_inv hsome
            obtain ⟨after, hgmem, hdec2, hne2, hrest2⟩ := try1_eq hg1
            cases g with
            | nil => exact absurd rfl ((schemeFacts [] hgmem).2.1)
            | cons gc g0 =>
              have hgc : c = gc ∧ t = g0 ++ (PLACEHOLDER ++ X1) := by
                rw [hreq] at hdecu
                rw [List.append_assoc, List.cons_append] at hdecu
                exact ⟨(List.cons.injEq _ _ _ _).mp hdecu |>.1,
                  (List.cons.injEq _ _ _ _).mp hdecu |>.2⟩
              obtain ⟨hgc1, hgt⟩ := hgc
              subst hgc1
              have hX1shape : X1 = [] ∨ ∃ xc xt, X1 = xc :: xt ∧ cred1Char xc = false := by
                rw [hrest2]
                exact dropWhile_shape cred1Char after
              have hcopy : sub2 t = g0 ++ (PLACEHOLDER ++ sub2 X1) := by
                rw [hgt, show g0 ++ (PLACEHOLDER ++ X1) = (g0 ++ PLACEHOLDER) ++ X1 from by
                  simp [List.append_assoc]]
                rw [show sub2 ((g0 ++ PLACEHOLDER) ++ X1) =
                  scanSub try2R ((g0 ++ PLACEHOLDER) ++ X1) from rfl]
                rw [scanSub_copy try2R_shrinks (g0 ++ PLACEHOLDER) X1 ?_]
                · simp [List.append_assoc]
                  rfl
                · intro w2 hw2 hw2ne
                  apply try2R_none
                  cases w2 with
                  | nil => exact absurd rfl hw2ne
                  | cons wc wt =>
                    rw [List.cons_append]
                    apply try2_none_head ?_ _
                    have hmem : wc ∈ g0 ++ PLACEHOLDER :=
                      suffix_mem hw2 wc (List.mem_cons_self _ _)
                    rcases List.mem_append.mp hmem with hm1 | hm1
                    · exact ((schemeFacts _ hgmem).1 wc (List.mem_cons_of_mem _ hm1)).2.2.2.1
                    · exact (plFacts wc hm1).2.2.1
              rw [hu1, hcopy]
              right
              have hZshape := sub2_head_stop1 hX1shape
              have hd := dropWhile_PL hZshape
              refine ⟨(c :: g0) ++ PLACEHOLDER, sub2 X1, ?_, ?_⟩
              · apply try1R_some
                rw [show (c :: (g0 ++ (PLACEHOLDER ++ sub2 X1)) : Str) =
                  (c :: g0) ++ (PLACEHOLDER ++ sub2 X1) from by rw [List.cons_append]]
                rw [try1_fire hgmem (by rw [hd.1]; decide), hd.2]
              · rw [List.cons_append]
                simp [List.append_assoc]
        · exact hIH u hu2
    | some p =>
      obtain ⟨g2, rest⟩ := p
      obtain ⟨sch, m, cr, hsch, hsdec, hg2e, hmne, hcrne, hs2⟩ := try2_eq htf
      obtain ⟨hqm, ⟨c0, t0, hcre, hc0⟩, hXshape, hXnone, hmlast, _⟩ := fire_facts hs2
      have hstep : sub2 a = ((sch ++ m) ++ PLACEHOLDER) ++ sub2 rest := by
        rw [sub2_eq, htf]
        simp [hg2e, List.append_assoc]
      have hsh := try2_shrinks htf
      have hGrest : GoodOf try1R rest := GoodOf_suffix hG
        ⟨(sch ++ m) ++ cr, by rw [hsdec]; simp [List.append_assoc]⟩
      have hIH := ih rest (by omega) hGrest
      have hsmlast : (sch ++ m).getLast? = some '=' := by
        rw [getLast_suffix_eq hmne ⟨sch, rfl⟩]
        exact hmlast
      rw [hstep]
      intro u hu
      rcases suffix_append_split hu with hu1 | ⟨w, hw, hwne, hueq⟩
      · exact hIH u hu1
      · rcases suffix_append_split hw with hw1 | ⟨w2, hw2, hw2ne, hw2eq⟩
        · cases w with
          | nil => exact absurd rfl hwne
          | cons wc wt =>
            left
            have hwcPL : wc ∈ PLACEHOLDER := suffix_mem hw1 wc (List.mem_cons_self _ _)
            have hpf := plFacts wc hwcPL
            apply try1R_none
            rw [hueq, List.cons_append]
            exact try1_none_head hpf.2.2.2.1 hpf.2.2.2.2.1 hpf.2.2.2.2.2.1
              hpf.2.2.2.2.2.2.1 _
        · have hw2last : w2.getLast? = some '=' :=
            (getLast_suffix_eq hw2ne hw2).symm.trans hsmlast
          have hueq2 : u = w2 ++ (PLACEHOLDER ++ sub2 rest) := by
            rw [hueq, hw2eq]
            simp [List.append_assoc]
          cases hty : try1 u with
          | none =>
            left
            exact try1R_none hty
          | some p1 =>
            obtain ⟨g1, r1⟩ := p1
            obtain ⟨after1, hg1, hdec1, hne1, hrest1⟩ := try1_eq hty
            have hEQ : g1 ++ after1 = w2 ++ (PLACEHOLDER ++ sub2 rest) := by
              rw [← hdec1, ← hueq2]
            rcases le_or_lt g1.length w2.length with hl1 | hl1
            · obtain ⟨z, hz1, hz2⟩ := split_common hEQ hl1
              cases z with
              | nil =>
                rw [List.append_nil] at hz1
                have hglast : g1.getLast? = some '/' := (schemeFacts _ hg1).2.2
                rw [← hz1, hw2last] at hglast
                exact absurd (Option.some.inj hglast) (by decide)
              | cons zc zt =>
                have hu0suf : w2 ++ (cr ++ rest) <:+ a := by
                  have ha2 : a = (sch ++ m) ++ (cr ++ rest) := by
                    rw [hsdec]
                    simp [List.append_assoc]
                  rw [ha2]
                  exact suffix_append_right hw2
                have hzlast : (zc :: zt).getLast? = some '=' :=
                  (getLast_suffix_eq (by simp) ⟨g1, hz1.symm⟩).symm.trans hw2last
                rcases hG (w2 ++ (cr ++ rest)) hu0suf with hnon0 | ⟨r0, X0, hsome0, hdec0⟩
                · have hnon0t : try1 (w2 ++ (cr ++ rest)) = none := try1R_none_inv hnon0
                  have hzc : cred1Char zc = false := by
                    by_contra hzcb
                    have hzc2 : cred1Char zc = true := by simpa using hzcb
                    have hfireO : try1 (w2 ++ (cr ++ rest)) =
                        some (g1, ((zc :: zt) ++ (cr ++ rest)).dropWhile cred1Char) := by
                      rw [show w2 ++ (cr ++ rest) = g1 ++ ((zc :: zt) ++ (cr ++ rest)) from by
                        rw [hz1]
                        simp [List.append_assoc]]
                      apply try1_fire hg1
                      rw [List.cons_append, takeWhile_pos hzc2]
                      simp
                    rw [hfireO] at hnon0t
                    exact absurd hnon0t (by simp)
                  exfalso
                  apply hne1
                  rw [hz2, List.cons_append, takeWhile_neg hzc]
                · obtain ⟨g0t, hg0t1, hr0⟩ := try1R_some_inv hsome0
                  obtain ⟨after0, hg0mem, hdec00, hne0, hrest0⟩ := try1_eq hg0t1
                  have heq00 : g0t ++ after0 = g1 ++ ((zc :: zt) ++ (cr ++ rest)) := by
                    rw [← hdec00, hz1]
                    simp [List.append_assoc]
                  have hgg : g1 = g0t := (scheme_unique_pre hg0mem hg1 heq00).symm
                  subst hgg
                  have hkey : (zc :: zt) ++ (cr ++ rest) = PLACEHOLDER ++ X0 := by
                    have h5 : g1 ++ ((zc :: zt) ++ (cr ++ rest)) =
                        g1 ++ (PLACEHOLDER ++ X0) := by
                      rw [show g1 ++ ((zc :: zt) ++ (cr ++ rest)) = w2 ++ (cr ++ rest) from by
                        rw [hz1]
                        simp [List.append_assoc]]
                      rw [hdec0, hr0]
                      simp [List.append_assoc]
                    exact List.append_cancel_left h5
                  rcases le_or_lt (zc :: zt).length PLACEHOLDER.length with hl2 | hl2
                  · obtain ⟨ψ, hψ1, _⟩ := split_common hkey hl2
                    exfalso
                    have hmem : '=' ∈ PLACEHOLDER := by
                      rw [hψ1]
                      exact List.mem_append_left _ (List.mem_of_mem_getLast? hzlast)
                    exact (plFacts '=' hmem).2.2.2.2.2.2.2.2.2.2.1 rfl
                  · obtain ⟨ζp, hζ1, hζ2⟩ := split_common hkey.symm (by omega)
                    have hζpne : ζp ≠ [] := by
                      intro h0
                      rw [h0, List.append_nil] at hζ1
                      rw [← hζ1] at hl2
                      exact lt_irrefl _ hl2
                    have hX0shape : X0 = [] ∨ ∃ xc xt2, X0 = xc :: xt2 ∧
                        cred1Char xc = false := by
                      rw [hrest0]
                      exact dropWhile_shape cred1Char after0
                    obtain ⟨pc, pt, hζpe⟩ : ∃ pc pt, ζp = pc :: pt := by
                      cases ζp with
                      | nil => exact absurd rfl hζpne
                      | cons pc pt => exact ⟨pc, pt, rfl⟩
                    have hpc : cred1Char pc = false := by
                      rcases hX0shape with h0 | ⟨xc, xt2, hxe, hxc⟩
                      · rw [h0] at hζ2
                        rw [hζpe] at hζ2
                        simp at hζ2
                      · rw [hxe, hζpe, List.cons_append] at hζ2
                        have hpx : xc = pc := (List.cons.injEq _ _ _ _).mp hζ2 |>.1
                        rw [← hpx]
                        exact hxc
                    right
                    have hd := @dropWhile_PL (ζp ++ (PLACEHOLDER ++ sub2 rest))
                      (Or.inr ⟨pc, pt ++ (PLACEHOLDER ++ sub2 rest),
                        by rw [hζpe, List.cons_append], hpc⟩)
                    refine ⟨g1 ++ PLACEHOLDER, ζp ++ (PLACEHOLDER ++ sub2 rest), ?_, ?_⟩
                    · apply try1R_some
                      have hurew : u = g1 ++ (PLACEHOLDER ++ (ζp ++ (PLACEHOLDER ++
                          sub2 rest))) := by
                        rw [hueq2, hz1, hζ1]
                        simp [List.append_assoc]
                      rw [hurew, try1_fire hg1 (by rw [hd.1]; decide), hd.2]
                    · rw [hueq2, hz1, hζ1]
                      simp [List.append_assoc]
            · obtain ⟨η, hη1, hη2⟩ := split_common hEQ.symm (by omega)
              cases η with
              | nil =>
                have := congrArg List.length hη1
                simp at this
                omega
              | cons ec et =>
                have hec : ec = 'P' := by
                  rw [plHead, List.cons_append] at hη2
                  exact ((List.cons.injEq _ _ _ _).mp hη2 |>.1).symm
                exfalso
                apply schemeNoP _ hg1
                rw [show ('P' : Char) = ec from hec.symm]
                rw [hη1]
                exact List.mem_append_right _ (List.mem_cons_self _ _)

theorem scanString_idem (s : Str) :
    scanString (scanString s).1 = ((scanString s).1, 0) := by
  have h1 : (scanString s).1 = sub2 (sub1 s) := rfl
  rw [h1]
  have hb1 : sub1 (sub2 (sub1 s)) = sub2 (sub1 s) :=
    scanSub_fix try1R_shrinks try1R_rest_suffix _ _ (le_refl _)
      (good1_sub2 (sub1 s).length (sub1 s) (le_refl _)
        (good1_sub1 s.length s (le_refl _)))
  have hb2 : sub2 (sub2 (sub1 s)) = sub2 (sub1 s) := sub2_idem (sub1 s)
  rw [show scanString (sub2 (sub1 s)) = (sub2 (sub1 (sub2 (sub1 s))),
    (if sub1 (sub2 (sub1 s)) = sub2 (sub1 s) then 0 else 1) +
    (if sub2 (sub1 (sub2 (sub1 s))) = sub1 (sub2 (sub1 s)) then (0 : Nat) else 1))
    from rfl]
  rw [hb1, hb2]
  simp

/-! ## Idempotence of the full engine (claim C1)

A second run of both passes is the identity with change count 0.  The
proof goes through two inductively defined invariants: `KFields` (after
the key pass, every scalar under a sensitive key is a placeholder or
whitespace-only) and `CFields` (additionally every string is a
placeholder or a common fixpoint of both substitution rules). -/

theorem wsChar_facts (c : Char) (h : isWS c = true) :
    c ≠ 'p' ∧ c ≠ 'm' ∧ c ≠ 'r' ∧ c ≠ 'a' ∧ c ≠ 'h' ∧ c ≠ 'B' := by
  have hm : c ∈ pyWhitespace := by
    rw [isWS] at h
    simpa using h
  unfold pyWhitespace at hm
  simp only [List.mem_cons, List.not_mem_nil, or_false] at hm
  rcases hm with rfl | rfl | rfl | rfl | rfl | rfl | rfl | rfl | rfl | rfl | rfl | rfl |
    rfl | rfl | rfl | rfl | rfl | rfl | rfl | rfl | rfl | rfl | rfl | rfl | rfl | rfl |
    rfl | rfl | rfl <;> decide

theorem ws_sub_fixed : ∀ s : Str, (∀ c ∈ s, isWS c = true) → sub1 s = s ∧ sub2 s = s := by
  intro s
  induction s with
  | nil => exact fun _ => ⟨rfl, rfl⟩
  | cons c t ih =>
    intro h
    have hc := wsChar_facts c (h c (List.mem_cons_self _ _))
    have ht := ih (fun x hx => h x (List.mem_cons_of_mem _ hx))
    constructor
    · rw [sub1_eq, try1_none_head hc.1 hc.2.1 hc.2.2.1 hc.2.2.2.1 t]
      exact congrArg (List.cons c) ht.1
    · rw [sub2_eq, try2_none_head hc.2.2.2.2.1 t]
      exact congrArg (List.cons c) ht.2

theorem strip_false_ws {s : Str} (h : strip_truthy s = false) : ∀ c ∈ s, isWS c = true := by
  intro c hc
  by_contra hw
  have hx : s.any (fun c => !(isWS c)) = true :=
    List.any_eq_true.mpr ⟨c, hc, by simp [hw]⟩
  rw [show s.any (fun c => !(isWS c)) = strip_truthy s from rfl, h] at hx
  cases hx

theorem ws_no_bearer {s : Str} (h : ∀ c ∈ s, isWS c = true) : hasPfx bearerPfx s = false := by
  cases s with
  | nil => rfl
  | cons c t =>
    have hc := wsChar_facts c (h c (List.mem_cons_self _ _))
    show (dropPfx bearerPfx (c :: t)).isSome = false
    rw [show bearerPfx = 'B' :: "earer ".toList from rfl]
    simp only [dropPfx]
    rw [if_neg (by exact hc.2.2.2.2.2)]
    rfl

theorem scanString_fixed {s : Str} (h1 : sub1 s = s) (h2 : sub2 s = s) :
    scanString s = (s, 0) := by
  rw [show scanString s = (sub2 (sub1 s),
    (if sub1 s = s then 0 else 1) +
    (if sub2 (sub1 s) = sub1 s then (0 : Nat) else 1)) from rfl]
  rw [h1, h2, if_pos rfl]

theorem scanString_out_fixed (s : Str) :
    sub1 (scanString s).1 = (scanString s).1 ∧ sub2 (scanString s).1 = (scanString s).1 := by
  have h0 : (scanString s).1 = sub2 (sub1 s) := rfl
  rw [h0]
  exact ⟨scanSub_fix try1R_shrinks try1R_rest_suffix _ _ (le_refl _)
      (good1_sub2 (sub1 s).length (sub1 s) (le_refl _)
        (good1_sub1 s.length s (le_refl _))),
    sub2_idem (sub1 s)⟩

/-- A string value acceptable under a sensitive key after the key pass:
already a placeholder, or falsy under `str.strip()`. -/
def KeyStrOK (s : Str) : Prop :=
  is_already_placeholder (.str s) = true ∨ strip_truthy s = false

/-- The constraint a sensitive key imposes on its (scalar) value. -/
def KScalarOK : JValue → Prop
  | .str s => KeyStrOK s
  | _ => True

/-- A string the value scan leaves alone with count 0: a placeholder, or
a fixpoint of both rules. -/
def scanStrOK (s : Str) : Prop :=
  is_already_placeholder (.str s) = true ∨ (sub1 s = s ∧ sub2 s = s)

mutual

inductive KV : JValue → Prop
  | str (s : Str) : KV (.str s)
  | num (n : Int) : KV (.num n)
  | bool (b : Bool) : KV (.bool b)
  | null : KV .null
  | obj (fs : List (Str × JValue)) : KFields fs → KV (.obj fs)
  | arr (xs : List JValue) : KItems xs → KV (.arr xs)

inductive KFields : List (Str × JValue) → Prop
  | nil : KFields []
  | cons (k : Str) (v : JValue) (rest : List (Str × JValue)) :
      KV v → (is_sensitive_key k = true → KScalarOK v) → KFields rest →
      KFields ((k, v) :: rest)

inductive KItems : List JValue → Prop
  | nil : KItems []
  | cons (v : JValue) (rest : List JValue) : KV v → KItems rest → KItems (v :: rest)

end

mutual

inductive CV : JValue → Prop
  | str (s : Str) : scanStrOK s → CV (.str s)
  | num (n : Int) : CV (.num n)
  | bool (b : Bool) : CV (.bool b)
  | null : CV .null
  | obj (fs : List (Str × JValue)) : CFields fs → CV (.obj fs)
  | arr (xs : List JValue) : CItems xs → CV (.arr xs)

inductive CFields : List (Str × JValue) → Prop
  | nil : CFields []
  | cons (k : Str) (v : JValue) (rest : List (Str × JValue)) :
      CV v → (is_sensitive_key k = true → KScalarOK v) → CFields rest →
      CFields ((k, v) :: rest)

inductive CItems : List JValue → Prop
  | nil : CItems []
  | cons (v : JValue) (rest : List JValue) : CV v → CItems rest → CItems (v :: rest)

end

theorem sanitize_value_str (s : Str) (p : Str) :
    sanitize_value (.str s) p =
      if is_already_placeholder (.str s) then ((.str s : JValue), false)
      else if hasPfx bearerPfx s then ((.str bearerPlaceholder : JValue), true)
      else if strip_truthy s then ((.str PLACEHOLDER : JValue), true)
      else ((.str s : JValue), false) := by
  unfold sanitize_value
  rfl

theorem sanitize_value_fixed : ∀ (v : JValue) (p : Str), KScalarOK v →
    sanitize_value v p = (v, false) := by
  intro v p hsc
  cases v with
  | str s =>
    rcases hsc with hg | hst
    · rw [sanitize_value_str, if_pos hg]
    · cases hg : is_already_placeholder (JValue.str s) with
      | true => rw [sanitize_value_str, if_pos hg]
      | false =>
        have hws := strip_false_ws hst
        have hb := ws_no_bearer hws
        rw [sanitize_value_str, if_neg (by simp [hg]), if_neg (by simp [hb]),
          if_neg (by simp [hst])]
  | num n => rfl
  | bool b => rfl
  | null => rfl
  | obj fs => rfl
  | arr xs => rfl

theorem sanitize_value_str_K (s : Str) (p : Str) :
    KV (sanitize_value (.str s) p).1 ∧ KScalarOK (sanitize_value (.str s) p).1 := by
  cases hg : is_already_placeholder (JValue.str s) with
  | true =>
    rw [sanitize_value_str, if_pos hg]
    exact ⟨KV.str s, Or.inl hg⟩
  | false =>
    cases hb : hasPfx bearerPfx s with
    | true =>
      rw [sanitize_value_str, if_neg (by simp [hg]), if_pos hb]
      exact ⟨KV.str _, Or.inl (by decide)⟩
    | false =>
      cases ht : strip_truthy s with
      | true =>
        rw [sanitize_value_str, if_neg (by simp [hg]), if_neg (by simp [hb]), if_pos ht]
        exact ⟨KV.str _, Or.inl (by decide)⟩
      | false =>
        rw [sanitize_value_str, if_neg (by simp [hg]), if_neg (by simp [hb]),
          if_neg (by simp [ht])]
        exact ⟨KV.str s, Or.inr ht⟩

theorem keyPass_K : ∀ n : Nat,
    (∀ data path, sizeOf data ≤ n → KFields (sanitize_dict data path).1) ∧
    (∀ items path idx, sizeOf items ≤ n → KItems (sanitize_list items path idx).1) := by
  intro n
  induction n with
  | zero =>
    constructor
    · intro data _ h1
      exact absurd h1 (by have := one_le_sizeOf_list data; omega)
    · intro items _ _ h1
      exact absurd h1 (by have := one_le_sizeOf_list items; omega)
  | succ n ih =>
    obtain ⟨ih1, ih2⟩ := ih
    constructor
    · intro data path h
      cases data with
      | nil => exact KFields.nil
      | cons kv rest =>
        obtain ⟨k, v⟩ := kv
        rw [sizeOf_fields_cons] at h
        have hrest := one_le_sizeOf_list rest
        have hv := one_le_sizeOf_jvalue v
        rw [sanitize_dict_cons]
        cases v with
        | obj fs =>
          rw [sizeOf_obj] at h
          dsimp only
          exact KFields.cons k _ _ (KV.obj _ (ih1 fs _ (by omega)))
            (fun _ => trivial) (ih1 rest path (by omega))
        | arr xs =>
          rw [sizeOf_arr] at h
          dsimp only
          exact KFields.cons k _ _ (KV.arr _ (ih2 xs _ 0 (by omega)))
            (fun _ => trivial) (ih1 rest path (by omega))
        | str s =>
          dsimp only
          cases hk : is_sensitive_key k with
          | false =>
            exact KFields.cons k _ _ (KV.str s)
              (fun hh => by rw [hk] at hh; cases hh) (ih1 rest path (by omega))
          | true =>
            exact KFields.cons k _ _ (sanitize_value_str_K s (extKey path k)).1
              (fun _ => (sanitize_value_str_K s (extKey path k)).2)
              (ih1 rest path (by omega))
        | num m =>
          dsimp only
          cases hk : is_sensitive_key k with
          | false =>
            exact KFields.cons k _ _ (KV.num m)
              (fun hh => by rw [hk] at hh; cases hh) (ih1 rest path (by omega))
          | true =>
            exact KFields.cons k _ _ (KV.num m) (fun _ => trivial)
              (ih1 rest path (by omega))
        | bool b =>
          dsimp only
          cases hk : is_sensitive_key k with
          | false =>
            exact KFields.cons k _ _ (KV.bool b)
              (fun hh => by rw [hk] at hh; cases hh) (ih1 rest path (by omega))
          | true =>
            exact KFields.cons k _ _ (KV.bool b) (fun _ => trivial)
              (ih1 rest path (by omega))
        | null =>
          dsimp only
          cases hk : is_sensitive_key k with
          | false =>
            exact KFields.cons k _ _ KV.null
              (fun hh => by rw [hk] at hh; cases hh) (ih1 rest path (by omega))
          | true =>
            exact KFields.cons k _ _ KV.null (fun _ => trivial)
              (ih1 rest path (by omega))
    · intro items path idx h
      cases items with
      | nil => exact KItems.nil
      | cons v rest =>
        simp only [List.cons.sizeOf_spec] at h
        have hrest := one_le_sizeOf_list rest
        have hv := one_le_sizeOf_jvalue v
        rw [sanitize_list_cons]
        cases v with
        | obj fs =>
          rw [sizeOf_obj] at h
          dsimp only
          exact KItems.cons _ _ (KV.obj _ (ih1 fs _ (by omega)))
            (ih2 rest path (idx + 1) (by omega))
        | arr xs =>
          rw [sizeOf_arr] at h
          dsimp only
          exact KItems.cons _ _ (KV.arr _ (ih2 xs _ 0 (by omega)))
            (ih2 rest path (idx + 1) (by omega))
        | str s =>
          dsimp only
          exact KItems.cons _ _ (KV.str s) (ih2 rest path (idx + 1) (by omega))
        | num m =>
          dsimp only
          exact KItems.cons _ _ (KV.num m) (ih2 rest path (idx + 1) (by omega))
        | bool b =>
          dsimp only
          exact KItems.cons _ _ (KV.bool b) (ih2 rest path (idx + 1) (by omega))
        | null =>
          dsimp only
          exact KItems.cons _ _ KV.null (ih2 rest path (idx + 1) (by omega))

theorem scan_preserves_KScalarOK (v : JValue) (p : Str) (h : KScalarOK v) :
    KScalarOK (scan_values v p).1 := by
  cases v with
  | str s =>
    cases hg : is_already_placeholder (JValue.str s) with
    | true =>
      rw [scan_values_str, if_pos hg]
      exact h
    | false =>
      rcases h with hgg | hst
      · rw [hg] at hgg
        cases hgg
      · have hws := strip_false_ws hst
        have hsub := ws_sub_fixed s hws
        rw [scan_values_str, if_neg (by simp [hg]), scanString_fixed hsub.1 hsub.2]
        exact Or.inr hst
  | num n =>
    rw [scan_values_num]
    exact trivial
  | bool b =>
    rw [scan_values_bool]
    exact trivial
  | null =>
    rw [scan_values_null]
    exact trivial
  | obj fs =>
    rw [scan_values_obj]
    exact trivial
  | arr xs =>
    rw [scan_values_arr]
    exact trivial

theorem scanPass_C : ∀ n : Nat,
    (∀ v path, sizeOf v ≤ n → KV v → CV (scan_values v path).1) ∧
    (∀ fields path, sizeOf fields ≤ n → KFields fields →
      CFields (scan_values_fields fields path).1) ∧
    (∀ items path idx, sizeOf items ≤ n → KItems items →
      CItems (scan_values_items items path idx).1) := by
  intro n
  induction n with
  | zero =>
    refine ⟨?_, ?_, ?_⟩
    · intro v _ h1 _
      exact absurd h1 (by have := one_le_sizeOf_jvalue v; omega)
    · intro fields _ h1 _
      exact absurd h1 (by have := one_le_sizeOf_list fields; omega)
    · intro items _ _ h1 _
      exact absurd h1 (by have := one_le_sizeOf_list items; omega)
  | succ n ih =>
    obtain ⟨ihv, ihf, ihi⟩ := ih
    refine ⟨?_, ?_, ?_⟩
    · intro v path h hK
      cases v with
      | obj fs =>
        rw [sizeOf_obj] at h
        cases hK with
        | obj fs2 hKf =>
          rw [scan_values_obj]
          exact CV.obj _ (ihf fs path (by omega) hKf)
      | arr xs =>
        rw [sizeOf_arr] at h
        cases hK with
        | arr xs2 hKi =>
          rw [scan_values_arr]
          exact CV.arr _ (ihi xs path 0 (by omega) hKi)
      | str s =>
        cases hg : is_already_placeholder (JValue.str s) with
        | true =>
          rw [scan_values_str, if_pos hg]
          exact CV.str s (Or.inl hg)
        | false =>
          rw [scan_values_str, if_neg (by simp [hg])]
          exact CV.str _ (Or.inr (scanString_out_fixed s))
      | num m =>
        rw [scan_values_num]
        exact CV.num m
      | bool b =>
        rw [scan_values_bool]
        exact CV.bool b
      | null =>
        rw [scan_values_null]
        exact CV.null
    · intro fields path h hK
      cases fields with
      | nil => exact CFields.nil
      | cons kv rest =>
        obtain ⟨k, v⟩ := kv
        rw [sizeOf_fields_cons] at h
        have hrest := one_le_sizeOf_list rest
        have hv := one_le_sizeOf_jvalue v
        cases hK with
        | cons k2 v2 rest2 hKv hsens hKrest =>
          rw [scan_values_fields_cons]
          exact CFields.cons k _ _ (ihv v _ (by omega) hKv)
            (fun hk => scan_preserves_KScalarOK v _ (hsens hk))
            (ihf rest path (by omega) hKrest)
    · intro items path idx h hK
      cases items with
      | nil => exact CItems.nil
      | cons v rest =>
        simp only [List.cons.sizeOf_spec] at h
        have hrest := one_le_sizeOf_list rest
        have hv := one_le_sizeOf_jvalue v
        cases hK with
        | cons v2 rest2 hKv hKrest =>
          rw [scan_values_items_cons]
          exact CItems.cons _ _ (ihv v _ (by omega) hKv)
            (ihi rest path (idx + 1) (by omega) hKrest)

theorem keyPass_fixed : ∀ n : Nat,
    (∀ fields path, sizeOf fields ≤ n → CFields fields →
      sanitize_dict fields path = (fields, 0)) ∧
    (∀ items path idx, sizeOf items ≤ n → CItems items →
      sanitize_list items path idx = (items, 0)) := by
  intro n
  induction n with
  | zero =>
    constructor
    · intro fields _ h1 _
      exact absurd h1 (by have := one_le_sizeOf_list fields; omega)
    · intro items _ _ h1 _
      exact absurd h1 (by have := one_le_sizeOf_list items; omega)
  | succ n ih =>
    obtain ⟨ih1, ih2⟩ := ih
    constructor
    · intro fields path h hC
      cases fields with
      | nil => rfl
      | cons kv rest =>
        obtain ⟨k, v⟩ := kv
        rw [sizeOf_fields_cons] at h
        have hrest := one_le_sizeOf_list rest
        have hv := one_le_sizeOf_jvalue v
        cases hC with
        | cons k2 v2 rest2 hCv hsens hCrest =>
          rw [sanitize_dict_cons]
          cases v with
          | obj fs =>
            rw [sizeOf_obj] at h
            cases hCv with
            | obj fs2 hCf =>
              dsimp only
              rw [ih1 fs _ (by omega) hCf, ih1 rest path (by omega) hCrest]
              rfl
          | arr xs =>
            rw [sizeOf_arr] at h
            cases hCv with
            | arr xs2 hCi =>
              dsimp only
              rw [ih2 xs _ 0 (by omega) hCi, ih1 rest path (by omega) hCrest]
              rfl
          | str s =>
            dsimp only
            rw [ih1 rest path (by omega) hCrest]
            cases hk : is_sensitive_key k with
            | false => rfl
            | true =>
              rw [sanitize_value_fixed _ _ (hsens hk)]
              rfl
          | num m =>
            dsimp only
            rw [ih1 rest path (by omega) hCrest]
            cases hk : is_sensitive_key k with
            | false => rfl
            | true =>
              rw [sanitize_value_fixed _ _ (hsens hk)]
              rfl
          | bool b =>
            dsimp only
            rw [ih1 rest path (by omega) hCrest]
            cases hk : is_sensitive_key k with
            | false => rfl
            | true =>
              rw [sanitize_value_fixed _ _ (hsens hk)]
              rfl
          | null =>
            dsimp only
            rw [ih1 rest path (by omega) hCrest]
            cases hk : is_sensitive_key k with
            | false => rfl
            | true =>
              rw [sanitize_value_fixed _ _ (hsens hk)]
              rfl
    · intro items path idx h hC
      cases items with
      | nil => rfl
      | cons v rest =>
        simp only [List.cons.sizeOf_spec] at h
        have hrest := one_le_sizeOf_list rest
        have hv := one_le_sizeOf_jvalue v
        cases hC with
        | cons v2 rest2 hCv hCrest =>
          rw [sanitize_list_cons]
          cases v with
          | obj fs =>
            rw [sizeOf_obj] at h
            cases hCv with
            | obj fs2 hCf =>
              dsimp only
              rw [ih1 fs _ (by omega) hCf, ih2 rest path (idx + 1) (by omega) hCrest]
              rfl
          | arr xs =>
            rw [sizeOf_arr] at h
            cases hCv with
            | arr xs2 hCi =>
              dsimp only
              rw [ih2 xs _ 0 (by omega) hCi, ih2 rest path (idx + 1) (by omega) hCrest]
              rfl
          | str s =>
            rw [ih2 rest path (idx + 1) (by omega) hCrest]
            rfl
          | num m =>
            rw [ih2 rest path (idx + 1) (by omega) hCrest]
            rfl
          | bool b =>
            rw [ih2 rest path (idx + 1) (by omega) hCrest]
            rfl
          | null =>
            rw [ih2 rest path (idx + 1) (by omega) hCrest]
            rfl

theorem scanPass_fixed : ∀ n : Nat,
    (∀ v path, sizeOf v ≤ n → CV v → scan_values v path = (v, 0)) ∧
    (∀ fields path, sizeOf fields ≤ n → CFields fields →
      scan_values_fields fields path = (fields, 0)) ∧
    (∀ items path idx, sizeOf items ≤ n → CItems items →
      scan_values_items items path idx = (items, 0)) := by
  intro n
  induction n with
  | zero =>
    refine ⟨?_, ?_, ?_⟩
    · intro v _ h1 _
      exact absurd h1 (by have := one_le_sizeOf_jvalue v; omega)
    · intro fields _ h1 _
      exact absurd h1 (by have := one_le_sizeOf_list fields; omega)
    · intro items _ _ h1 _
      exact absurd h1 (by have := one_le_sizeOf_list items; omega)
  | succ n ih =>
    obtain ⟨ihv, ihf, ihi⟩ := ih
    refine ⟨?_, ?_, ?_⟩
    · intro v path h hC
      cases v with
      | obj fs =>
        rw [sizeOf_obj] at h
        cases hC with
        | obj fs2 hCf =>
          rw [scan_values_obj, ihf fs path (by omega) hCf]
      | arr xs =>
        rw [sizeOf_arr] at h
        cases hC with
        | arr xs2 hCi =>
          rw [scan_values_arr, ihi xs path 0 (by omega) hCi]
      | str s =>
        cases hC with
        | str s2 hok =>
          cases hg : is_already_placeholder (JValue.str s) with
          | true => rw [scan_values_str, if_pos hg]
          | false =>
            rcases hok with hgg | hfix
            · rw [hg] at hgg
              cases hgg
            · rw [scan_values_str, if_neg (by simp [hg]),
                scanString_fixed hfix.1 hfix.2]
      | num m => rw [scan_values_num]
      | bool b => rw [scan_values_bool]
      | null => rw [scan_values_null]
    · intro fields path h hC
      cases fields with
      | nil => rfl
      | cons kv rest =>
        obtain ⟨k, v⟩ := kv
        rw [sizeOf_fields_cons] at h
        have hrest := one_le_sizeOf_list rest
        have hv := one_le_sizeOf_jvalue v
        cases hC with
        | cons k2 v2 rest2 hCv hsens hCrest =>
          rw [scan_values_fields_cons, ihv v _ (by omega) hCv,
            ihf rest path (by omega) hCrest]
          rfl
    · intro items path idx h hC
      cases items with
      | nil => rfl
      | cons v rest =>
        simp only [List.cons.sizeOf_spec] at h
        have hrest := one_le_sizeOf_list rest
        have hv := one_le_sizeOf_jvalue v
        cases hC with
        | cons v2 rest2 hCv hCrest =>
          rw [scan_values_items_cons, ihv v _ (by omega) hCv,
            ihi rest path (idx + 1) (by omega) hCrest]
          rfl

/-- **C1**: the full engine (the key-driven pass `sanitize_dict` followed
by the value-scan pass `scan_values`) is idempotent: a second run on the
output of the first returns that tree unchanged, and the second run's
key-pass and value-pass change counts are both 0. -/
theorem C1_idempotence (data : List (Str × JValue)) :
    runEngine (runEngine data).1 = ((runEngine data).1, 0, 0) := by
  have hK : KFields (sanitize_dict data []).1 :=
    (keyPass_K (sizeOf data)).1 data [] (le_refl _)
  have hC : CFields (scan_values_fields (sanitize_dict data []).1 []).1 :=
    (scanPass_C (sizeOf (sanitize_dict data []).1)).2.1 _ [] (le_refl _) hK
  have h0 : (runEngine data).1 = (scan_values_fields (sanitize_dict data []).1 []).1 := rfl
  rw [h0]
  have h1 : sanitize_dict (scan_values_fields (sanitize_dict data []).1 []).1 [] =
      ((scan_values_fields (sanitize_dict data []).1 []).1, 0) :=
    (keyPass_fixed _).1 _ [] (le_refl _) hC
  have h2 : scan_values_fields (scan_values_fields (sanitize_dict data []).1 []).1 [] =
      ((scan_values_fields (sanitize_dict data []).1 []).1, 0) :=
    (scanPass_fixed _).2.1 _ [] (le_refl _) hC
  rw [show runEngine (scan_values_fields (sanitize_dict data []).1 []).1 =
    ((scan_values_fields
        (sanitize_dict (scan_values_fields (sanitize_dict data []).1 []).1 []).1 []).1,
      (sanitize_dict (scan_values_fields (sanitize_dict data []).1 []).1 []).2,
      (scan_values_fields
        (sanitize_dict (scan_values_fields (sanitize_dict data []).1 []).1 []).1 []).2)
    from rfl]
  rw [h1]
  dsimp only
  rw [h2]

end Clawback
